import Mathlib

/-!
# Verification of the MeiliSearch indexing core (update pipelines)

Shallow embedding of the per-index storage and update pipeline of the
`meilisearch-core` crate, restricted to the three source files

  * `src/meilisearch-core/src/update/documents_addition.rs`
  * `src/meilisearch-core/src/update/documents_deletion.rs`
  * `src/meilisearch-core/src/store/main.rs`

together with models of the external capabilities they consume (schema,
tokenizer, `fst` maps and sets, the `sdset` sorted sets, the facet helpers and
the id allocator), which are part of the repository but not part of these
three files; those models are written from the specification and are marked
`Modelled from the spec:` in their doc comments.

Representation choices:
  * `fst::Map` (the `user_ids` store) is a strictly sorted association list,
    so that the stored blob is canonical and state equality is list equality;
  * `sdset` sorted sets and `fst::Set`s are `Finset`s (canonical sorted sets);
  * keyed sub-stores (postings lists, documents fields, …) are functions from
    the key to `Option` of the stored value, with per-document groups stored
    as one optional inner map exactly as the LMDB prefix group behaves;
  * `u64` counters are `Nat` with arithmetic reduced mod `2 ^ 64`.
-/

namespace Meili

/-- JSON values, the document field payloads (`serde_json::Value`). Numbers are
modelled as integers: float semantics are irrelevant to the claims considered
here and the pipelines treat numbers opaquely. -/
inductive Value where
  | null : Value
  | bool (b : Bool) : Value
  | num (n : Int) : Value
  | str (s : String) : Value
  | arr (xs : List Value) : Value
  | obj (kvs : List (String × Value)) : Value

/-- Decidable structural equality on `Value` (deriving is unavailable for
this nested inductive, so the instance is spelled out). -/
def Value.decEqV : (a b : Value) → Decidable (a = b)
  | .null, .null => isTrue rfl
  | .bool x, .bool y =>
      match decEq x y with
      | isTrue h => isTrue (congrArg Value.bool h)
      | isFalse h => isFalse (fun he => h (Value.bool.inj he))
  | .num x, .num y =>
      match decEq x y with
      | isTrue h => isTrue (congrArg Value.num h)
      | isFalse h => isFalse (fun he => h (Value.num.inj he))
  | .str x, .str y =>
      match decEq x y with
      | isTrue h => isTrue (congrArg Value.str h)
      | isFalse h => isFalse (fun he => h (Value.str.inj he))
  | .arr [], .arr [] => isTrue rfl
  | .arr [], .arr (_ :: _) => isFalse (fun he => nomatch Value.arr.inj he)
  | .arr (_ :: _), .arr [] => isFalse (fun he => nomatch Value.arr.inj he)
  | .arr (x :: xs), .arr (y :: ys) =>
      match Value.decEqV x y, Value.decEqV (.arr xs) (.arr ys) with
      | isTrue h1, isTrue h2 => isTrue (by rw [h1, Value.arr.inj h2])
      | isFalse h1, _ =>
          isFalse (fun he => h1 (List.cons.inj (Value.arr.inj he)).1)
      | _, isFalse h2 =>
          isFalse (fun he =>
            h2 (congrArg Value.arr (List.cons.inj (Value.arr.inj he)).2))
  | .obj [], .obj [] => isTrue rfl
  | .obj [], .obj (_ :: _) => isFalse (fun he => nomatch Value.obj.inj he)
  | .obj (_ :: _), .obj [] => isFalse (fun he => nomatch Value.obj.inj he)
  | .obj ((k, x) :: xs), .obj ((l, y) :: ys) =>
      match decEq k l, Value.decEqV x y, Value.decEqV (.obj xs) (.obj ys) with
      | isTrue hk, isTrue h1, isTrue h2 => isTrue (by rw [hk, h1, Value.obj.inj h2])
      | isFalse hk, _, _ =>
          isFalse (fun he =>
            hk (congrArg Prod.fst (List.cons.inj (Value.obj.inj he)).1))
      | _, isFalse h1, _ =>
          isFalse (fun he =>
            h1 (congrArg Prod.snd (List.cons.inj (Value.obj.inj he)).1))
      | _, _, isFalse h2 =>
          isFalse (fun he =>
            h2 (congrArg Value.obj (List.cons.inj (Value.obj.inj he)).2))
  | .null, .bool _ => isFalse (fun he => nomatch he)
  | .null, .num _ => isFalse (fun he => nomatch he)
  | .null, .str _ => isFalse (fun he => nomatch he)
  | .null, .arr _ => isFalse (fun he => nomatch he)
  | .null, .obj _ => isFalse (fun he => nomatch he)
  | .bool _, .null => isFalse (fun he => nomatch he)
  | .bool _, .num _ => isFalse (fun he => nomatch he)
  | .bool _, .str _ => isFalse (fun he => nomatch he)
  | .bool _, .arr _ => isFalse (fun he => nomatch he)
  | .bool _, .obj _ => isFalse (fun he => nomatch he)
  | .num _, .null => isFalse (fun he => nomatch he)
  | .num _, .bool _ => isFalse (fun he => nomatch he)
  | .num _, .str _ => isFalse (fun he => nomatch he)
  | .num _, .arr _ => isFalse (fun he => nomatch he)
  | .num _, .obj _ => isFalse (fun he => nomatch he)
  | .str _, .null => isFalse (fun he => nomatch he)
  | .str _, .bool _ => isFalse (fun he => nomatch he)
  | .str _, .num _ => isFalse (fun he => nomatch he)
  | .str _, .arr _ => isFalse (fun he => nomatch he)
  | .str _, .obj _ => isFalse (fun he => nomatch he)
  | .arr _, .null => isFalse (fun he => nomatch he)
  | .arr _, .bool _ => isFalse (fun he => nomatch he)
  | .arr _, .num _ => isFalse (fun he => nomatch he)
  | .arr _, .str _ => isFalse (fun he => nomatch he)
  | .arr _, .obj _ => isFalse (fun he => nomatch he)
  | .obj _, .null => isFalse (fun he => nomatch he)
  | .obj _, .bool _ => isFalse (fun he => nomatch he)
  | .obj _, .num _ => isFalse (fun he => nomatch he)
  | .obj _, .str _ => isFalse (fun he => nomatch he)
  | .obj _, .arr _ => isFalse (fun he => nomatch he)
termination_by a _ => sizeOf a
decreasing_by all_goals (simp_wf; try omega)

instance : DecidableEq Value := Value.decEqV

/-- A document is a key-insertion-order preserving string-to-value mapping
(`IndexMap<String, Value>`). -/
abbrev Document := List (String × Value)

/-- First binding of a key in a document (`IndexMap` lookup). -/
def docGet (doc : Document) (k : String) : Option Value :=
  (doc.find? (fun kv => kv.1 = k)).map (fun kv => kv.2)

/-- Error kinds surfaced by the update pipelines (`crate::Error`), restricted
to the variants these pipelines can produce. -/
inductive MError where
  | schemaMissing : MError
  | missingPrimaryKey : MError
  | missingDocumentId : MError
  | invalidDocumentIdFormat : MError
deriving DecidableEq

/-- A posting record: 13 bytes `u64 document_id | u16 attribute |
u16 word_index | u8 is_exact` (`DocIndex`). -/
structure DocIndex where
  docId : Nat
  attr : Nat
  wordIndex : Nat
  isExact : Bool
deriving DecidableEq

/-- Modelled from the spec: the tokenizer internals (`RawIndexer` /
`meilisearch-tokenizer`) are an external capability; a tokenizer is any
function from a field value to the list of words it produces, in order. -/
abbrev Tokenizer := Value → List String

/-- The `u64` modulus. -/
def U64LIMIT : Nat := 2 ^ 64

/-- Wrapping `u64` addition (`old + inserted` in
`put_number_of_documents`). -/
def wrapAdd (a b : Nat) : Nat := (a + b) % U64LIMIT

/-- Wrapping `u64` subtraction (`old - deleted_documents_len` in
`put_number_of_documents`); the unchecked release-mode semantics. -/
def wrapSub (a b : Nat) : Nat := (a + (U64LIMIT - b % U64LIMIT)) % U64LIMIT

/-! ## The `fst::Map` model (`user_ids`)

Modelled from the spec: the `fst` crate is an external byte-level format; its
maps are ordered key-value sequences supporting streamed union and
difference.  We represent a map as a strictly sorted association list, which
mirrors the canonical byte representation: two FSTs are byte-equal iff their
key-value sequences are equal.  Per §4.2 of the spec, on a union collision the
codec keeps the value of the new entry (`values[0]` — "Collisions on user id
keep the new value"), and difference keeps the entries of the first stream
whose key is absent from the second. -/

/-- Lexicographic strict order on character lists (byte order of the `fst`
key space), spelled out so that it evaluates inside the kernel. -/
def strLtB : List Char → List Char → Bool
  | [], [] => false
  | [], _ :: _ => true
  | _ :: _, [] => false
  | a :: as, b :: bs => if a < b then true else if b < a then false else strLtB as bs

/-- Strict lexicographic order on strings. -/
def StrLt (a b : String) : Prop := strLtB a.data b.data = true

instance (a b : String) : Decidable (StrLt a b) := by
  unfold StrLt; infer_instance

/-- Association list of a `fst::Map` blob, sorted strictly by key. -/
abbrev FstMap := List (String × Nat)

/-- Lookup in a `fst::Map` (`user_ids.get(userid)`). -/
def fmLookup (m : FstMap) (k : String) : Option Nat :=
  (m.find? (fun e => e.1 = k)).map (fun e => e.2)

/-- Strict sortedness by key: the well-formedness of an FST blob.  (For a
strict order, pairwise sortedness coincides with adjacent sortedness.) -/
def FmSorted (m : FstMap) : Prop := m.Pairwise (fun a b => StrLt a.1 b.1)

instance (m : FstMap) : Decidable (FmSorted m) := by
  unfold FmSorted; infer_instance

/-- Insert into a sorted map, replacing the value on an existing key
(`BTreeMap::insert`, last write wins). -/
def fmInsert : FstMap → String → Nat → FstMap
  | [], k, v => [(k, v)]
  | (k', v') :: rest, k, v =>
    if StrLt k k' then (k, v) :: (k', v') :: rest
    else if k = k' then (k, v) :: rest
    else (k', v') :: fmInsert rest k v

/-- Fuel-indexed merge loop of the two key-ordered streams; the fuel is an
upper bound on the total remaining length, so it never runs out. -/
def mergeGo : Nat → FstMap → FstMap → FstMap
  | _, old, [] => old
  | _, [], new => new
  | 0, old, new => old ++ new
  | fuel + 1, (ko, vo) :: old, (kn, vn) :: new =>
    if StrLt ko kn then (ko, vo) :: mergeGo fuel old ((kn, vn) :: new)
    else if StrLt kn ko then (kn, vn) :: mergeGo fuel ((ko, vo) :: old) new
    else (kn, vn) :: mergeGo fuel old new

/-- Streamed union of the stored map (first stream) with the new map (second
stream), keeping the new value on a key collision
(`Main::merge_user_ids`). -/
def mergeUserIdsMap (old new : FstMap) : FstMap :=
  mergeGo (old.length + new.length) old new

/-- Streamed difference: the entries of the stored map whose key is not among
the removed keys, with their original values (`Main::remove_user_ids`). -/
def removeUserIdsMap (old : FstMap) (keys : List String) : FstMap :=
  old.filter (fun e => decide (e.1 ∉ keys))

/-! ## The schema capability

Modelled from the spec (§3): the `meilisearch-schema` crate is an external
collaborator providing the primary-key field name, `FieldId` interning via
`insert_and_index(name) → FieldId`, and the predicates
`is_indexed : FieldId → Option IndexedPosition` and
`is_ranked : FieldId → bool` together with the sequence of ranked fields.
A `FieldId` is the position of the field in the interning list; fields are
only ever appended, and a field interned during an addition is indexed at the
next free indexed position and is not ranked. -/

structure SchemaField where
  name : String
  indexedPos : Option Nat
  ranked : Bool
deriving DecidableEq

structure Schema where
  primaryKey : Option String
  fields : List SchemaField
deriving DecidableEq

/-- Index of the first element satisfying `p` (spelled out for kernel
evaluation). -/
def listFindIdx {α : Type} (p : α → Bool) : List α → Option Nat
  | [] => none
  | x :: xs => if p x then some 0 else (listFindIdx p xs).map (fun i => i + 1)

namespace Schema

/-- FieldId of an interned name, if present. -/
def fieldIdOf (σ : Schema) (name : String) : Option Nat :=
  listFindIdx (fun f => f.name = name) σ.fields

/-- Field name of a FieldId. -/
def fieldName (σ : Schema) (fid : Nat) : Option String :=
  (σ.fields.get? fid).map SchemaField.name

/-- Number of currently indexed fields: the next free `IndexedPosition`. -/
def nextIndexedPos (σ : Schema) : Nat :=
  (σ.fields.filter (fun f => f.indexedPos.isSome)).length

/-- Modelled from the spec: `schema.insert_and_index(&attribute)` returns the
FieldId of an already interned name unchanged, and otherwise appends the field
as an indexed, unranked one. -/
def insertAndIndex (σ : Schema) (name : String) : Nat × Schema :=
  match σ.fieldIdOf name with
  | some i => (i, σ)
  | none =>
      (σ.fields.length,
        { σ with fields := σ.fields ++ [⟨name, some σ.nextIndexedPos, false⟩] })

/-- `schema.is_indexed(field_id)`. -/
def isIndexedPos (σ : Schema) (fid : Nat) : Option Nat :=
  (σ.fields.get? fid).bind SchemaField.indexedPos

/-- `schema.is_ranked(field_id)`. -/
def isRankedFid (σ : Schema) (fid : Nat) : Bool :=
  ((σ.fields.get? fid).map SchemaField.ranked).getD false

/-- `schema.ranked()`: the FieldIds of the ranked fields. -/
def rankedFields (σ : Schema) : List Nat :=
  (σ.fields.enum.filter (fun p => p.2.ranked)).map Prod.fst

/-- Interned names are duplicate-free; well-formedness of a stored schema. -/
def NamesNodup (σ : Schema) : Prop :=
  (σ.fields.map SchemaField.name).Nodup

instance (σ : Schema) : Decidable σ.NamesNodup := by
  unfold NamesNodup; infer_instance

end Schema

/-! ## The index state

One record per logical sub-store of the `M` transaction space.  Keyed stores
are functions from the key to the optional stored value; the two per-document
prefix groups (`DocumentsFields`, `DocumentsFieldsCounts`) are stored as one
optional inner map per document, so deleting every entry under a document's
prefix is erasing the document's group, and the group is present exactly when
at least one entry under the prefix is. -/

/-- The ranked map: sparse `(DocumentId, FieldId) → Number`. -/
abbrev RankedMap := Nat → Nat → Option Int

structure IndexState where
  /-- `main."schema"`. -/
  schema : Option Schema
  /-- `main."user-ids"`: FST map UserId → DocumentId. -/
  userIds : FstMap
  /-- `main."internal-ids"`: sorted set of DocumentId. -/
  internalIds : Finset Nat
  /-- `main."number-of-documents"`: u64 counter, absent read as 0. -/
  numberOfDocuments : Nat
  /-- `main."words"`: the words FST, `none` when never written. -/
  wordsFst : Option (Finset String)
  /-- `postings-lists`: word → sorted set of `DocIndex`. -/
  postingsLists : String → Option (Finset DocIndex)
  /-- `docs-words`: DocumentId → FST of the words of that document. -/
  docsWords : Nat → Option (Finset String)
  /-- `documents-fields`: DocumentId ⇒ (FieldId → raw JSON value). -/
  documentsFields : Nat → Option (Nat → Option Value)
  /-- `documents-fields-counts`: DocumentId ⇒ (IndexedPosition → u16 count). -/
  documentsFieldsCounts : Nat → Option (Nat → Option Nat)
  /-- `main."ranked-map"`, `none` when never written. -/
  rankedMap : Option RankedMap
  /-- `facets`: (FieldId, facet value) → sorted set of DocumentId, the empty
  set standing for an absent key.  Modelled from the spec: the facet value
  hash is modelled by the value itself. -/
  facets : Nat → Value → Finset Nat
  /-- `main."attributes-for-faceting"`. -/
  attributesForFaceting : Option (Finset Nat)
  /-- `main."stop-words"` FST. -/
  stopWords : Option (Finset String)
  /-- Modelled from the spec: the prefix caches are a pure function of
  `words_fst` and the postings (spec §3 invariant 7, §4.8), rebuilt by
  `compute_short_prefixes` at the end of every update. -/
  prefixCache : String → Finset DocIndex

/-- Modelled from the spec (§4.8): for every prefix of bounded length (2 in
this model), the union of the posting lists of the words starting with it. -/
def computePrefixCache (words : Finset String) (pl : String → Option (Finset DocIndex)) :
    String → Finset DocIndex := fun p =>
  if 1 ≤ p.length ∧ p.length ≤ 2 then
    (words.filter (fun w => p.isPrefixOf w)).biUnion (fun w => (pl w).getD ∅)
  else ∅

/-- The words-FST/postings coupling invariant (spec §3 invariant 3 and §8.6):
every member of `words_fst` owns a present, non-empty posting list, and every
non-member has no posting list stored. -/
def WordsInv (s : IndexState) : Prop :=
  ∀ w, (w ∈ s.wordsFst.getD ∅ → ∃ p, s.postingsLists w = some p ∧ p ≠ ∅) ∧
       (w ∉ s.wordsFst.getD ∅ → s.postingsLists w = none)

/-- A fresh index directory holding only settings (`schema`, optional
stop-words and faceted attributes): the valid initial state. -/
def initialIndex (σ : Schema) (stop : Option (Finset String))
    (attrs : Option (Finset Nat)) : IndexState where
  schema := some σ
  userIds := []
  internalIds := ∅
  numberOfDocuments := 0
  wordsFst := none
  postingsLists := fun _ => none
  docsWords := fun _ => none
  documentsFields := fun _ => none
  documentsFieldsCounts := fun _ => none
  rankedMap := none
  facets := fun _ _ => ∅
  attributesForFaceting := attrs
  stopWords := stop
  prefixCache := fun _ => ∅

/-! ## Facet helpers

Modelled from the spec (§4.4 step 7, §4.5 step 3): `facets::facet_map_from_docs`
draws each faceted attribute's value from the incoming documents, and
`facets::facet_map_from_docids` draws it from the persisted `DocumentsFields`;
`index.facets.add` unions the produced document-id sets into the store and
`index.facets.remove` subtracts them. -/

/-- Field lookup through the per-document group. -/
def fieldLookup (s : IndexState) (d : Nat) (fid : Nat) : Option Value :=
  (s.documentsFields d).bind (fun m => m fid)

def facetMapFromDocs (σ : Schema) (attrs : Finset Nat)
    (additions : List (Nat × Document)) : Nat → Value → Finset Nat := fun f v =>
  if f ∈ attrs then
    ((additions.filter (fun dv => (σ.fieldName f).bind (docGet dv.2) = some v)).map
      Prod.fst).toFinset
  else ∅

def facetMapFromDocids (s : IndexState) (attrs : Finset Nat)
    (docIds : Finset Nat) : Nat → Value → Finset Nat := fun f v =>
  if f ∈ attrs then docIds.filter (fun d => fieldLookup s d f = some v) else ∅

def facetsAdd (F M : Nat → Value → Finset Nat) : Nat → Value → Finset Nat :=
  fun f v => F f v ∪ M f v

def facetsRemove (F M : Nat → Value → Finset Nat) : Nat → Value → Finset Nat :=
  fun f v => F f v \ M f v

/-! ## The deletion pipeline (`apply_documents_deletion`)

The body after id resolution, parameterised by the resolved DocumentId set
and by the UserId keys to remove, exactly as
`src/meilisearch-core/src/update/documents_deletion.rs` performs it. -/

/-- Words of a document as read from `docs-words` (absent read as empty). -/
def wordsOfDoc (s : IndexState) (d : Nat) : Finset String :=
  (s.docsWords d).getD ∅

/-- The words scheduled for posting removal: every word of every resolved
document (`words_document_ids` keys). -/
def delAffectedWords (s : IndexState) (docIds : Finset Nat) : Finset String :=
  docIds.biUnion (wordsOfDoc s)

/-- The resolved documents owning the word `w`
(`words_document_ids[w]`). -/
def delIdsOfWord (s : IndexState) (docIds : Finset Nat) (w : String) : Finset Nat :=
  docIds.filter (fun d => w ∈ wordsOfDoc s d)

/-- The posting store after the key-based difference: for each affected word,
`new = old ∖ {m | m.document_id ∈ removed}`, deleting the list when it
empties. -/
def delPostings (s : IndexState) (docIds : Finset Nat) :
    String → Option (Finset DocIndex) := fun w =>
  if w ∈ delAffectedWords s docIds then
    match s.postingsLists w with
    | some p =>
        let np := p.filter (fun r => r.docId ∉ delIdsOfWord s docIds w)
        if np = ∅ then none else some np
    | none => none
  else s.postingsLists w

/-- The words whose posting list existed and became empty
(`removed_words`). -/
def delRemovedWords (s : IndexState) (docIds : Finset Nat) : Finset String :=
  (delAffectedWords s docIds).filter
    (fun w => (s.postingsLists w).isSome ∧ delPostings s docIds w = none)

/-- The resolved documents reached by the per-word loop: those owning at least
one word.  Only these have their `DocumentsFields` / `DocumentsFieldsCounts`
prefixes deleted. -/
def delTouched (s : IndexState) (docIds : Finset Nat) : Finset Nat :=
  docIds.filter (fun d => wordsOfDoc s d ≠ ∅)

/-- The documents counted as actually deleted (`deleted_documents`): touched
by the word loop and owning at least one `DocumentsFields` entry
(`del_all_document_fields(..) != 0`). -/
def delDeletedDocs (s : IndexState) (docIds : Finset Nat) : Finset Nat :=
  (delTouched s docIds).filter (fun d => (s.documentsFields d).isSome)

/-- The deletion body (`apply_documents_deletion` lines 96–187), applied to an
already-resolved DocumentId set and the UserId keys to drop. -/
def deletionCore (σ : Schema) (s : IndexState) (removalKeys : List String)
    (docIds : Finset Nat) : IndexState :=
  let rm : RankedMap := s.rankedMap.getD (fun _ _ => none)
  let facets' := match s.attributesForFaceting with
    | some attrs => facetsRemove s.facets (facetMapFromDocids s attrs docIds)
    | none => s.facets
  let rm' : RankedMap := fun d f =>
    if d ∈ docIds ∧ f ∈ σ.rankedFields then none else rm d f
  let pl' := delPostings s docIds
  let fst' := match s.wordsFst with
    | some w => some (w \ delRemovedWords s docIds)
    | none => some ∅
  { schema := s.schema
    userIds := removeUserIdsMap s.userIds removalKeys
    internalIds := s.internalIds \ docIds
    numberOfDocuments := wrapSub s.numberOfDocuments (delDeletedDocs s docIds).card
    wordsFst := fst'
    postingsLists := pl'
    docsWords := fun d => if d ∈ delDeletedDocs s docIds then none else s.docsWords d
    documentsFields := fun d => if d ∈ delTouched s docIds then none else s.documentsFields d
    documentsFieldsCounts := fun d =>
      if d ∈ delTouched s docIds then none else s.documentsFieldsCounts d
    rankedMap := some rm'
    facets := facets'
    attributesForFaceting := s.attributesForFaceting
    stopWords := s.stopWords
    prefixCache := computePrefixCache (fst'.getD ∅) pl' }

/-- Resolution of the deletion list: each UserId looked up in the `user_ids`
FST, unknown ids silently skipped, result deduplicated into a sorted set. -/
def resolvedIds (s : IndexState) (deletion : List String) : Finset Nat :=
  (deletion.filterMap (fmLookup s.userIds)).toFinset

/-- `apply_documents_deletion(writer, index, deletion)`: resolve the UserIds,
fail with `SchemaMissing` when no schema is stored, and run the deletion
body. -/
def applyDocumentsDeletion (s : IndexState) (deletion : List String) :
    Except MError IndexState :=
  match s.schema with
  | none => Except.error MError.schemaMissing
  | some σ => Except.ok (deletionCore σ s deletion (resolvedIds s deletion))

/-! ## The id allocator (`DiscoverIds`)

Modelled from the spec (§4.6): given the set of live internal ids, yields
fresh ids in ascending order from the complement; consuming an id and asking
again yields the next free one, which is the least id outside the used set. -/

/-- Bounded scan for the least number `≥ c` outside `s`. -/
def mexFrom : Nat → Finset Nat → Nat → Nat
  | 0, _, c => c
  | fuel + 1, s, c => if c ∈ s then mexFrom fuel s (c + 1) else c

/-- The least id not in `used`: the next id `DiscoverIds` yields when `used`
is the set of live-or-already-consumed ids. -/
def nextFreeId (used : Finset Nat) : Nat := mexFrom (used.card + 1) used 0

/-! ## The addition pipeline (`apply_addition`) -/

/-- Modelled from the spec (§4.4 step 2): the primary-key value of a document
converted to a UserId — a string as itself, an integer via its decimal form,
anything else rejected. -/
def valueToUserId : Value → Option String
  | Value.str s => some s
  | Value.num n => some (toString n)
  | _ => none

/-- Modelled from the spec (§4.4 step 2, `helpers::extract_document_id`):
extract the primary-key value, reject a missing or ill-typed one, reuse the
DocumentId of an already known UserId and otherwise consume the next free id.
Returns the resolved id, the UserId and the updated used-id set. -/
def extractDocumentId (pk : String) (doc : Document) (userIds : FstMap)
    (used : Finset Nat) : Except MError (Nat × String × Finset Nat) :=
  match docGet doc pk with
  | none => Except.error MError.missingDocumentId
  | some v =>
    match valueToUserId v with
    | none => Except.error MError.invalidDocumentIdFormat
    | some uid =>
      match fmLookup userIds uid with
      | some id => Except.ok (id, uid, used)
      | none => Except.ok (nextFreeId used, uid, insert (nextFreeId used) used)

/-- Insert into the `documents_additions` map keyed by DocumentId: replacing
the whole document on an existing key, appending otherwise (`HashMap::insert`;
iteration order is modelled as first-insertion order). -/
def addInsert : List (Nat × Document) → Nat → Document → List (Nat × Document)
  | [], d, doc => [(d, doc)]
  | (d', doc') :: rest, d, doc =>
    if d' = d then (d, doc) :: rest else (d', doc') :: addInsert rest d doc

/-- The previously stored document of `d`, as the Deserializer reads it back:
every stored field decoded under its schema name, in FieldId order. -/
def oldDocOf (s : IndexState) (σ : Schema) (d : Nat) : Document :=
  σ.fields.enum.filterMap (fun p => (fieldLookup s d p.1).map (fun v => (p.2.name, v)))

/-- Partial-merge of the incoming document over the stored one: for every
field absent from the incoming document, insert the old value
(`document.entry(key).or_insert(value)`); the incoming document wins on any
colliding key. -/
def partialMerge (doc old : Document) : Document :=
  doc ++ old.filter (fun kv => (docGet doc kv.1).isNone)

/-- Accumulator of the resolution loop (`apply_addition` step 1). -/
structure ResState where
  /-- `new_user_ids : BTreeMap<String, u64>` (canonical sorted map). -/
  newUser : FstMap
  /-- `new_internal_ids : Vec<DocumentId>` (every resolved id, in order). -/
  newInternal : List Nat
  /-- The ids already consumed by `DiscoverIds`, seeding set included. -/
  used : Finset Nat
  /-- `documents_additions : HashMap<DocumentId, IndexMap<String, Value>>`. -/
  additions : List (Nat × Document)

/-- One step of the resolution loop: resolve the identity of `doc`, perform
the partial read-back merge when `isPart`, and store the document into the
additions map. -/
def resolveStep (s : IndexState) (σ : Schema) (pk : String) (isPart : Bool)
    (r : ResState) (doc : Document) : Except MError ResState :=
  match extractDocumentId pk doc s.userIds r.used with
  | Except.error e => Except.error e
  | Except.ok (d, uid, used') =>
    let doc' := if isPart then partialMerge doc (oldDocOf s σ d) else doc
    Except.ok
      { newUser := fmInsert r.newUser uid d
        newInternal := r.newInternal ++ [d]
        used := used'
        additions := addInsert r.additions d doc' }

/-- The resolution loop over the whole batch. -/
def resolveDocs (s : IndexState) (σ : Schema) (pk : String) (isPart : Bool) :
    List Document → ResState → Except MError ResState
  | [], r => Except.ok r
  | doc :: docs, r =>
    match resolveStep s σ pk isPart r doc with
    | Except.error e => Except.error e
    | Except.ok r' => resolveDocs s σ pk isPart docs r'

/-- The DocumentIds of the additions map (`documents_ids`, deduplicated). -/
def additionIds (additions : List (Nat × Document)) : Finset Nat :=
  (additions.map Prod.fst).toFinset

/-! ### In-memory indexing (`RawIndexer` and `index_document`) -/

/-- Modelled from the spec: the indexer is seeded with the stop-words FST and
drops stop words from the token stream. -/
def tokensOf (stop : Finset String) (tok : Tokenizer) (v : Value) : List String :=
  (tok v).filter (fun t => t ∉ stop)

/-- An indexing event: one `index_value(indexer, document_id, indexed_pos,
value)` call, already tokenized. -/
abbrev IndexEvent := Nat × Nat × List String

/-- The raw `(word, DocIndex)` pairs an event list produces: token `j` of an
event at indexed position `pos` becomes the record
`(document_id, attribute = pos, word_index = j, is_exact)`; `attribute` and
`word_index` are `u16`.  Modelled from the spec glossary (posting =
`(document, attribute, position)`); `is_exact` is modelled as `true`. -/
def allRecords (events : List IndexEvent) : List (String × DocIndex) :=
  events.flatMap (fun e =>
    e.2.2.enum.map (fun jt => (jt.2, ⟨e.1, e.2.1 % 65536, jt.1 % 65536, true⟩)))

/-- The sorted key set of `indexed.words_doc_indexes` (`delta_words`). -/
def deltaWords (events : List IndexEvent) : Finset String :=
  ((allRecords events).map Prod.fst).toFinset

/-- `indexed.words_doc_indexes[w]`: the posting delta of a word. -/
def recordsOf (events : List IndexEvent) (w : String) : Finset DocIndex :=
  (((allRecords events).filter (fun e => e.1 = w)).map Prod.snd).toFinset

/-- `indexed.docs_words[d]`: the words of a document, empty when the document
produced no token. -/
def docsWordsOfEvents (events : List IndexEvent) (d : Nat) : Finset String :=
  (((allRecords events).filter (fun e => e.2.docId = d)).map Prod.fst).toFinset

/-- Accumulator of the per-field indexing loop (`index_document`). -/
structure IndexAcc where
  σ : Schema
  fields : Nat → Option (Nat → Option Value)
  counts : Nat → Option (Nat → Option Nat)
  rm : RankedMap
  events : List IndexEvent

/-- `DocumentsFields::put_document_field`. -/
def putField (fields : Nat → Option (Nat → Option Value)) (d fid : Nat) (v : Value) :
    Nat → Option (Nat → Option Value) := fun d' =>
  if d' = d then
    some (fun fid' => if fid' = fid then some v else ((fields d).getD (fun _ => none)) fid')
  else fields d'

/-- `DocumentsFieldsCounts::put_document_field_count` (`u16` count). -/
def putCount (counts : Nat → Option (Nat → Option Nat)) (d pos n : Nat) :
    Nat → Option (Nat → Option Nat) := fun d' =>
  if d' = d then
    some (fun p' => if p' = pos then some (n % 65536) else ((counts d).getD (fun _ => none)) p')
  else counts d'

/-- Modelled from the spec: `value_to_number` coerces the value to a number,
zero on failure. -/
def valueToNumber : Value → Int
  | Value.num n => n
  | _ => 0

/-- `index_document` for one `(attribute, value)` pair of a document: intern
the field, persist its raw value, feed indexed fields to the indexer (storing
the non-zero token count), and insert ranked fields into the ranked map. -/
def indexField (stop : Finset String) (tok : Tokenizer) (d : Nat)
    (acc : IndexAcc) (kv : String × Value) : IndexAcc :=
  let fidσ := acc.σ.insertAndIndex kv.1
  let fields' := putField acc.fields d fidσ.1 kv.2
  match fidσ.2.isIndexedPos fidσ.1 with
  | some pos =>
      let ts := tokensOf stop tok kv.2
      { σ := fidσ.2
        fields := fields'
        counts := if ts = [] then acc.counts else putCount acc.counts d pos ts.length
        rm := if fidσ.2.isRankedFid fidσ.1 then
                fun d' f' => if d' = d ∧ f' = fidσ.1 then some (valueToNumber kv.2)
                             else acc.rm d' f'
              else acc.rm
        events := acc.events ++ [(d, pos, ts)] }
  | none =>
      { σ := fidσ.2
        fields := fields'
        counts := acc.counts
        rm := if fidσ.2.isRankedFid fidσ.1 then
                fun d' f' => if d' = d ∧ f' = fidσ.1 then some (valueToNumber kv.2)
                             else acc.rm d' f'
              else acc.rm
        events := acc.events }

/-- The indexing loop over every document of the batch and every field of each
document. -/
def indexDocs (stop : Finset String) (tok : Tokenizer) (acc : IndexAcc) :
    List (Nat × Document) → IndexAcc
  | [] => acc
  | (d, doc) :: rest => indexDocs stop tok (doc.foldl (indexField stop tok d) acc) rest

/-- The schema after interning a list of field names in order
(the schema projection of the indexing fold). -/
def schemaFold (σ : Schema) (names : List String) : Schema :=
  names.foldl (fun σ n => (σ.insertAndIndex n).2) σ

/-- The canonical indexing accumulator of a single document, folded from
empty per-document stores; used to state that re-indexing a document
reproduces the same artifacts. -/
def docAcc (stop : Finset String) (tok : Tokenizer) (σ : Schema) (d : Nat)
    (D : Document) : IndexAcc :=
  D.foldl (indexField stop tok d)
    ⟨σ, fun _ => none, fun _ => none, fun _ _ => none, []⟩

/-- `write_documents_addition_index`: merge each produced posting delta into
the store, persist the per-document word FSTs, union the delta words into the
words FST, store the ranked map, bump `number_of_documents` by the number of
inserted documents and recompute the prefix caches. -/
def writeIndex (s : IndexState) (rm : RankedMap) (inserted : Nat)
    (events : List IndexEvent) : IndexState :=
  let pl' : String → Option (Finset DocIndex) := fun w =>
    if w ∈ deltaWords events then
      some ((s.postingsLists w).getD ∅ ∪ recordsOf events w)
    else s.postingsLists w
  let fst' := some ((s.wordsFst.getD ∅) ∪ deltaWords events)
  { s with
    postingsLists := pl'
    docsWords := fun d =>
      if docsWordsOfEvents events d = ∅ then s.docsWords d
      else some (docsWordsOfEvents events d)
    wordsFst := fst'
    rankedMap := some rm
    numberOfDocuments := wrapAdd s.numberOfDocuments inserted
    prefixCache := computePrefixCache (fst'.getD ∅) pl' }

/-- The state after step 2 of `apply_addition`: the deletion pipeline applied
to the resolved DocumentIds ("2. remove the documents posting lists"; the
prior versions of the batch are deleted before re-indexing). -/
def additionDeleted (s : IndexState) (σ : Schema) (r : ResState) : IndexState :=
  deletionCore σ s [] (additionIds r.additions)

/-- The indexing loop of `apply_addition` step 3, run over the post-deletion
stores with the freshly loaded ranked map and stop words. -/
def additionAcc (tok : Tokenizer) (s : IndexState) (σ : Schema)
    (r : ResState) : IndexAcc :=
  indexDocs ((additionDeleted s σ r).stopWords.getD ∅) tok
    ⟨σ, (additionDeleted s σ r).documentsFields,
      (additionDeleted s σ r).documentsFieldsCounts,
      ((additionDeleted s σ r).rankedMap).getD (fun _ _ => none), []⟩
    r.additions

/-- The committed effect of a successful `apply_addition` once the batch has
been resolved: delete the prior versions of the resolved DocumentIds, fan the
facet contributions out, index every document's fields, write the inverted
structures back, store the updated schema and merge the id maps. -/
def applyAdditionOk (tok : Tokenizer) (s : IndexState) (σ : Schema)
    (r : ResState) : IndexState :=
  let s₁ := additionDeleted s σ r
  let facets' := match s₁.attributesForFaceting with
    | some attrs => facetsAdd s₁.facets (facetMapFromDocs σ attrs r.additions)
    | none => s₁.facets
  let acc := additionAcc tok s σ r
  let s₃ := writeIndex
    { s₁ with
      facets := facets'
      documentsFields := acc.fields
      documentsFieldsCounts := acc.counts }
    acc.rm r.additions.length acc.events
  { s₃ with
    schema := some acc.σ
    userIds := mergeUserIdsMap s₃.userIds r.newUser
    internalIds := s₃.internalIds ∪ r.newInternal.toFinset }

/-- `apply_addition(writer, index, new_documents, partial)`: fail with
`SchemaMissing` when no schema is stored and with `MissingPrimaryKey` when the
schema has none, resolve every document's identity (erroring out on a missing
or ill-formed primary-key value), then commit the batch. -/
def applyAddition (tok : Tokenizer) (s : IndexState) (newDocuments : List Document)
    (isPart : Bool) : Except MError IndexState :=
  match s.schema with
  | none => Except.error MError.schemaMissing
  | some σ =>
    match σ.primaryKey with
    | none => Except.error MError.missingPrimaryKey
    | some pk =>
      match resolveDocs s σ pk isPart newDocuments ⟨[], [], s.internalIds, []⟩ with
      | Except.error e => Except.error e
      | Except.ok r => Except.ok (applyAdditionOk tok s σ r)

/-- `apply_documents_addition`. -/
def applyDocumentsAddition (tok : Tokenizer) (s : IndexState)
    (newDocuments : List Document) : Except MError IndexState :=
  applyAddition tok s newDocuments false

/-- `apply_documents_partial_addition`. -/
def applyDocumentsPartialAddition (tok : Tokenizer) (s : IndexState)
    (newDocuments : List Document) : Except MError IndexState :=
  applyAddition tok s newDocuments true

/-! ## Statement helpers, invariants and reachability -/

/-- Left-biased choice on optionals, for stating lookup semantics. -/
def optOr {α : Type} (a b : Option α) : Option α :=
  match a with
  | some v => some v
  | none => b

/-- The stored document field of DocumentId `d` under the schema name `n`. -/
def nameLookup (s : IndexState) (d : Nat) (n : String) : Option Value :=
  match s.schema with
  | some σ => (σ.fieldIdOf n).bind (fieldLookup s d)
  | none => none

/-- The UserId a document would resolve to under schema `σ`. -/
def docUidIn (σ : Schema) (doc : Document) : Option String :=
  σ.primaryKey.bind (fun pk => (docGet doc pk).bind valueToUserId)

/-- No two documents of the batch carry the same not-yet-stored UserId: the
resolver (spec §4.4 step 2) checks only the stored `user_ids` FST, so two
documents sharing a fresh UserId would each consume a fresh internal id. -/
def NoDupFresh (s : IndexState) (σ : Schema) (docs : List Document) : Prop :=
  docs.Pairwise (fun d₁ d₂ => ∀ u,
    docUidIn σ d₁ = some u → docUidIn σ d₂ = some u → (fmLookup s.userIds u).isSome)

/-- Every document of the (resolved, merged, collapsed) batch produces at
least one indexed word, so it obtains a `docs-words` entry. -/
def AdditionWorded (tok : Tokenizer) (s : IndexState) (docs : List Document)
    (isPart : Bool) : Prop :=
  match s.schema with
  | none => True
  | some σ =>
    match σ.primaryKey with
    | none => True
    | some pk =>
      match resolveDocs s σ pk isPart docs ⟨[], [], s.internalIds, []⟩ with
      | Except.error _ => True
      | Except.ok r =>
          ∀ d ∈ additionIds r.additions,
            docsWordsOfEvents (additionAcc tok s σ r).events d ≠ ∅

/-- The inductive invariant of a live index: the documented invariants of
spec §3 for the sub-stores this development models, stated against the stored
schema `σ`. -/
structure WFS (σ : Schema) (s : IndexState) : Prop where
  schemaEq : s.schema = some σ
  namesNodup : σ.NamesNodup
  sorted : FmSorted s.userIds
  lookupInj : ∀ u v id, fmLookup s.userIds u = some id →
    fmLookup s.userIds v = some id → u = v
  lookupMem : ∀ u id, fmLookup s.userIds u = some id → id ∈ s.internalIds
  lookupSurj : ∀ id, id ∈ s.internalIds → ∃ u, fmLookup s.userIds u = some id
  count : s.numberOfDocuments = s.internalIds.card
  capacity : s.internalIds.card < U64LIMIT
  live : ∀ d, d ∈ s.internalIds →
    (s.documentsFields d).isSome ∧ wordsOfDoc s d ≠ ∅
  fieldsDom : ∀ d, (s.documentsFields d).isSome → d ∈ s.internalIds
  wordsDom : ∀ d, (s.docsWords d).isSome → d ∈ s.internalIds
  countsWords : ∀ d, (s.documentsFieldsCounts d).isSome → wordsOfDoc s d ≠ ∅
  cover : ∀ w p r, s.postingsLists w = some p → r ∈ p →
    w ∈ wordsOfDoc s r.docId
  rmRanked : ∀ rm d f, s.rankedMap = some rm → (rm d f).isSome →
    f ∈ σ.rankedFields

/-- Inductive invariant of the resolution loop (`apply_addition` step 1),
stated relative to the starting transaction state `s`. -/
structure ResInv (s : IndexState) (r : ResState) : Prop where
  sorted : FmSorted r.newUser
  vals : ∀ u id, fmLookup r.newUser u = some id →
    fmLookup s.userIds u = some id ∨
      (fmLookup s.userIds u = none ∧ id ∉ s.internalIds)
  valsUsed : ∀ u id, fmLookup r.newUser u = some id → id ∈ r.used
  baseUsed : s.internalIds ⊆ r.used
  cmbInj : ∀ u v id,
    optOr (fmLookup r.newUser u) (fmLookup s.userIds u) = some id →
    optOr (fmLookup r.newUser v) (fmLookup s.userIds v) = some id → u = v
  internalWitness : ∀ id, id ∈ r.newInternal →
    ∃ u, fmLookup r.newUser u = some id
  valsInternal : ∀ u id, fmLookup r.newUser u = some id → id ∈ r.newInternal
  idsEq : additionIds r.additions = r.newInternal.toFinset
  docsNonempty : ∀ p, p ∈ r.additions → p.2 ≠ []
  keysNodup : (r.additions.map Prod.fst).Nodup

/-- States reachable by committed additions, partial additions and deletions
from a fresh index directory. -/
inductive Reachable (tok : Tokenizer) : IndexState → Prop
  | init (σ : Schema) (stop : Option (Finset String)) (attrs : Option (Finset Nat)) :
      Reachable tok (initialIndex σ stop attrs)
  | add (s s' : IndexState) (docs : List Document) (isPart : Bool) :
      Reachable tok s → applyAddition tok s docs isPart = Except.ok s' →
      Reachable tok s'
  | del (s s' : IndexState) (l : List String) :
      Reachable tok s → applyDocumentsDeletion s l = Except.ok s' →
      Reachable tok s'

/-- Reachability restricted to the batches the identity invariants survive:
no addition batch repeats a fresh UserId, every added document produces at
least one indexed word, and the document count stays below the `u64`
capacity. -/
inductive ReachableGood (tok : Tokenizer) : IndexState → Prop
  | init (σ : Schema) (stop : Option (Finset String)) (attrs : Option (Finset Nat)) :
      σ.NamesNodup → ReachableGood tok (initialIndex σ stop attrs)
  | add (s s' : IndexState) (docs : List Document) (isPart : Bool) (σ : Schema) :
      ReachableGood tok s → s.schema = some σ →
      NoDupFresh s σ docs → AdditionWorded tok s docs isPart →
      s'.internalIds.card < U64LIMIT →
      applyAddition tok s docs isPart = Except.ok s' →
      ReachableGood tok s'
  | del (s s' : IndexState) (l : List String) :
      ReachableGood tok s → applyDocumentsDeletion s l = Except.ok s' →
      ReachableGood tok s'

/-! ## Concrete fixtures for witnesses and counterexamples -/

/-- The committed result of an addition, the input state on error. -/
def addOk (tok : Tokenizer) (s : IndexState) (docs : List Document) : IndexState :=
  match applyDocumentsAddition tok s docs with
  | Except.ok s' => s'
  | Except.error _ => s

/-- The committed result of a partial addition, the input state on error. -/
def partialAddOk (tok : Tokenizer) (s : IndexState) (docs : List Document) :
    IndexState :=
  match applyDocumentsPartialAddition tok s docs with
  | Except.ok s' => s'
  | Except.error _ => s

/-- The committed result of a deletion, the input state on error. -/
def delOk (s : IndexState) (l : List String) : IndexState :=
  match applyDocumentsDeletion s l with
  | Except.ok s' => s'
  | Except.error _ => s

/-- A schema with primary key `id`, already interned and indexed. -/
def exSchema : Schema := ⟨some "id", [⟨"id", some 0, false⟩]⟩

/-- The empty index holding `exSchema`. -/
def exInit : IndexState := initialIndex exSchema none none

/-- A tokenizer producing the string value itself as its single word. -/
def tokWord : Tokenizer := fun v =>
  match v with
  | Value.str s => [s]
  | _ => []

/-- A tokenizer producing no words: the behaviour of the real indexer on a
document whose values are all stop words or non-textual. -/
def tokEmpty : Tokenizer := fun _ => []

/-- The document `{id: "a"}`. -/
def exDocA : Document := [("id", Value.str "a")]

/-- The document `{id: "a", x: 1}`. -/
def exDocAX : Document := [("id", Value.str "a"), ("x", Value.num 1)]

/-- The document `{id: "a", y: 2}`. -/
def exDocAY : Document := [("id", Value.str "a"), ("y", Value.num 2)]

/-- The document `{id: "u", a: 1}`. -/
def exDocUA : Document := [("id", Value.str "u"), ("a", Value.num 1)]

/-- The document `{id: "u", b: 2}`. -/
def exDocUB : Document := [("id", Value.str "u"), ("b", Value.num 2)]

/-- An index directory with no schema stored. -/
def exNoSchema : IndexState := { exInit with schema := none }

/-! # Theorems -/

/-! ## The string order -/

theorem strLtB_irrefl : ∀ l : List Char, strLtB l l = false := by
  intro l
  induction l with
  | nil => rfl
  | cons a l ih => simp [strLtB, lt_irrefl, ih]

theorem strLtB_trans : ∀ a b c : List Char,
    strLtB a b = true → strLtB b c = true → strLtB a c = true := by
  intro a
  induction a with
  | nil =>
    intro b c hab hbc
    cases b with
    | nil => exact hbc
    | cons y ys =>
      cases c with
      | nil => simp [strLtB] at hbc
      | cons z zs => rfl
  | cons x xs ih =>
    intro b c hab hbc
    cases b with
    | nil => simp [strLtB] at hab
    | cons y ys =>
      cases c with
      | nil => simp [strLtB] at hbc
      | cons z zs =>
        simp only [strLtB] at hab hbc ⊢
        by_cases hxy : x < y
        · by_cases hyz : y < z
          · simp [lt_trans hxy hyz]
          · by_cases hzy : z < y
            · simp [hyz, hzy] at hbc
            · have hyzeq : y = z := le_antisymm (not_lt.mp hzy) (not_lt.mp hyz)
              subst hyzeq
              simp [hxy]
        · by_cases hyx : y < x
          · simp [hxy, hyx] at hab
          · have hxyeq : x = y := le_antisymm (not_lt.mp hyx) (not_lt.mp hxy)
            subst hxyeq
            simp only [lt_irrefl, if_false] at hab
            by_cases hyz : x < z
            · simp [hyz]
            · by_cases hzy : z < x
              · simp [hyz, hzy] at hbc
              · have hxzeq : x = z := le_antisymm (not_lt.mp hzy) (not_lt.mp hyz)
                subst hxzeq
                simp only [lt_irrefl, if_false] at hbc ⊢
                exact ih ys zs hab hbc

theorem strLtB_trichotomy : ∀ a b : List Char,
    strLtB a b = true ∨ a = b ∨ strLtB b a = true := by
  intro a
  induction a with
  | nil =>
    intro b
    cases b with
    | nil => exact Or.inr (Or.inl rfl)
    | cons y ys => exact Or.inl rfl
  | cons x xs ih =>
    intro b
    cases b with
    | nil => exact Or.inr (Or.inr rfl)
    | cons y ys =>
      rcases lt_trichotomy x y with h | h | h
      · exact Or.inl (by simp [strLtB, h])
      · subst h
        rcases ih ys with h2 | h2 | h2
        · exact Or.inl (by simp [strLtB, lt_irrefl, h2])
        · exact Or.inr (Or.inl (by rw [h2]))
        · exact Or.inr (Or.inr (by simp [strLtB, lt_irrefl, h2]))
      · exact Or.inr (Or.inr (by simp [strLtB, h]))

theorem stringData_inj {a b : String} (h : a.data = b.data) : a = b := by
  cases a
  simp_all

theorem strLt_irrefl (a : String) : ¬ StrLt a a := by
  simp [StrLt, strLtB_irrefl]

theorem strLt_trans {a b c : String} (h1 : StrLt a b) (h2 : StrLt b c) :
    StrLt a c :=
  strLtB_trans a.data b.data c.data h1 h2

theorem strLt_asymm {a b : String} (h : StrLt a b) : ¬ StrLt b a :=
  fun h2 => strLt_irrefl a (strLt_trans h h2)

theorem strLt_trichotomy (a b : String) : StrLt a b ∨ a = b ∨ StrLt b a := by
  rcases strLtB_trichotomy a.data b.data with h | h | h
  · exact Or.inl h
  · exact Or.inr (Or.inl (stringData_inj h))
  · exact Or.inr (Or.inr h)

/-! ## Lemmas on the sorted `fst::Map` model -/

theorem fmLookup_nil (k : String) : fmLookup [] k = none := rfl

theorem fmLookup_cons (e : String × Nat) (m : FstMap) (k : String) :
    fmLookup (e :: m) k = if e.1 = k then some e.2 else fmLookup m k := by
  by_cases h : e.1 = k <;> simp [fmLookup, List.find?_cons, h]

theorem fmLookup_eq_none_iff (m : FstMap) (k : String) :
    fmLookup m k = none ↔ ∀ e ∈ m, e.1 ≠ k := by
  simp [fmLookup, List.find?_eq_none]

theorem fmLookup_isSome_iff_mem_keys (m : FstMap) (k : String) :
    (fmLookup m k).isSome ↔ k ∈ m.map Prod.fst := by
  unfold fmLookup
  rcases h : List.find? (fun e => decide (e.1 = k)) m with _ | e
  · simp only [h, Option.map_none', Option.isSome_none, Bool.false_eq_true, false_iff]
    rw [List.find?_eq_none] at h
    intro hk
    obtain ⟨x, hx, hxe⟩ := List.mem_map.mp hk
    exact absurd (by simpa using (hxe : x.1 = k)) (by simpa using h x hx)
  · simp only [h, Option.map_some', Option.isSome_some, true_iff]
    have h1 := List.find?_some h
    have h2 := List.mem_of_find?_eq_some h
    simp only [decide_eq_true_eq] at h1
    exact h1 ▸ List.mem_map_of_mem Prod.fst h2

theorem mergeGo_nil_right (fuel : Nat) (a : FstMap) : mergeGo fuel a [] = a := by
  cases fuel <;> cases a <;> rfl

theorem mergeGo_nil_left (fuel : Nat) (b : FstMap) : mergeGo fuel [] b = b := by
  cases fuel <;> cases b <;> rfl

theorem fmLookup_eq_none_of_sorted_lt (k' : String) (v' : Nat) (m : FstMap)
    (hs : FmSorted ((k', v') :: m)) (k : String) (hk : StrLt k k') :
    fmLookup ((k', v') :: m) k = none := by
  rw [fmLookup_eq_none_iff]
  intro e he
  rcases List.mem_cons.mp he with h | h
  · subst h
    intro he'
    have he2 : k' = k := he'
    rw [he2] at hk
    exact strLt_irrefl k hk
  · have h2 : StrLt k' e.1 := (List.pairwise_cons.mp hs).1 e h
    intro he'
    have h3 : StrLt k e.1 := strLt_trans hk h2
    rw [he'] at h3
    exact strLt_irrefl k h3

theorem mergeGo_keys (fuel : Nat) : ∀ (a b : FstMap) (k : String),
    a.length + b.length ≤ fuel →
    (k ∈ (mergeGo fuel a b).map Prod.fst ↔
      k ∈ a.map Prod.fst ∨ k ∈ b.map Prod.fst) := by
  induction fuel with
  | zero =>
    intro a b k hlen
    have ha : a = [] := List.length_eq_zero.mp (by omega)
    have hb : b = [] := List.length_eq_zero.mp (by omega)
    subst ha; subst hb
    simp [mergeGo]
  | succ fuel ih =>
    intro a b k hlen
    match a, b with
    | a, [] => simp [mergeGo_nil_right]
    | [], e :: b => simp [mergeGo_nil_left]
    | (ko, vo) :: a, (kn, vn) :: b =>
      simp only [mergeGo]
      rcases strLt_trichotomy ko kn with h | h | h
      · rw [if_pos h]
        simp only [List.map_cons, List.mem_cons]
        rw [ih a ((kn, vn) :: b) k (by simp at hlen ⊢; omega)]
        simp; tauto
      · rw [if_neg (by subst h; exact strLt_irrefl ko), if_neg (by subst h; exact strLt_irrefl ko)]
        simp only [List.map_cons, List.mem_cons]
        rw [ih a b k (by simp at hlen ⊢; omega)]
        subst h; tauto
      · rw [if_neg (strLt_asymm h), if_pos h]
        simp only [List.map_cons, List.mem_cons]
        rw [ih ((ko, vo) :: a) b k (by simp at hlen ⊢; omega)]
        simp; tauto

theorem mergeGo_sorted (fuel : Nat) : ∀ (a b : FstMap),
    a.length + b.length ≤ fuel → FmSorted a → FmSorted b →
    FmSorted (mergeGo fuel a b) := by
  induction fuel with
  | zero =>
    intro a b hlen _ _
    have ha : a = [] := List.length_eq_zero.mp (by omega)
    have hb : b = [] := List.length_eq_zero.mp (by omega)
    subst ha; subst hb
    exact List.Pairwise.nil
  | succ fuel ih =>
    intro a b hlen hsa hsb
    match a, b with
    | a, [] => rw [mergeGo_nil_right]; exact hsa
    | [], e :: b => rw [mergeGo_nil_left]; exact hsb
    | (ko, vo) :: a, (kn, vn) :: b =>
      simp only [mergeGo]
      have hta : FmSorted a := (List.pairwise_cons.mp hsa).2
      have htb : FmSorted b := (List.pairwise_cons.mp hsb).2
      have hba : ∀ e ∈ a, StrLt ko e.1 := fun e he => (List.pairwise_cons.mp hsa).1 e he
      have hbb : ∀ e ∈ b, StrLt kn e.1 := fun e he => (List.pairwise_cons.mp hsb).1 e he
      rcases strLt_trichotomy ko kn with h | h | h
      · rw [if_pos h]
        refine List.pairwise_cons.mpr ⟨?_, ih a ((kn, vn) :: b) (by simp at hlen ⊢; omega) hta hsb⟩
        intro e he
        have hk := (mergeGo_keys fuel a ((kn, vn) :: b) e.1 (by simp at hlen ⊢; omega)).mp
          (List.mem_map_of_mem Prod.fst he)
        rcases hk with hk | hk
        · obtain ⟨x, hx, hxe⟩ := List.mem_map.mp hk
          exact hxe ▸ hba x hx
        · simp only [List.map_cons, List.mem_cons] at hk
          rcases hk with hk | hk
          · exact hk ▸ h
          · obtain ⟨x, hx, hxe⟩ := List.mem_map.mp hk
            exact hxe ▸ strLt_trans h (hbb x hx)
      · rw [if_neg (by subst h; exact strLt_irrefl ko), if_neg (by subst h; exact strLt_irrefl ko)]
        subst h
        refine List.pairwise_cons.mpr ⟨?_, ih a b (by simp at hlen ⊢; omega) hta htb⟩
        intro e he
        have hk := (mergeGo_keys fuel a b e.1 (by simp at hlen ⊢; omega)).mp
          (List.mem_map_of_mem Prod.fst he)
        rcases hk with hk | hk
        · obtain ⟨x, hx, hxe⟩ := List.mem_map.mp hk
          exact hxe ▸ hba x hx
        · obtain ⟨x, hx, hxe⟩ := List.mem_map.mp hk
          exact hxe ▸ hbb x hx
      · rw [if_neg (strLt_asymm h), if_pos h]
        refine List.pairwise_cons.mpr ⟨?_, ih ((ko, vo) :: a) b (by simp at hlen ⊢; omega) hsa htb⟩
        intro e he
        have hk := (mergeGo_keys fuel ((ko, vo) :: a) b e.1 (by simp at hlen ⊢; omega)).mp
          (List.mem_map_of_mem Prod.fst he)
        rcases hk with hk | hk
        · simp only [List.map_cons, List.mem_cons] at hk
          rcases hk with hk | hk
          · exact hk ▸ h
          · obtain ⟨x, hx, hxe⟩ := List.mem_map.mp hk
            exact hxe ▸ strLt_trans h (hba x hx)
        · obtain ⟨x, hx, hxe⟩ := List.mem_map.mp hk
          exact hxe ▸ hbb x hx

theorem mergeGo_lookup (fuel : Nat) : ∀ (a b : FstMap) (k : String),
    a.length + b.length ≤ fuel → FmSorted a → FmSorted b →
    fmLookup (mergeGo fuel a b) k = optOr (fmLookup b k) (fmLookup a k) := by
  induction fuel with
  | zero =>
    intro a b k hlen _ _
    have ha : a = [] := List.length_eq_zero.mp (by omega)
    have hb : b = [] := List.length_eq_zero.mp (by omega)
    subst ha; subst hb
    simp [mergeGo, fmLookup_nil, optOr]
  | succ fuel ih =>
    intro a b k hlen hsa hsb
    match a, b with
    | a, [] =>
      rcases h : fmLookup a k <;>
        simp [mergeGo_nil_right, fmLookup_nil, optOr, h]
    | [], e :: b =>
      rcases h : fmLookup (e :: b) k <;>
        simp [mergeGo_nil_left, fmLookup_nil, optOr, h]
    | (ko, vo) :: a, (kn, vn) :: b =>
      have hta : FmSorted a := (List.pairwise_cons.mp hsa).2
      have htb : FmSorted b := (List.pairwise_cons.mp hsb).2
      simp only [mergeGo]
      rcases strLt_trichotomy ko kn with h | h | h
      · rw [if_pos h, fmLookup_cons]
        by_cases hk : ko = k
        · subst hk
          have : fmLookup ((kn, vn) :: b) ko = none :=
            fmLookup_eq_none_of_sorted_lt kn vn b hsb ko h
          simp [this, optOr, fmLookup_cons]
        · rw [if_neg hk, ih a ((kn, vn) :: b) k (by simp at hlen ⊢; omega) hta hsb]
          rcases hb : fmLookup ((kn, vn) :: b) k with _ | v
          · simp [optOr, fmLookup_cons, hk]
          · simp [optOr]
      · rw [if_neg (by subst h; exact strLt_irrefl ko), if_neg (by subst h; exact strLt_irrefl ko)]
        subst h
        rw [fmLookup_cons]
        by_cases hk : ko = k
        · subst hk
          simp [fmLookup_cons, optOr]
        · rw [if_neg hk, ih a b k (by simp at hlen ⊢; omega) hta htb]
          simp [fmLookup_cons, hk]
      · rw [if_neg (strLt_asymm h), if_pos h, fmLookup_cons]
        by_cases hk : kn = k
        · subst hk
          simp [fmLookup_cons, optOr]
        · rw [if_neg hk, ih ((ko, vo) :: a) b k (by simp at hlen ⊢; omega) hsa htb]
          simp [fmLookup_cons, hk]

theorem removeUserIdsMap_lookup (m : FstMap) (keys : List String) (k : String) :
    fmLookup (removeUserIdsMap m keys) k =
      if k ∈ keys then none else fmLookup m k := by
  induction m with
  | nil => simp [removeUserIdsMap, fmLookup_nil]
  | cons e m ih =>
    simp only [removeUserIdsMap, List.filter_cons]
    by_cases he : e.1 ∈ keys
    · rw [if_neg (by simp [he])]
      rw [removeUserIdsMap] at ih
      rw [ih]
      by_cases hk : k ∈ keys
      · simp [hk]
      · have : e.1 ≠ k := fun h => hk (h ▸ he)
        simp [hk, fmLookup_cons, this]
    · rw [if_pos (by simp [he])]
      rw [fmLookup_cons]
      by_cases hk : e.1 = k
      · subst hk
        simp [he, fmLookup_cons]
      · rw [if_neg hk]
        rw [removeUserIdsMap] at ih
        rw [ih, fmLookup_cons, if_neg hk]

theorem removeUserIdsMap_sorted (m : FstMap) (keys : List String)
    (hs : FmSorted m) : FmSorted (removeUserIdsMap m keys) :=
  List.Pairwise.filter _ hs

theorem mergeUserIdsMap_lookup (m n : FstMap) (hm : FmSorted m) (hn : FmSorted n)
    (k : String) :
    fmLookup (mergeUserIdsMap m n) k = optOr (fmLookup n k) (fmLookup m k) :=
  mergeGo_lookup (m.length + n.length) m n k le_rfl hm hn

theorem mergeUserIdsMap_sorted (m n : FstMap) (hm : FmSorted m)
    (hn : FmSorted n) : FmSorted (mergeUserIdsMap m n) :=
  mergeGo_sorted (m.length + n.length) m n le_rfl hm hn

theorem mergeUserIdsMap_keys (m n : FstMap) (k : String) :
    k ∈ (mergeUserIdsMap m n).map Prod.fst ↔
      k ∈ m.map Prod.fst ∨ k ∈ n.map Prod.fst :=
  mergeGo_keys (m.length + n.length) m n k le_rfl

/-! ## C6: `merge_user_ids` / `remove_user_ids` semantics -/

/-- C6.  For every stored `user_ids` FST `M` and every `new_ids` FST `N`,
`merge_user_ids` stores the FST whose key set is the union of the two key
sets, with `N`'s value winning on every key collision; `remove_user_ids`
stores exactly the entries of `M` whose key is not among the removed keys,
with their original values.  Both results are well-formed (sorted) blobs. -/
theorem merge_remove_user_ids_semantics (m n : FstMap)
    (hm : FmSorted m) (hn : FmSorted n) :
    (∀ k, fmLookup (mergeUserIdsMap m n) k = optOr (fmLookup n k) (fmLookup m k)) ∧
    (∀ k, k ∈ (mergeUserIdsMap m n).map Prod.fst ↔
      k ∈ m.map Prod.fst ∨ k ∈ n.map Prod.fst) ∧
    FmSorted (mergeUserIdsMap m n) ∧
    (∀ (keys : List String) (k : String),
      fmLookup (removeUserIdsMap m keys) k =
        if k ∈ keys then none else fmLookup m k) ∧
    (∀ keys : List String, FmSorted (removeUserIdsMap m keys)) :=
  ⟨mergeUserIdsMap_lookup m n hm hn,
   mergeUserIdsMap_keys m n,
   mergeUserIdsMap_sorted m n hm hn,
   removeUserIdsMap_lookup m,
   fun keys => removeUserIdsMap_sorted m keys hm⟩

/-- Witness for C6 at concrete maps: merging `{a ↦ 0}` with `{a ↦ 5, b ↦ 1}`
yields `a ↦ 5` (the new value wins), and removing key `a` from
`{a ↦ 0, b ↦ 1}` drops it. -/
theorem merge_remove_user_ids_semantics_witness :
    fmLookup (mergeUserIdsMap [("a", 0)] [("a", 5), ("b", 1)]) "a" = some 5 ∧
    fmLookup (removeUserIdsMap [("a", 0), ("b", 1)] ["a"]) "a" = none := by
  refine ⟨?_, ?_⟩
  · exact ((merge_remove_user_ids_semantics [("a", 0)] [("a", 5), ("b", 1)]
      (by decide) (by decide)).1 "a").trans (by decide)
  · exact ((merge_remove_user_ids_semantics [("a", 0), ("b", 1)] []
      (by decide) (by decide)).2.2.2.1 ["a"] "a").trans (by decide)

/-! ## C7: missing schema fails the pipelines without mutation -/

/-- C7.  When the main store holds no schema, `apply_documents_addition`,
`apply_documents_partial_addition` and `apply_documents_deletion` all return
the `SchemaMissing` error; the error return aborts the enclosing write
transaction, so no sub-store is mutated (the pipeline returns before any
write). -/
theorem schema_missing_error (tok : Tokenizer) (s : IndexState)
    (docs : List Document) (l : List String) (h : s.schema = none) :
    applyDocumentsAddition tok s docs = Except.error MError.schemaMissing ∧
    applyDocumentsPartialAddition tok s docs = Except.error MError.schemaMissing ∧
    applyDocumentsDeletion s l = Except.error MError.schemaMissing := by
  refine ⟨?_, ?_, ?_⟩ <;>
    simp [applyDocumentsAddition, applyDocumentsPartialAddition,
      applyDocumentsDeletion, applyAddition, h]

/-- Witness for C7: on a concrete schema-less index every pipeline fails with
`SchemaMissing`. -/
theorem schema_missing_error_witness :
    applyDocumentsAddition tokEmpty exNoSchema [exDocA] = Except.error MError.schemaMissing ∧
    applyDocumentsPartialAddition tokEmpty exNoSchema [exDocA] = Except.error MError.schemaMissing ∧
    applyDocumentsDeletion exNoSchema ["a"] = Except.error MError.schemaMissing :=
  schema_missing_error tokEmpty exNoSchema [exDocA] ["a"] rfl

/-! ## C8: unknown UserIds in deletion are silently skipped -/

theorem resolvedIds_filter_known (s : IndexState) (l : List String) :
    resolvedIds s l =
      resolvedIds s (l.filter (fun u => (fmLookup s.userIds u).isSome)) := by
  unfold resolvedIds
  congr 1
  induction l with
  | nil => rfl
  | cons u l ih =>
    rcases h : fmLookup s.userIds u with _ | id <;>
      simp [List.filterMap_cons, List.filter_cons, h, ih]

theorem wrapSub_zero (a : Nat) (h : a < U64LIMIT) : wrapSub a 0 = a := by
  unfold wrapSub
  simp [Nat.mod_eq_of_lt h]

/-- C8.  Every UserId of the deletion list with no entry in the `user_ids`
FST is silently skipped: it contributes nothing to the resolved DocumentId
set and causes no error, and when every listed UserId is unknown the
operation succeeds leaving `number_of_documents`, `user_ids` and
`internal_ids` unchanged. -/
theorem unknown_user_ids_skipped (s : IndexState) (σ : Schema) (l : List String)
    (hσ : s.schema = some σ) (hn : s.numberOfDocuments < U64LIMIT)
    (hunknown : ∀ u ∈ l, fmLookup s.userIds u = none) :
    (∀ (s' : IndexState) (l' : List String),
      resolvedIds s' l' =
        resolvedIds s' (l'.filter (fun u => (fmLookup s'.userIds u).isSome))) ∧
    applyDocumentsDeletion s l = Except.ok (deletionCore σ s l ∅) ∧
    (deletionCore σ s l ∅).numberOfDocuments = s.numberOfDocuments ∧
    (deletionCore σ s l ∅).userIds = s.userIds ∧
    (deletionCore σ s l ∅).internalIds = s.internalIds := by
  have hres : resolvedIds s l = ∅ := by
    unfold resolvedIds
    have : l.filterMap (fmLookup s.userIds) = [] := by
      induction l with
      | nil => rfl
      | cons u l ih =>
        simp only [List.filterMap_cons, hunknown u (List.mem_cons_self u l)]
        exact ih (fun u hu => hunknown u (List.mem_cons_of_mem _ hu))
    simp [this]
  refine ⟨resolvedIds_filter_known, ?_, ?_, ?_, ?_⟩
  · simp [applyDocumentsDeletion, hσ, hres]
  · show wrapSub s.numberOfDocuments (delDeletedDocs s ∅).card = _
    simp only [delDeletedDocs, delTouched, Finset.filter_empty, Finset.card_empty]
    exact wrapSub_zero _ hn
  · show removeUserIdsMap s.userIds l = s.userIds
    unfold removeUserIdsMap
    rw [List.filter_eq_self]
    intro e he
    simp only [decide_eq_true_eq]
    intro hel
    have := hunknown e.1 hel
    have hmem : (fmLookup s.userIds e.1).isSome :=
      (fmLookup_isSome_iff_mem_keys _ _).mpr (List.mem_map_of_mem Prod.fst he)
    simp [this] at hmem
  · exact Finset.sdiff_empty

/-- Witness for C8: deleting the unknown UserId `zzz` from a concrete
one-document index is a no-op on the counters and id maps. -/
theorem unknown_user_ids_skipped_witness :
    applyDocumentsDeletion (addOk tokWord exInit [exDocA]) ["zzz"] =
      Except.ok (deletionCore exSchema (addOk tokWord exInit [exDocA]) ["zzz"] ∅) ∧
    (deletionCore exSchema (addOk tokWord exInit [exDocA]) ["zzz"] ∅).numberOfDocuments =
      (addOk tokWord exInit [exDocA]).numberOfDocuments := by
  have h := unknown_user_ids_skipped (addOk tokWord exInit [exDocA]) exSchema
    ["zzz"] (by decide) (by decide) (by decide)
  exact ⟨h.2.1, h.2.2.1⟩

/-! ## C10: the counter subtraction in deletion cannot underflow -/

theorem wrapSub_eq_sub (a b : Nat) (hb : b ≤ a) (ha : a < U64LIMIT) :
    wrapSub a b = a - b := by
  unfold wrapSub
  rw [Nat.mod_eq_of_lt (lt_of_le_of_lt hb ha)]
  have h1 : a + (U64LIMIT - b) = (a - b) + U64LIMIT := by
    have : b ≤ U64LIMIT := le_of_lt (lt_of_le_of_lt hb ha)
    omega
  rw [h1, Nat.add_mod_right, Nat.mod_eq_of_lt (by omega)]

theorem mem_resolvedIds (s : IndexState) (l : List String) (id : Nat) :
    id ∈ resolvedIds s l ↔ ∃ u ∈ l, fmLookup s.userIds u = some id := by
  simp [resolvedIds, List.mem_filterMap]

theorem wfs_initial (σ : Schema) (stop : Option (Finset String))
    (attrs : Option (Finset Nat)) (h : σ.NamesNodup) :
    WFS σ (initialIndex σ stop attrs) := by
  refine ⟨rfl, h, List.Pairwise.nil, ?_, ?_, ?_, rfl, ?_, ?_, ?_, ?_, ?_, ?_, ?_⟩
  · intro u v id hu
    simp [initialIndex, fmLookup_nil] at hu
  · intro u id hu
    simp [initialIndex, fmLookup_nil] at hu
  · intro id hid
    simp [initialIndex] at hid
  · exact pow_pos (by norm_num) 64
  · intro d hd
    simp [initialIndex] at hd
  · intro d hd
    simp [initialIndex] at hd
  · intro d hd
    simp [initialIndex] at hd
  · intro d hd
    simp [initialIndex] at hd
  · intro w p r hp
    simp [initialIndex] at hp
  · intro rm d f hrm
    simp [initialIndex] at hrm

/-- C10.  Starting from a state satisfying the documented invariants (the
counter equals the number of live documents), the `deleted_documents_len`
computed by `apply_documents_deletion` never exceeds the stored
`number_of_documents`, so the unchecked `u64` subtraction
`old - deleted_documents_len` inside `put_number_of_documents` does not wrap:
the stored counter is the exact difference. -/
theorem deletion_counter_no_underflow (s : IndexState) (σ : Schema)
    (l : List String) (h : WFS σ s) :
    (delDeletedDocs s (resolvedIds s l)).card ≤ s.numberOfDocuments ∧
    applyDocumentsDeletion s l =
      Except.ok (deletionCore σ s l (resolvedIds s l)) ∧
    (deletionCore σ s l (resolvedIds s l)).numberOfDocuments =
      s.numberOfDocuments - (delDeletedDocs s (resolvedIds s l)).card := by
  have hsub : resolvedIds s l ⊆ s.internalIds := by
    intro id hid
    obtain ⟨u, _, hu⟩ := (mem_resolvedIds s l id).mp hid
    exact h.lookupMem u id hu
  have hdel : delDeletedDocs s (resolvedIds s l) ⊆ s.internalIds := by
    intro d hd
    simp only [delDeletedDocs, delTouched, Finset.mem_filter] at hd
    exact hsub hd.1.1
  have hcard : (delDeletedDocs s (resolvedIds s l)).card ≤ s.numberOfDocuments := by
    rw [h.count]
    exact Finset.card_le_card hdel
  refine ⟨hcard, ?_, ?_⟩
  · simp [applyDocumentsDeletion, h.schemaEq]
  · show wrapSub s.numberOfDocuments _ = _
    exact wrapSub_eq_sub _ _ hcard (h.count ▸ h.capacity)

/-- Witness for C10 on the empty index: no document resolves, the subtraction
is `0 - 0` and the counter stays `0`. -/
theorem deletion_counter_no_underflow_witness :
    (delDeletedDocs exInit (resolvedIds exInit ["a"])).card ≤
      exInit.numberOfDocuments ∧
    applyDocumentsDeletion exInit ["a"] =
      Except.ok (deletionCore exSchema exInit ["a"] (resolvedIds exInit ["a"])) ∧
    (deletionCore exSchema exInit ["a"] (resolvedIds exInit ["a"])).numberOfDocuments =
      exInit.numberOfDocuments - (delDeletedDocs exInit (resolvedIds exInit ["a"])).card :=
  deletion_counter_no_underflow exInit exSchema ["a"]
    (wfs_initial exSchema none none (by decide))

/-! ## Counterexamples for C1, C2, C3, C5 and C9

Each one commits concrete operations on a concrete index and observes a
violation of the claim as stated.  The two recurring ingredients are a batch
repeating a UserId that is not yet stored (each copy consumes a fresh
internal id, since `extract_document_id` consults only the stored `user_ids`
FST), and a document producing no indexed word (the deletion pipeline only
deletes fields, counts and doc-words of documents reached through the
`words_document_ids` loop). -/

/-- Counterexample to C1 as stated.  (a) Adding the batch
`[{id:"a"}, {id:"a"}]` to the empty index commits successfully and leaves two
internal ids `{0, 1}` but a single `user_ids` entry `a ↦ 1`: id `0` is
unreachable, so `user_ids` is not a bijection onto `internal_ids`.
(b) Adding a document that produces no indexed word and then deleting it
leaves `number_of_documents = 1` while `internal_ids` is empty, violating the
counter invariant. -/
theorem duplicate_fresh_userid_breaks_bijection :
    applyDocumentsAddition tokEmpty exInit [exDocA, exDocA] =
      Except.ok (addOk tokEmpty exInit [exDocA, exDocA]) ∧
    (addOk tokEmpty exInit [exDocA, exDocA]).internalIds = {0, 1} ∧
    (addOk tokEmpty exInit [exDocA, exDocA]).userIds = [("a", 1)] ∧
    (addOk tokEmpty exInit [exDocA, exDocA]).numberOfDocuments = 2 ∧
    applyDocumentsDeletion (addOk tokEmpty exInit [exDocA]) ["a"] =
      Except.ok (delOk (addOk tokEmpty exInit [exDocA]) ["a"]) ∧
    (delOk (addOk tokEmpty exInit [exDocA]) ["a"]).numberOfDocuments = 1 ∧
    (delOk (addOk tokEmpty exInit [exDocA]) ["a"]).internalIds = ∅ := by
  refine ⟨rfl, by decide, by decide, by decide, rfl, by decide, by decide⟩

/-- Counterexample to C2 as stated: re-adding `{id:"a"}` when it produces no
indexed word is not idempotent — the deletion step cannot find the prior
version through `doc_words`, so `number_of_documents` is bumped twice. -/
theorem wordless_readdition_not_idempotent :
    applyDocumentsAddition tokEmpty exInit [exDocA] =
      Except.ok (addOk tokEmpty exInit [exDocA]) ∧
    (addOk tokEmpty exInit [exDocA]).numberOfDocuments = 1 ∧
    applyDocumentsAddition tokEmpty (addOk tokEmpty exInit [exDocA]) [exDocA] =
      Except.ok (addOk tokEmpty (addOk tokEmpty exInit [exDocA]) [exDocA]) ∧
    (addOk tokEmpty (addOk tokEmpty exInit [exDocA]) [exDocA]).numberOfDocuments = 2 := by
  refine ⟨rfl, by decide, rfl, by decide⟩

/-- Counterexample to C3 as stated: UserId `a` resolves to DocumentId `0`,
the deletion succeeds and removes the id maps, yet the document's
`DocumentsFields` group survives because the document owned no word. -/
theorem wordless_deletion_leaves_fields :
    fmLookup (addOk tokEmpty exInit [exDocA]).userIds "a" = some 0 ∧
    applyDocumentsDeletion (addOk tokEmpty exInit [exDocA]) ["a"] =
      Except.ok (delOk (addOk tokEmpty exInit [exDocA]) ["a"]) ∧
    ((delOk (addOk tokEmpty exInit [exDocA]) ["a"]).documentsFields 0).isSome = true ∧
    0 ∉ (delOk (addOk tokEmpty exInit [exDocA]) ["a"]).internalIds := by
  refine ⟨by decide, rfl, by decide, by decide⟩

/-- Counterexample to the full-addition clause of C5 as stated: when the
stored version of `u` owns no indexed word, a full `add(u, {b:2})` does not
store exactly `{id:"u", b:2}` — the stale field `a` survives, because the
prior-version deletion only reaches documents through `doc_words`. -/
theorem full_add_keeps_stale_field_of_wordless_prior :
    applyDocumentsPartialAddition tokEmpty exInit [exDocUA] =
      Except.ok (partialAddOk tokEmpty exInit [exDocUA]) ∧
    fmLookup (partialAddOk tokEmpty exInit [exDocUA]).userIds "u" = some 0 ∧
    applyDocumentsAddition tokEmpty (partialAddOk tokEmpty exInit [exDocUA]) [exDocUB] =
      Except.ok (addOk tokEmpty (partialAddOk tokEmpty exInit [exDocUA]) [exDocUB]) ∧
    (nameLookup (addOk tokEmpty (partialAddOk tokEmpty exInit [exDocUA]) [exDocUB])
      0 "a").isSome = true := by
  refine ⟨rfl, by decide, rfl, by decide⟩

/-- Counterexample to C9 as stated: with `a ↦ 0` already stored, the batch
`[{id:"a", x:1}, {id:"a", y:2}]` resolves both documents to DocumentId `0`,
and the collapse keeps only the last document whole (`HashMap::insert`
replaces the value): field `x` of the earlier duplicate is dropped, not
merged. -/
theorem duplicate_docid_batch_drops_earlier_fields :
    fmLookup (addOk tokWord exInit [exDocA]).userIds "a" = some 0 ∧
    applyDocumentsAddition tokWord (addOk tokWord exInit [exDocA]) [exDocAX, exDocAY] =
      Except.ok (addOk tokWord (addOk tokWord exInit [exDocA]) [exDocAX, exDocAY]) ∧
    (nameLookup (addOk tokWord (addOk tokWord exInit [exDocA]) [exDocAX, exDocAY])
      0 "x").isNone = true ∧
    (nameLookup (addOk tokWord (addOk tokWord exInit [exDocA]) [exDocAX, exDocAY])
      0 "y").isSome = true := by
  refine ⟨by decide, rfl, by decide, by decide⟩

/-! ## C4: the words-FST invariant -/

theorem deletionCore_postingsLists (σ : Schema) (s : IndexState)
    (keys : List String) (ids : Finset Nat) :
    (deletionCore σ s keys ids).postingsLists = delPostings s ids := rfl

theorem deletionCore_wordsFst (σ : Schema) (s : IndexState)
    (keys : List String) (ids : Finset Nat) :
    (deletionCore σ s keys ids).wordsFst =
      (match s.wordsFst with
       | some w => some (w \ delRemovedWords s ids)
       | none => some ∅) := rfl

theorem writeIndex_postingsLists (s : IndexState) (rm : RankedMap)
    (n : Nat) (events : List IndexEvent) :
    (writeIndex s rm n events).postingsLists = fun w =>
      if w ∈ deltaWords events then
        some ((s.postingsLists w).getD ∅ ∪ recordsOf events w)
      else s.postingsLists w := rfl

theorem writeIndex_wordsFst (s : IndexState) (rm : RankedMap)
    (n : Nat) (events : List IndexEvent) :
    (writeIndex s rm n events).wordsFst =
      some ((s.wordsFst.getD ∅) ∪ deltaWords events) := rfl

theorem recordsOf_ne_empty (events : List IndexEvent) (w : String)
    (h : w ∈ deltaWords events) : recordsOf events w ≠ ∅ := by
  simp only [deltaWords, List.mem_toFinset, List.mem_map] at h
  obtain ⟨e, he, hew⟩ := h
  intro hemp
  have hmem : e.2 ∈ recordsOf events w := by
    simp only [recordsOf, List.mem_toFinset, List.mem_map, List.mem_filter]
    exact ⟨e, ⟨he, by simp [hew]⟩, rfl⟩
  rw [hemp] at hmem
  exact absurd hmem (Finset.not_mem_empty _)

theorem delPostings_of_not_affected (s : IndexState) (ids : Finset Nat)
    (w : String) (h : w ∉ delAffectedWords s ids) :
    delPostings s ids w = s.postingsLists w := by
  simp [delPostings, h]

theorem wordsInv_deletionCore (σ : Schema) (s : IndexState) (keys : List String)
    (ids : Finset Nat) (h : WordsInv s) : WordsInv (deletionCore σ s keys ids) := by
  intro w
  rw [deletionCore_postingsLists, deletionCore_wordsFst]
  rcases hw : s.wordsFst with _ | W
  · have hnone : ∀ v, s.postingsLists v = none := by
      intro v
      exact (h v).2 (by simp [hw])
    simp only [Option.getD_some, Finset.not_mem_empty, false_implies, true_and]
    intro _
    unfold delPostings
    by_cases ha : w ∈ delAffectedWords s ids
    · rw [if_pos ha, hnone w]
    · rw [if_neg ha]; exact hnone w
  · have hfst : ∀ v, (v ∈ s.wordsFst.getD ∅) = (v ∈ W) := by
      intro v; rw [hw]; rfl
    constructor
    · intro hmem
      simp only [Option.getD_some, Finset.mem_sdiff] at hmem
      obtain ⟨hmW, hnrem⟩ := hmem
      obtain ⟨p, hp, hpne⟩ := (h w).1 (by rw [hfst]; exact hmW)
      by_cases ha : w ∈ delAffectedWords s ids
      · by_cases hnp : p.filter (fun r => r.docId ∉ delIdsOfWord s ids w) = ∅
        · exfalso
          apply hnrem
          simp only [delRemovedWords, Finset.mem_filter]
          refine ⟨ha, by simp [hp], ?_⟩
          unfold delPostings
          rw [if_pos ha, hp]
          simp [hnp]
        · refine ⟨p.filter (fun r => r.docId ∉ delIdsOfWord s ids w), ?_, hnp⟩
          unfold delPostings
          rw [if_pos ha, hp]
          simp [hnp]
      · rw [delPostings_of_not_affected s ids w ha]
        exact ⟨p, hp, hpne⟩
    · intro hmem
      simp only [Option.getD_some, Finset.mem_sdiff, not_and, not_not] at hmem
      by_cases hmW : w ∈ W
      · have hrem := hmem hmW
        simp only [delRemovedWords, Finset.mem_filter] at hrem
        exact hrem.2.2
      · have hpl : s.postingsLists w = none := (h w).2 (by rw [hfst]; exact hmW)
        unfold delPostings
        by_cases ha : w ∈ delAffectedWords s ids
        · rw [if_pos ha, hpl]
        · rw [if_neg ha]; exact hpl

theorem wordsInv_writeIndex (s : IndexState) (rm : RankedMap) (n : Nat)
    (events : List IndexEvent) (h : WordsInv s) :
    WordsInv (writeIndex s rm n events) := by
  intro w
  rw [writeIndex_postingsLists, writeIndex_wordsFst]
  by_cases hΔ : w ∈ deltaWords events
  · constructor
    · intro _
      refine ⟨(s.postingsLists w).getD ∅ ∪ recordsOf events w, by simp [hΔ], ?_⟩
      intro hemp
      exact recordsOf_ne_empty events w hΔ (Finset.union_eq_empty.mp hemp).2
    · intro hnot
      exact absurd (by simp [hΔ] : w ∈ (some ((s.wordsFst.getD ∅) ∪ deltaWords events)).getD ∅) hnot
  · constructor
    · intro hmem
      have hold : w ∈ s.wordsFst.getD ∅ := by
        simp only [Option.getD_some, Finset.mem_union] at hmem
        exact hmem.resolve_right hΔ
      obtain ⟨p, hp, hpne⟩ := (h w).1 hold
      exact ⟨p, by simp [hΔ, hp], hpne⟩
    · intro hnot
      have hold : w ∉ s.wordsFst.getD ∅ := by
        intro hw
        exact hnot (by simp [hw])
      simp only [hΔ, if_false]
      exact (h w).2 hold

theorem wordsInv_congr (s t : IndexState) (hf : s.wordsFst = t.wordsFst)
    (hp : s.postingsLists = t.postingsLists) (h : WordsInv s) : WordsInv t := by
  intro w
  rw [← hf, ← hp]
  exact h w

theorem applyAddition_ok_inv {tok : Tokenizer} {s : IndexState}
    {docs : List Document} {isPart : Bool} {s' : IndexState}
    (h : applyAddition tok s docs isPart = Except.ok s') :
    ∃ σ pk r, s.schema = some σ ∧ σ.primaryKey = some pk ∧
      resolveDocs s σ pk isPart docs ⟨[], [], s.internalIds, []⟩ = Except.ok r ∧
      s' = applyAdditionOk tok s σ r := by
  unfold applyAddition at h
  split at h
  · exact absurd h (by simp)
  next σ hσ =>
    split at h
    · exact absurd h (by simp)
    next pk hpk =>
      split at h
      · exact absurd h (by simp)
      next r hr =>
        exact ⟨σ, pk, r, hσ, hpk, hr, (Except.ok.inj h).symm⟩

theorem applyDocumentsDeletion_ok_inv {s : IndexState} {l : List String}
    {s' : IndexState} (h : applyDocumentsDeletion s l = Except.ok s') :
    ∃ σ, s.schema = some σ ∧ s' = deletionCore σ s l (resolvedIds s l) := by
  unfold applyDocumentsDeletion at h
  split at h
  · exact absurd h (by simp)
  next σ hσ => exact ⟨σ, hσ, (Except.ok.inj h).symm⟩

theorem wordsInv_applyAdditionOk (tok : Tokenizer) (s : IndexState) (σ : Schema)
    (r : ResState) (h : WordsInv s) : WordsInv (applyAdditionOk tok s σ r) := by
  have h₁ : WordsInv (additionDeleted s σ r) :=
    wordsInv_deletionCore σ s [] (additionIds r.additions) h
  have h₂ : WordsInv (writeIndex
      { additionDeleted s σ r with
        facets := match (additionDeleted s σ r).attributesForFaceting with
          | some attrs => facetsAdd (additionDeleted s σ r).facets
              (facetMapFromDocs σ attrs r.additions)
          | none => (additionDeleted s σ r).facets
        documentsFields := (additionAcc tok s σ r).fields
        documentsFieldsCounts := (additionAcc tok s σ r).counts }
      (additionAcc tok s σ r).rm r.additions.length (additionAcc tok s σ r).events) := by
    apply wordsInv_writeIndex
    exact wordsInv_congr _ _ rfl rfl h₁
  exact wordsInv_congr _ _ rfl rfl h₂

theorem reachable_wordsInv (tok : Tokenizer) (s : IndexState)
    (h : Reachable tok s) : WordsInv s := by
  induction h with
  | init σ stop attrs =>
    intro w
    constructor
    · intro hw
      simp [initialIndex] at hw
    · intro _
      rfl
  | add s s' docs isPart _ hstep ih =>
    obtain ⟨σ, pk, r, _, _, _, hs'⟩ := applyAddition_ok_inv hstep
    rw [hs']
    exact wordsInv_applyAdditionOk tok s σ r ih
  | del s s' l _ hstep ih =>
    obtain ⟨σ, _, hs'⟩ := applyDocumentsDeletion_ok_inv hstep
    rw [hs']
    exact wordsInv_deletionCore σ s l (resolvedIds s l) ih

/-- C4.  In every reachable index state, every word in `words_fst` has a
present and non-empty posting list, and every word outside `words_fst` has no
posting list stored.  Moreover the deletion pipeline removes a stored word
from `words_fst` exactly when its posting list becomes empty, and
`write_documents_addition_index` inserts into `words_fst` every word for
which it writes a posting delta. -/
theorem words_fst_postings_invariant (tok : Tokenizer) (s : IndexState)
    (h : Reachable tok s) :
    (∀ w, w ∈ s.wordsFst.getD ∅ → ∃ p, s.postingsLists w = some p ∧ p ≠ ∅) ∧
    (∀ w, w ∉ s.wordsFst.getD ∅ → s.postingsLists w = none) ∧
    (∀ (σ : Schema) (keys : List String) (ids : Finset Nat) (w : String),
      w ∈ s.wordsFst.getD ∅ →
      (w ∉ (deletionCore σ s keys ids).wordsFst.getD ∅ ↔
        delPostings s ids w = none)) ∧
    (∀ (rm : RankedMap) (n : Nat) (events : List IndexEvent) (w : String),
      w ∈ deltaWords events → w ∈ (writeIndex s rm n events).wordsFst.getD ∅) := by
  have hinv := reachable_wordsInv tok s h
  refine ⟨fun w => (hinv w).1, fun w => (hinv w).2, ?_, ?_⟩
  · intro σ keys ids w hw
    rcases hfst : s.wordsFst with _ | W
    · rw [hfst] at hw
      simp at hw
    · have hwW : w ∈ W := by rw [hfst] at hw; simpa using hw
      obtain ⟨p, hp, hpne⟩ := (hinv w).1 hw
      rw [deletionCore_wordsFst, hfst]
      simp only [Option.getD_some, Finset.mem_sdiff, not_and, not_not]
      constructor
      · intro hrem
        have := hrem hwW
        simp only [delRemovedWords, Finset.mem_filter] at this
        exact this.2.2
      · intro hdel _
        simp only [delRemovedWords, Finset.mem_filter]
        refine ⟨?_, by simp [hp], hdel⟩
        by_contra ha
        rw [delPostings_of_not_affected s ids w ha, hp] at hdel
        exact Option.noConfusion hdel
  · intro rm n events w hw
    rw [writeIndex_wordsFst]
    simp [hw]

/-- Witness for C4: in the concrete one-document reachable index, the word
`zzz` is outside `words_fst` and indeed owns no posting list. -/
theorem words_fst_postings_invariant_witness :
    (addOk tokWord exInit [exDocA]).postingsLists "zzz" = none :=
  (words_fst_postings_invariant tokWord (addOk tokWord exInit [exDocA])
    (Reachable.add exInit (addOk tokWord exInit [exDocA]) [exDocA] false
      (Reachable.init exSchema none none) rfl)).2.1 "zzz" (by decide)

/-! ## Schema interning lemmas -/

theorem listFindIdx_eq_some {α : Type} (p : α → Bool) :
    ∀ (l : List α) (i : Nat), listFindIdx p l = some i →
      ∃ x, l.get? i = some x ∧ p x = true := by
  intro l
  induction l with
  | nil => intro i h; simp [listFindIdx] at h
  | cons x xs ih =>
    intro i h
    by_cases hp : p x
    · rw [show listFindIdx p (x :: xs) = some 0 by simp [listFindIdx, hp]] at h
      have h0 : (0 : Nat) = i := Option.some.inj h
      subst h0
      exact ⟨x, rfl, hp⟩
    · rw [show listFindIdx p (x :: xs) = (listFindIdx p xs).map (fun i => i + 1) by
        simp [listFindIdx, hp]] at h
      rcases hj : listFindIdx p xs with _ | j
      · rw [hj] at h
        exact absurd h (by simp)
      · rw [hj] at h
        simp only [Option.map_some'] at h
        have hji : j + 1 = i := Option.some.inj h
        subst hji
        obtain ⟨y, hy, hpy⟩ := ih j hj
        exact ⟨y, by simpa using hy, hpy⟩

theorem listFindIdx_eq_none_iff {α : Type} (p : α → Bool) :
    ∀ l : List α, listFindIdx p l = none ↔ ∀ x ∈ l, ¬ p x = true := by
  intro l
  induction l with
  | nil => simp [listFindIdx]
  | cons x xs ih =>
    by_cases hp : p x <;> simp [listFindIdx, hp, ih]

theorem listFindIdx_append {α : Type} (p : α → Bool) :
    ∀ l₁ l₂ : List α, listFindIdx p (l₁ ++ l₂) =
      optOr (listFindIdx p l₁) ((listFindIdx p l₂).map (fun i => i + l₁.length)) := by
  intro l₁
  induction l₁ with
  | nil =>
    intro l₂
    rcases h : listFindIdx p l₂ with _ | j <;> simp [listFindIdx, optOr, h]
  | cons x xs ih =>
    intro l₂
    by_cases hp : p x
    · simp [listFindIdx, hp, optOr]
    · have e1 : listFindIdx p ((x :: xs) ++ l₂) =
          (listFindIdx p (xs ++ l₂)).map (fun i => i + 1) := by
        simp [listFindIdx, hp]
      have e2 : listFindIdx p (x :: xs) = (listFindIdx p xs).map (fun i => i + 1) := by
        simp [listFindIdx, hp]
      rw [e1, e2, ih l₂]
      rcases h1 : listFindIdx p xs with _ | j <;>
        rcases h2 : listFindIdx p l₂ with _ | j2 <;>
          simp [optOr, Nat.add_assoc]

theorem listFindIdx_name (fields : List SchemaField)
    (hnd : (fields.map SchemaField.name).Nodup) :
    ∀ (f : Nat) (fl : SchemaField), fields.get? f = some fl →
      listFindIdx (fun x => x.name = fl.name) fields = some f := by
  induction fields with
  | nil => intro f fl h; simp at h
  | cons x xs ih =>
    intro f fl h
    cases f with
    | zero =>
      simp only [List.get?_cons_zero, Option.some.injEq] at h
      subst h
      simp [listFindIdx]
    | succ f' =>
      simp only [List.get?_cons_succ] at h
      have hmem : fl.name ∈ xs.map SchemaField.name := by
        have : fl ∈ xs := List.get?_mem h
        exact List.mem_map_of_mem _ this
      simp only [List.map_cons, List.nodup_cons] at hnd
      have hns : ¬ (x.name = fl.name) := fun he => hnd.1 (he ▸ hmem)
      simp only [listFindIdx, hns, decide_eq_true_eq, if_neg hns]
      rw [ih hnd.2 f' fl h]
      rfl

namespace Schema

theorem fieldIdOf_fieldName {σ : Schema} {f : Nat} {n : String}
    (h : σ.fieldIdOf n = some f) : σ.fieldName f = some n := by
  obtain ⟨x, hx, hpx⟩ := listFindIdx_eq_some _ _ _ h
  simp only [decide_eq_true_eq] at hpx
  unfold fieldName
  rw [hx]
  simp [hpx]

theorem fieldName_fieldIdOf {σ : Schema} (hnd : σ.NamesNodup) {f : Nat}
    {n : String} (h : σ.fieldName f = some n) : σ.fieldIdOf n = some f := by
  simp only [fieldName, Option.map_eq_some'] at h
  obtain ⟨fl, hfl, hname⟩ := h
  subst hname
  exact listFindIdx_name σ.fields hnd f fl hfl

theorem fieldIdOf_inj {σ : Schema} {n₁ n₂ : String} {f : Nat}
    (h₁ : σ.fieldIdOf n₁ = some f) (h₂ : σ.fieldIdOf n₂ = some f) : n₁ = n₂ := by
  have e₁ := fieldIdOf_fieldName h₁
  have e₂ := fieldIdOf_fieldName h₂
  rw [e₁] at e₂
  exact Option.some.inj e₂

theorem fieldIdOf_none_iff (σ : Schema) (n : String) :
    σ.fieldIdOf n = none ↔ n ∉ σ.fields.map SchemaField.name := by
  unfold fieldIdOf
  rw [listFindIdx_eq_none_iff]
  constructor
  · intro h hmem
    obtain ⟨x, hx, hxe⟩ := List.mem_map.mp hmem
    exact h x hx (by simp [hxe])
  · intro h x hx hp
    simp only [decide_eq_true_eq] at hp
    exact h (hp ▸ List.mem_map_of_mem SchemaField.name hx)

theorem insertAndIndex_fields (σ : Schema) (n : String) :
    ((σ.insertAndIndex n).2).fields = σ.fields ++
      (match σ.fieldIdOf n with
       | some _ => []
       | none => [⟨n, some σ.nextIndexedPos, false⟩]) := by
  unfold insertAndIndex
  rcases h : σ.fieldIdOf n with _ | f <;> simp [h]

theorem insertAndIndex_primaryKey (σ : Schema) (n : String) :
    ((σ.insertAndIndex n).2).primaryKey = σ.primaryKey := by
  unfold insertAndIndex
  rcases h : σ.fieldIdOf n with _ | f <;> simp [h]

theorem insertAndIndex_stable {σ : Schema} (n : String) {m : String} {f : Nat}
    (h : σ.fieldIdOf m = some f) : ((σ.insertAndIndex n).2).fieldIdOf m = some f := by
  show listFindIdx _ ((σ.insertAndIndex n).2).fields = some f
  rw [insertAndIndex_fields, listFindIdx_append]
  rw [show listFindIdx (fun x => decide (x.name = m)) σ.fields = some f from h]
  rfl

theorem insertAndIndex_self (σ : Schema) (n : String) :
    ((σ.insertAndIndex n).2).fieldIdOf n = some (σ.insertAndIndex n).1 := by
  rcases h : σ.fieldIdOf n with _ | f
  · show listFindIdx _ ((σ.insertAndIndex n).2).fields = _
    rw [insertAndIndex_fields, listFindIdx_append, h]
    have h1 : (σ.insertAndIndex n).1 = σ.fields.length := by
      unfold insertAndIndex
      rw [h]
    have h2 : listFindIdx (fun f => decide (f.name = n)) σ.fields = none := h
    simp [listFindIdx, optOr, h1, h2]
  · have h1 : (σ.insertAndIndex n).1 = f := by
      unfold insertAndIndex
      rw [h]
    rw [h1]
    exact insertAndIndex_stable n h

theorem insertAndIndex_none {σ : Schema} {n m : String}
    (h : ((σ.insertAndIndex n).2).fieldIdOf m = none) :
    σ.fieldIdOf m = none ∧ m ≠ n := by
  constructor
  · rcases h2 : σ.fieldIdOf m with _ | f
    · rfl
    · rw [insertAndIndex_stable n h2] at h
      exact Option.noConfusion h
  · intro he
    subst he
    rw [insertAndIndex_self σ m] at h
    exact Option.noConfusion h

theorem insertAndIndex_nodup {σ : Schema} (n : String) (h : σ.NamesNodup) :
    ((σ.insertAndIndex n).2).NamesNodup := by
  unfold NamesNodup
  rw [insertAndIndex_fields]
  rcases h2 : σ.fieldIdOf n with _ | f
  · simp only [List.map_append, List.map_cons, List.map_nil]
    rw [List.nodup_append]
    refine ⟨h, List.nodup_singleton n, ?_⟩
    intro m hm hmem
    simp only [List.mem_singleton] at hmem
    subst hmem
    exact ((fieldIdOf_none_iff σ m).mp h2) hm
  · simpa using h

theorem insertAndIndex_some_of_ne {σ : Schema} {n m : String} {f : Nat}
    (hne : n ≠ m) (h : ((σ.insertAndIndex m).2).fieldIdOf n = some f) :
    σ.fieldIdOf n = some f := by
  have hfields := insertAndIndex_fields σ m
  rcases h2 : σ.fieldIdOf m with _ | g
  · rw [h2] at hfields
    have h3 : ((σ.insertAndIndex m).2).fieldIdOf n =
        optOr (σ.fieldIdOf n)
          ((listFindIdx (fun (x : SchemaField) => decide (x.name = n))
            [⟨m, some σ.nextIndexedPos, false⟩]).map (fun i => i + σ.fields.length)) := by
      show listFindIdx _ ((σ.insertAndIndex m).2).fields = _
      rw [hfields, listFindIdx_append]
      rfl
    rw [h3] at h
    have h4 : listFindIdx (fun x => decide (x.name = n))
        [(⟨m, some σ.nextIndexedPos, false⟩ : SchemaField)] = none := by
      simp [listFindIdx, hne.symm]
    rw [h4] at h
    rcases h5 : σ.fieldIdOf n with _ | g2
    · rw [h5] at h
      exact absurd h (by simp [optOr])
    · rw [h5] at h
      simpa [optOr] using h
  · have hσ : (σ.insertAndIndex m).2 = σ := by
      unfold insertAndIndex
      rw [h2]
    rw [hσ] at h
    exact h

end Schema

/-! ## Document lookup lemmas -/

theorem docGet_nil (n : String) : docGet [] n = none := rfl

theorem docGet_cons (kv : String × Value) (rest : Document) (n : String) :
    docGet (kv :: rest) n = if kv.1 = n then some kv.2 else docGet rest n := by
  by_cases h : kv.1 = n <;> simp [docGet, List.find?_cons, h]

theorem docGet_eq_none_iff (doc : Document) (n : String) :
    docGet doc n = none ↔ n ∉ doc.map Prod.fst := by
  induction doc with
  | nil => simp [docGet_nil]
  | cons kv rest ih =>
    rw [docGet_cons]
    by_cases h : kv.1 = n
    · simp [h]
    · simp [h, ih, Ne.symm h]

theorem docGet_append (d₁ d₂ : Document) (n : String) :
    docGet (d₁ ++ d₂) n = optOr (docGet d₁ n) (docGet d₂ n) := by
  induction d₁ with
  | nil => simp [docGet_nil, optOr]
  | cons kv rest ih =>
    rw [List.cons_append, docGet_cons, docGet_cons]
    by_cases h : kv.1 = n
    · simp [h, optOr]
    · simp [h, ih]

theorem docGet_filter_isNone (old D : Document) (n : String) :
    docGet (old.filter (fun kv => (docGet D kv.1).isNone)) n =
      if (docGet D n).isNone then docGet old n else none := by
  induction old with
  | nil => simp [docGet_nil]
  | cons kv rest ih =>
    rw [List.filter_cons]
    by_cases hkeep : (docGet D kv.1).isNone
    · rw [if_pos (by simpa using hkeep), docGet_cons, docGet_cons]
      by_cases h : kv.1 = n
      · subst h
        simp [hkeep]
      · simp [h, ih]
    · rw [if_neg (by simpa using hkeep), ih, docGet_cons]
      by_cases h : kv.1 = n
      · subst h
        simp [hkeep]
      · simp [h]

/-! ## Indexing fold lemmas -/

theorem optBind_getD {α : Type} (o : Option (α → Option Value)) (f : α) :
    (o.getD (fun _ => none)) f = o.bind (fun m => m f) := by
  cases o <;> rfl

theorem indexField_σ (stop : Finset String) (tok : Tokenizer) (d : Nat)
    (acc : IndexAcc) (kv : String × Value) :
    (indexField stop tok d acc kv).σ = (acc.σ.insertAndIndex kv.1).2 := by
  unfold indexField
  rcases h : (acc.σ.insertAndIndex kv.1).2.isIndexedPos (acc.σ.insertAndIndex kv.1).1
    with _ | pos <;> simp [h]

theorem indexField_fields (stop : Finset String) (tok : Tokenizer) (d : Nat)
    (acc : IndexAcc) (kv : String × Value) :
    (indexField stop tok d acc kv).fields =
      putField acc.fields d (acc.σ.insertAndIndex kv.1).1 kv.2 := by
  unfold indexField
  rcases h : (acc.σ.insertAndIndex kv.1).2.isIndexedPos (acc.σ.insertAndIndex kv.1).1
    with _ | pos <;> simp [h]

theorem putField_self (F : Nat → Option (Nat → Option Value)) (d fid : Nat)
    (v : Value) :
    putField F d fid v d =
      some (fun f => if f = fid then some v else ((F d).getD (fun _ => none)) f) := by
  simp [putField]

theorem putField_other (F : Nat → Option (Nat → Option Value)) (d fid : Nat)
    (v : Value) (d' : Nat) (h : d' ≠ d) : putField F d fid v d' = F d' := by
  simp [putField, h]

/-- The stored-fields view of a document by schema name inside an indexing
accumulator. -/
def accNameLookup (acc : IndexAcc) (d : Nat) (n : String) : Option Value :=
  (acc.σ.fieldIdOf n).bind (fun f => (acc.fields d).bind (fun m => m f))

theorem indexField_accNameLookup (stop : Finset String) (tok : Tokenizer)
    (d : Nat) (acc : IndexAcc) (kv : String × Value) (n : String) :
    accNameLookup (indexField stop tok d acc kv) d n =
      if kv.1 = n then some kv.2 else accNameLookup acc d n := by
  unfold accNameLookup
  rw [indexField_σ, indexField_fields, putField_self]
  by_cases h : kv.1 = n
  · subst h
    rw [if_pos rfl, Schema.insertAndIndex_self]
    simp
  · rw [if_neg h]
    rcases h1 : ((acc.σ.insertAndIndex kv.1).2).fieldIdOf n with _ | f
    · rw [(Schema.insertAndIndex_none h1).1]
      rfl
    · have h2 : acc.σ.fieldIdOf n = some f :=
        Schema.insertAndIndex_some_of_ne (fun he => h he.symm) h1
      rw [h2]
      simp only [Option.some_bind]
      have h3 : f ≠ (acc.σ.insertAndIndex kv.1).1 := by
        intro he
        apply h
        have h4 := Schema.insertAndIndex_self acc.σ kv.1
        exact Schema.fieldIdOf_inj h4 (he ▸ h1)
      rw [if_neg h3, optBind_getD]

theorem indexFoldDoc_fields_other (stop : Finset String) (tok : Tokenizer)
    (d : Nat) (doc : Document) :
    ∀ (acc : IndexAcc) (d' : Nat), d' ≠ d →
      (doc.foldl (indexField stop tok d) acc).fields d' = acc.fields d' := by
  induction doc with
  | nil => intro acc d' _; rfl
  | cons kv rest ih =>
    intro acc d' h
    rw [List.foldl_cons, ih _ _ h, indexField_fields, putField_other _ _ _ _ _ h]

theorem indexFoldDoc_accNameLookup (stop : Finset String) (tok : Tokenizer)
    (d : Nat) (doc : Document) :
    ∀ acc : IndexAcc, acc.σ.NamesNodup → (doc.map Prod.fst).Nodup → ∀ n,
      accNameLookup (doc.foldl (indexField stop tok d) acc) d n =
        optOr (docGet doc n) (accNameLookup acc d n) := by
  induction doc with
  | nil => intro acc _ _ n; simp [docGet_nil, optOr]
  | cons kv rest ih =>
    intro acc hσ hnd n
    have hσ₁ : (indexField stop tok d acc kv).σ.NamesNodup := by
      rw [indexField_σ]
      exact Schema.insertAndIndex_nodup _ hσ
    have hnd' : (rest.map Prod.fst).Nodup := by
      simp only [List.map_cons, List.nodup_cons] at hnd
      exact hnd.2
    rw [List.foldl_cons, ih _ hσ₁ hnd' n, indexField_accNameLookup, docGet_cons]
    by_cases h : kv.1 = n
    · have hrest : docGet rest n = none := by
        rw [docGet_eq_none_iff]
        subst h
        simp only [List.map_cons, List.nodup_cons] at hnd
        exact hnd.1
      simp [h, hrest, optOr]
    · simp [h]

/-! ## Lemmas on `optOr` and the pipeline stages -/

theorem optOr_none_right {α : Type} (a : Option α) : optOr a none = a := by
  cases a <;> rfl

theorem optOr_self_right {α : Type} (a b : Option α) :
    optOr (optOr a b) b = optOr a b := by
  cases a <;> cases b <;> rfl

theorem removeUserIdsMap_nil (m : FstMap) : removeUserIdsMap m [] = m := by
  unfold removeUserIdsMap
  rw [List.filter_eq_self]
  intro e _
  simp

theorem deletionCore_documentsFields (σ : Schema) (s : IndexState)
    (keys : List String) (ids : Finset Nat) :
    (deletionCore σ s keys ids).documentsFields =
      fun d => if d ∈ delTouched s ids then none else s.documentsFields d := rfl

theorem deletionCore_documentsFieldsCounts (σ : Schema) (s : IndexState)
    (keys : List String) (ids : Finset Nat) :
    (deletionCore σ s keys ids).documentsFieldsCounts =
      fun d => if d ∈ delTouched s ids then none else s.documentsFieldsCounts d := rfl

theorem deletionCore_docsWords (σ : Schema) (s : IndexState)
    (keys : List String) (ids : Finset Nat) :
    (deletionCore σ s keys ids).docsWords =
      fun d => if d ∈ delDeletedDocs s ids then none else s.docsWords d := rfl

theorem deletionCore_userIds (σ : Schema) (s : IndexState)
    (keys : List String) (ids : Finset Nat) :
    (deletionCore σ s keys ids).userIds = removeUserIdsMap s.userIds keys := rfl

theorem deletionCore_internalIds (σ : Schema) (s : IndexState)
    (keys : List String) (ids : Finset Nat) :
    (deletionCore σ s keys ids).internalIds = s.internalIds \ ids := rfl

theorem deletionCore_schema (σ : Schema) (s : IndexState)
    (keys : List String) (ids : Finset Nat) :
    (deletionCore σ s keys ids).schema = s.schema := rfl

theorem deletionCore_stopWords (σ : Schema) (s : IndexState)
    (keys : List String) (ids : Finset Nat) :
    (deletionCore σ s keys ids).stopWords = s.stopWords := rfl

theorem deletionCore_numberOfDocuments (σ : Schema) (s : IndexState)
    (keys : List String) (ids : Finset Nat) :
    (deletionCore σ s keys ids).numberOfDocuments =
      wrapSub s.numberOfDocuments (delDeletedDocs s ids).card := rfl

theorem applyAdditionOk_schema (tok : Tokenizer) (s : IndexState) (σ : Schema)
    (r : ResState) :
    (applyAdditionOk tok s σ r).schema = some (additionAcc tok s σ r).σ := rfl

theorem applyAdditionOk_documentsFields (tok : Tokenizer) (s : IndexState)
    (σ : Schema) (r : ResState) :
    (applyAdditionOk tok s σ r).documentsFields = (additionAcc tok s σ r).fields := rfl

theorem applyAdditionOk_internalIds (tok : Tokenizer) (s : IndexState)
    (σ : Schema) (r : ResState) :
    (applyAdditionOk tok s σ r).internalIds =
      (s.internalIds \ additionIds r.additions) ∪ r.newInternal.toFinset := rfl

theorem applyAdditionOk_userIds (tok : Tokenizer) (s : IndexState)
    (σ : Schema) (r : ResState) :
    (applyAdditionOk tok s σ r).userIds =
      mergeUserIdsMap (removeUserIdsMap s.userIds []) r.newUser := rfl

theorem applyAdditionOk_numberOfDocuments (tok : Tokenizer) (s : IndexState)
    (σ : Schema) (r : ResState) :
    (applyAdditionOk tok s σ r).numberOfDocuments =
      wrapAdd (wrapSub s.numberOfDocuments
        (delDeletedDocs s (additionIds r.additions)).card) r.additions.length := rfl

theorem nameLookup_applyAdditionOk (tok : Tokenizer) (s : IndexState)
    (σ : Schema) (r : ResState) (d : Nat) (n : String) :
    nameLookup (applyAdditionOk tok s σ r) d n =
      accNameLookup (additionAcc tok s σ r) d n := rfl

theorem nameLookup_eq (s : IndexState) (σ : Schema) (hσ : s.schema = some σ)
    (d : Nat) (n : String) :
    nameLookup s d n = (σ.fieldIdOf n).bind (fun f => fieldLookup s d f) := by
  unfold nameLookup
  rw [hσ]

theorem resolveDocs_single (s : IndexState) (σ : Schema) (pk : String)
    (isPart : Bool) (D : Document) (i : Nat) (uid : String) (used' : Finset Nat)
    (hext : extractDocumentId pk D s.userIds s.internalIds =
      Except.ok (i, uid, used')) :
    resolveDocs s σ pk isPart [D] ⟨[], [], s.internalIds, []⟩ =
      Except.ok ⟨[(uid, i)], [i], used',
        [(i, if isPart then partialMerge D (oldDocOf s σ i) else D)]⟩ := by
  unfold resolveDocs resolveStep
  rw [hext]
  rfl

theorem oldDoc_get_general (F : Nat → Option Value) (n : String) :
    ∀ (fields : List SchemaField) (k : Nat),
      (fields.map SchemaField.name).Nodup →
      docGet ((fields.enumFrom k).filterMap
        (fun p => (F p.1).map (fun v => (p.2.name, v)))) n =
      (listFindIdx (fun (x : SchemaField) => decide (x.name = n)) fields).bind
        (fun f => F (f + k)) := by
  intro fields
  induction fields with
  | nil => intro k _; simp [docGet_nil, listFindIdx]
  | cons fl rest ih =>
    intro k hnd
    simp only [List.map_cons, List.nodup_cons] at hnd
    have hstep : (fl :: rest).enumFrom k = (k, fl) :: rest.enumFrom (k + 1) := rfl
    rw [hstep, List.filterMap_cons]
    by_cases hname : fl.name = n
    · subst hname
      rcases hF : F k with _ | v
      · simp only [hF, Option.map_none']
        rw [ih (k + 1) hnd.2]
        have hnone : listFindIdx (fun (x : SchemaField) => decide (x.name = fl.name))
            rest = none := by
          rw [listFindIdx_eq_none_iff]
          intro x hx hp
          simp only [decide_eq_true_eq] at hp
          exact hnd.1 (hp ▸ List.mem_map_of_mem SchemaField.name hx)
        rw [hnone]
        simp [listFindIdx, hF]
      · simp only [hF, Option.map_some']
        rw [docGet_cons]
        simp [listFindIdx, hF]
    · rcases hF : F k with _ | v
      · simp only [hF, Option.map_none']
        rw [ih (k + 1) hnd.2]
        simp only [listFindIdx, hname, decide_eq_true_eq, if_neg hname]
        rcases h2 : listFindIdx (fun (x : SchemaField) => decide (x.name = n)) rest
          with _ | j <;> simp [h2, Nat.add_assoc, Nat.add_comm 1 k]
      · simp only [hF, Option.map_some']
        rw [docGet_cons, if_neg hname, ih (k + 1) hnd.2]
        simp only [listFindIdx, hname, decide_eq_true_eq, if_neg hname]
        rcases h2 : listFindIdx (fun (x : SchemaField) => decide (x.name = n)) rest
          with _ | j <;> simp [h2, Nat.add_assoc, Nat.add_comm 1 k]

theorem oldDocOf_get (s : IndexState) (σ : Schema) (hnd : σ.NamesNodup)
    (d : Nat) (n : String) :
    docGet (oldDocOf s σ d) n = (σ.fieldIdOf n).bind (fun f => fieldLookup s d f) := by
  unfold oldDocOf
  have henum : σ.fields.enum = σ.fields.enumFrom 0 := rfl
  rw [henum, oldDoc_get_general (fieldLookup s d) n σ.fields 0 hnd]
  rcases h : σ.fieldIdOf n with _ | f
  · rw [show listFindIdx (fun (x : SchemaField) => decide (x.name = n)) σ.fields
      = none from h]
    rfl
  · rw [show listFindIdx (fun (x : SchemaField) => decide (x.name = n)) σ.fields
      = some f from h]
    simp

theorem oldDocOf_names_nodup (s : IndexState) (σ : Schema) (hnd : σ.NamesNodup)
    (d : Nat) : ((oldDocOf s σ d).map Prod.fst).Nodup := by
  have hsub : ∀ (fields : List SchemaField) (k : Nat),
      (((fields.enumFrom k).filterMap
        (fun p => (fieldLookup s d p.1).map (fun v => (p.2.name, v)))).map
          Prod.fst).Sublist (fields.map SchemaField.name) := by
    intro fields
    induction fields with
    | nil => intro k; simp
    | cons fl rest ih =>
      intro k
      have hstep : (fl :: rest).enumFrom k = (k, fl) :: rest.enumFrom (k + 1) := rfl
      rw [hstep, List.filterMap_cons]
      rcases hF : fieldLookup s d k with _ | v
      · simp only [hF, Option.map_none', List.map_cons]
        exact (ih (k + 1)).cons _
      · simp only [hF, Option.map_some', List.map_cons]
        exact (ih (k + 1)).cons₂ _
  exact List.Nodup.sublist (hsub σ.fields 0) hnd

theorem partialMerge_nodup (D old : Document) (hD : (D.map Prod.fst).Nodup)
    (hold : (old.map Prod.fst).Nodup) :
    ((partialMerge D old).map Prod.fst).Nodup := by
  unfold partialMerge
  rw [List.map_append, List.nodup_append]
  refine ⟨hD, ?_, ?_⟩
  · exact List.Nodup.sublist (List.Sublist.map _ (List.filter_sublist old)) hold
  · intro a ha hmem
    obtain ⟨kv, hkv, hkva⟩ := List.mem_map.mp hmem
    have hpred := List.of_mem_filter hkv
    simp only [Option.isNone_iff_eq_none, decide_eq_true_eq] at hpred
    rw [hkva] at hpred
    exact ((docGet_eq_none_iff D a).mp hpred) ha

theorem applyAddition_eq_ok (tok : Tokenizer) (s : IndexState) (σ : Schema)
    (pk : String) (isPart : Bool) (docs : List Document) (r : ResState)
    (hσ : s.schema = some σ) (hpk : σ.primaryKey = some pk)
    (hres : resolveDocs s σ pk isPart docs ⟨[], [], s.internalIds, []⟩ =
      Except.ok r) :
    applyAddition tok s docs isPart = Except.ok (applyAdditionOk tok s σ r) := by
  simp only [applyAddition, hσ, hpk, hres]

theorem additionAcc_single (tok : Tokenizer) (s : IndexState) (σ : Schema)
    (r : ResState) (i : Nat) (D' : Document) (hadd : r.additions = [(i, D')]) :
    additionAcc tok s σ r =
      D'.foldl (indexField ((additionDeleted s σ r).stopWords.getD ∅) tok i)
        ⟨σ, (additionDeleted s σ r).documentsFields,
          (additionDeleted s σ r).documentsFieldsCounts,
          ((additionDeleted s σ r).rankedMap).getD (fun _ _ => none), []⟩ := by
  unfold additionAcc
  rw [hadd]
  rfl

theorem additionIds_single (i : Nat) (D' : Document) :
    additionIds [(i, D')] = {i} := rfl

/-- The base accumulator's stored-fields view collapses to the pre-addition
state seen through the prior-version deletion. -/
theorem accNameLookup_base (s : IndexState) (σ : Schema) (r : ResState)
    (d : Nat) (n : String) :
    accNameLookup
      ⟨σ, (additionDeleted s σ r).documentsFields,
        (additionDeleted s σ r).documentsFieldsCounts,
        ((additionDeleted s σ r).rankedMap).getD (fun _ _ => none), []⟩ d n =
      (σ.fieldIdOf n).bind (fun f =>
        (if d ∈ delTouched s (additionIds r.additions) then none
         else s.documentsFields d).bind (fun m => m f)) := rfl

/-! ## C5: the partial-merge law -/

/-- C5 (amended).  For a partial addition of a single document `D` resolving
to DocumentId `i`: the stored document afterwards holds, for every field
name, the incoming value when present in `D` and otherwise the previously
stored value.  For a full addition, the stored document is exactly `D` —
provided the stored prior version (if any) owned at least one indexed word;
otherwise the prior-version deletion cannot reach it and stale fields
survive, as the counterexample shows. -/
theorem partial_merge_law (tok : Tokenizer) (s : IndexState) (σ : Schema)
    (pk : String) (D : Document) (i : Nat) (uid : String) (used' : Finset Nat)
    (hσ : s.schema = some σ) (hpk : σ.primaryKey = some pk)
    (hnd : σ.NamesNodup) (hD : (D.map Prod.fst).Nodup)
    (hext : extractDocumentId pk D s.userIds s.internalIds =
      Except.ok (i, uid, used')) :
    (∃ s', applyDocumentsPartialAddition tok s [D] = Except.ok s' ∧
      ∀ n, nameLookup s' i n = optOr (docGet D n) (nameLookup s i n)) ∧
    (((s.documentsFields i).isSome → wordsOfDoc s i ≠ ∅) →
      ∃ s'', applyDocumentsAddition tok s [D] = Except.ok s'' ∧
        ∀ n, nameLookup s'' i n = docGet D n) := by
  constructor
  · set D' := partialMerge D (oldDocOf s σ i) with hD'
    have hres := resolveDocs_single s σ pk true D i uid used' hext
    rw [if_pos rfl] at hres
    set r : ResState := ⟨[(uid, i)], [i], used', [(i, D')]⟩ with hr
    refine ⟨applyAdditionOk tok s σ r, ?_, ?_⟩
    · exact applyAddition_eq_ok tok s σ pk true [D] r hσ hpk hres
    · intro n
      rw [nameLookup_applyAdditionOk, additionAcc_single tok s σ r i D' rfl,
        indexFoldDoc_accNameLookup _ _ _ _ _ hnd
          (partialMerge_nodup D _ hD (oldDocOf_names_nodup s σ hnd i)) n,
        accNameLookup_base]
      have hD'get : docGet D' n =
          optOr (docGet D n)
            (if (docGet D n).isNone then
              (σ.fieldIdOf n).bind (fun f => fieldLookup s i f) else none) := by
        rw [hD']
        unfold partialMerge
        rw [docGet_append, docGet_filter_isNone, oldDocOf_get s σ hnd i n]
      rw [hD'get, nameLookup_eq s σ hσ i n]
      by_cases htouch : i ∈ delTouched s (additionIds r.additions)
      · rw [if_pos htouch]
        rcases hg : docGet D n with _ | v <;>
          rcases ho : (σ.fieldIdOf n).bind (fun f => fieldLookup s i f) with _ | w <;>
            rcases hf : σ.fieldIdOf n with _ | f <;>
              simp_all [optOr]
      · rw [if_neg htouch]
        rcases hg : docGet D n with _ | v <;>
          rcases ho : (σ.fieldIdOf n).bind (fun f => fieldLookup s i f) with _ | w <;>
            rcases hf : σ.fieldIdOf n with _ | f <;>
              simp_all [optOr, fieldLookup]
  · intro hworded
    have hres := resolveDocs_single s σ pk false D i uid used' hext
    rw [if_neg (by simp)] at hres
    set r : ResState := ⟨[(uid, i)], [i], used', [(i, D)]⟩ with hr
    refine ⟨applyAdditionOk tok s σ r, ?_, ?_⟩
    · exact applyAddition_eq_ok tok s σ pk false [D] r hσ hpk hres
    · intro n
      rw [nameLookup_applyAdditionOk, additionAcc_single tok s σ r i D rfl,
        indexFoldDoc_accNameLookup _ _ _ _ _ hnd hD n, accNameLookup_base]
      have hbase : (if i ∈ delTouched s (additionIds r.additions) then none
          else s.documentsFields i) = none := by
        by_cases htouch : i ∈ delTouched s (additionIds r.additions)
        · rw [if_pos htouch]
        · rw [if_neg htouch]
          rcases hfld : s.documentsFields i with _ | m
          · rfl
          · exfalso
            apply htouch
            rw [hr]
            simp only [additionIds_single, delTouched, Finset.mem_filter,
              Finset.mem_singleton]
            exact ⟨trivial, hworded (by simp [hfld])⟩
      rw [hbase]
      rcases hg : docGet D n with _ | v <;> rcases hf : σ.fieldIdOf n with _ | f <;>
        simp [optOr]

/-- Witness for C5 at the empty index: partially adding `{id:"u", a:1}`
stores each incoming field over the (absent) prior version, and a full
addition stores exactly the document. -/
theorem partial_merge_law_witness :
    (∃ s', applyDocumentsPartialAddition tokWord exInit [exDocUA] = Except.ok s' ∧
      ∀ n, nameLookup s' 0 n = optOr (docGet exDocUA n) (nameLookup exInit 0 n)) ∧
    (((exInit.documentsFields 0).isSome → wordsOfDoc exInit 0 ≠ ∅) →
      ∃ s'', applyDocumentsAddition tokWord exInit [exDocUA] = Except.ok s'' ∧
        ∀ n, nameLookup s'' 0 n = docGet exDocUA n) :=
  partial_merge_law tokWord exInit exSchema "id" exDocUA 0 "u" {0}
    rfl rfl (by decide) (by decide) rfl

/-! ## C9: duplicate DocumentIds within one batch -/

theorem applyAdditionOk_congr (tok : Tokenizer) (s : IndexState) (σ : Schema)
    (r r' : ResState) (ha : r.additions = r'.additions)
    (hu : r.newUser = r'.newUser)
    (hi : r.newInternal.toFinset = r'.newInternal.toFinset) :
    applyAdditionOk tok s σ r = applyAdditionOk tok s σ r' := by
  unfold applyAdditionOk additionAcc additionDeleted
  rw [ha, hu, hi]

theorem resolveDocs_pair_same (s : IndexState) (σ : Schema) (pk : String)
    (isPart : Bool) (D₁ D₂ : Document) (i : Nat) (uid : String)
    (hext1 : extractDocumentId pk D₁ s.userIds s.internalIds =
      Except.ok (i, uid, s.internalIds))
    (hext2 : extractDocumentId pk D₂ s.userIds s.internalIds =
      Except.ok (i, uid, s.internalIds)) :
    resolveDocs s σ pk isPart [D₁, D₂] ⟨[], [], s.internalIds, []⟩ =
      Except.ok ⟨[(uid, i)], [i, i], s.internalIds,
        [(i, if isPart then partialMerge D₂ (oldDocOf s σ i) else D₂)]⟩ := by
  simp only [resolveDocs, resolveStep, hext1, hext2]
  simp [fmInsert, addInsert, strLt_irrefl uid]

/-- C9 (amended).  Documents of one batch resolving to the same DocumentId
are collapsed so that the last document wholly replaces the earlier ones
(`HashMap::insert` replaces the stored value): adding `[D₁, D₂]` commits
exactly the same update as adding `[D₂]` alone, for full as well as partial
additions (in the partial mode each duplicate is first merged with the
pre-batch stored fields, so the last merged document wins).  The claim's
field-wise union of the duplicates does not happen, as the counterexample
shows. -/
theorem duplicate_docid_last_doc_wins (tok : Tokenizer) (s : IndexState)
    (σ : Schema) (pk : String) (D₁ D₂ : Document) (i : Nat) (uid : String)
    (isPart : Bool) (hσ : s.schema = some σ) (hpk : σ.primaryKey = some pk)
    (hext1 : extractDocumentId pk D₁ s.userIds s.internalIds =
      Except.ok (i, uid, s.internalIds))
    (hext2 : extractDocumentId pk D₂ s.userIds s.internalIds =
      Except.ok (i, uid, s.internalIds)) :
    applyAddition tok s [D₁, D₂] isPart = applyAddition tok s [D₂] isPart := by
  rw [applyAddition_eq_ok tok s σ pk isPart [D₁, D₂] _ hσ hpk
      (resolveDocs_pair_same s σ pk isPart D₁ D₂ i uid hext1 hext2),
    applyAddition_eq_ok tok s σ pk isPart [D₂] _ hσ hpk
      (resolveDocs_single s σ pk isPart D₂ i uid s.internalIds hext2)]
  congr 1
  exact applyAdditionOk_congr tok s σ _ _ rfl rfl (by simp)

/-- Witness for C9: on the index already holding `a ↦ 0`, adding
`[{id:"a", x:1}, {id:"a", y:2}]` commits the same state as adding only
`{id:"a", y:2}`. -/
theorem duplicate_docid_last_doc_wins_witness :
    applyAddition tokWord (addOk tokWord exInit [exDocA]) [exDocAX, exDocAY] false =
      applyAddition tokWord (addOk tokWord exInit [exDocA]) [exDocAY] false :=
  duplicate_docid_last_doc_wins tokWord (addOk tokWord exInit [exDocA]) exSchema
    "id" exDocAX exDocAY 0 "a" false (by decide) (by decide) rfl rfl

/-! ## Sorted-map insertion, extensionality and the id allocator -/

theorem fmInsert_mem (k : String) (v : Nat) :
    ∀ (m : FstMap) (e : String × Nat), e ∈ fmInsert m k v → e = (k, v) ∨ e ∈ m := by
  intro m
  induction m with
  | nil =>
    intro e he
    simp only [fmInsert, List.mem_singleton] at he
    exact Or.inl he
  | cons hd rest ih =>
    obtain ⟨a, b⟩ := hd
    intro e he
    simp only [fmInsert] at he
    by_cases h1 : StrLt k a
    · rw [if_pos h1] at he
      rcases List.mem_cons.mp he with he | he
      · exact Or.inl he
      · exact Or.inr he
    · rw [if_neg h1] at he
      by_cases h2 : k = a
      · rw [if_pos h2] at he
        rcases List.mem_cons.mp he with he | he
        · exact Or.inl he
        · exact Or.inr (List.mem_cons_of_mem _ he)
      · rw [if_neg h2] at he
        rcases List.mem_cons.mp he with he | he
        · exact Or.inr (he ▸ List.mem_cons_self _ _)
        · rcases ih e he with h | h
          · exact Or.inl h
          · exact Or.inr (List.mem_cons_of_mem _ h)

theorem fmInsert_sorted (k : String) (v : Nat) :
    ∀ m : FstMap, FmSorted m → FmSorted (fmInsert m k v) := by
  intro m
  induction m with
  | nil => intro _; exact List.pairwise_singleton _ _
  | cons hd rest ih =>
    obtain ⟨a, b⟩ := hd
    intro hs
    rw [FmSorted, List.pairwise_cons] at hs
    obtain ⟨hhd, hrest⟩ := hs
    simp only [fmInsert]
    by_cases h1 : StrLt k a
    · rw [if_pos h1]
      refine List.Pairwise.cons ?_ (List.Pairwise.cons hhd hrest)
      intro e he
      rcases List.mem_cons.mp he with he | he
      · rw [he]; exact h1
      · exact strLt_trans h1 (hhd e he)
    · rw [if_neg h1]
      by_cases h2 : k = a
      · rw [if_pos h2]
        subst h2
        exact List.Pairwise.cons hhd hrest
      · rw [if_neg h2]
        have hak : StrLt a k := by
          rcases strLt_trichotomy k a with h | h | h
          · exact absurd h h1
          · exact absurd h h2
          · exact h
        refine List.Pairwise.cons ?_ (ih hrest)
        intro e he
        rcases fmInsert_mem k v rest e he with he | he
        · rw [he]; exact hak
        · exact hhd e he

theorem fmInsert_lookup (k : String) (v : Nat) :
    ∀ (m : FstMap) (q : String),
      fmLookup (fmInsert m k v) q = if q = k then some v else fmLookup m q := by
  intro m
  induction m with
  | nil =>
    intro q
    simp only [fmInsert, fmLookup_cons, fmLookup_nil]
    by_cases h : q = k
    · subst h
      rw [if_pos rfl]
    · rw [if_neg (fun hh => h hh.symm), if_neg h]
  | cons hd rest ih =>
    obtain ⟨a, b⟩ := hd
    intro q
    simp only [fmInsert]
    by_cases h1 : StrLt k a
    · rw [if_pos h1, fmLookup_cons]
      by_cases hq : q = k
      · subst hq
        rw [if_pos rfl]
      · rw [if_neg (fun hh => hq hh.symm), if_neg hq]
    · rw [if_neg h1]
      by_cases h2 : k = a
      · subst h2
        rw [if_pos rfl, fmLookup_cons, fmLookup_cons]
        by_cases hq : q = k
        · subst hq
          simp
        · rw [if_neg (fun hh => hq hh.symm), if_neg hq,
            if_neg (fun hh => hq hh.symm)]
      · rw [if_neg h2, fmLookup_cons, fmLookup_cons]
        by_cases ha : a = q
        · subst ha
          rw [if_pos rfl, if_pos rfl, if_neg (fun hh => h2 hh.symm)]
        · rw [if_neg ha, if_neg ha, ih q]

theorem fmExt : ∀ (m n : FstMap), FmSorted m → FmSorted n →
    (∀ k, fmLookup m k = fmLookup n k) → m = n := by
  intro m
  induction m with
  | nil =>
    intro n _ _ hk
    cases n with
    | nil => rfl
    | cons f nrest =>
      have h := hk f.1
      rw [fmLookup_nil, fmLookup_cons, if_pos rfl] at h
      exact absurd h (by simp)
  | cons e rest ih =>
    intro n hm hn hk
    cases n with
    | nil =>
      have h := hk e.1
      rw [fmLookup_nil, fmLookup_cons, if_pos rfl] at h
      exact absurd h.symm (by simp)
    | cons f nrest =>
      obtain ⟨a, va⟩ := e
      obtain ⟨c, vc⟩ := f
      have hef : a = c := by
        by_contra hne
        rcases strLt_trichotomy a c with h1 | h1 | h1
        · have h2 := hk a
          rw [fmLookup_cons, if_pos rfl,
            fmLookup_eq_none_of_sorted_lt c vc nrest hn a h1] at h2
          exact absurd h2 (by simp)
        · exact hne h1
        · have h2 := hk c
          rw [fmLookup_cons (a, va) rest c, if_neg (fun hh => hne hh)] at h2
          rw [fmLookup_cons, if_pos rfl] at h2
          have h3 : fmLookup rest c = none := by
            rw [fmLookup_eq_none_iff]
            intro x hx he
            have h4 : StrLt a x.1 := (List.pairwise_cons.mp hm).1 x hx
            rw [he] at h4
            exact strLt_asymm h1 h4
          rw [h3] at h2
          exact absurd h2.symm (by simp)
      subst hef
      have hval : va = vc := by
        have h := hk a
        rw [fmLookup_cons, if_pos rfl, fmLookup_cons, if_pos rfl] at h
        exact Option.some.inj h
      subst hval
      have htail : rest = nrest := by
        refine ih nrest (List.Pairwise.of_cons hm) (List.Pairwise.of_cons hn) ?_
        intro q
        by_cases hq : a = q
        · subst hq
          have h1 : fmLookup rest a = none := by
            rw [fmLookup_eq_none_iff]
            intro x hx he
            have h4 : StrLt a x.1 := (List.pairwise_cons.mp hm).1 x hx
            rw [he] at h4
            exact strLt_irrefl a h4
          have h2 : fmLookup nrest a = none := by
            rw [fmLookup_eq_none_iff]
            intro x hx he
            have h4 : StrLt a x.1 := (List.pairwise_cons.mp hn).1 x hx
            rw [he] at h4
            exact strLt_irrefl a h4
          rw [h1, h2]
        · have h := hk q
          rw [fmLookup_cons, if_neg hq, fmLookup_cons, if_neg hq] at h
          exact h
      rw [htail]

/-! ### The id allocator never returns a used id -/

theorem mexFrom_not_mem : ∀ (fuel : Nat) (s : Finset Nat) (c : Nat),
    (s.filter (fun x => c ≤ x)).card < fuel → mexFrom fuel s c ∉ s := by
  intro fuel
  induction fuel with
  | zero => intro s c h; exact absurd h (by simp)
  | succ n ih =>
    intro s c h
    by_cases hc : c ∈ s
    · rw [show mexFrom (n + 1) s c = mexFrom n s (c + 1) by simp [mexFrom, hc]]
      refine ih s (c + 1) ?_
      have hsub : s.filter (fun x => c + 1 ≤ x) ⊆
          (s.filter (fun x => c ≤ x)).erase c := by
        intro x hx
        simp only [Finset.mem_filter] at hx
        rw [Finset.mem_erase]
        refine ⟨by omega, ?_⟩
        simp only [Finset.mem_filter]
        exact ⟨hx.1, by omega⟩
      have hcc : c ∈ s.filter (fun x => c ≤ x) := by
        simp only [Finset.mem_filter]
        exact ⟨hc, le_rfl⟩
      have h1 : ((s.filter (fun x => c ≤ x)).erase c).card <
          (s.filter (fun x => c ≤ x)).card := Finset.card_erase_lt_of_mem hcc
      have h2 := Finset.card_le_card hsub
      omega
    · rw [show mexFrom (n + 1) s c = c by simp [mexFrom, hc]]
      exact hc

theorem nextFreeId_not_mem (used : Finset Nat) : nextFreeId used ∉ used := by
  refine mexFrom_not_mem (used.card + 1) used 0 ?_
  have h := Finset.card_le_card (Finset.filter_subset (fun x => 0 ≤ x) used)
  omega

/-! ### The additions map (`documents_additions`) -/

theorem addInsert_mem (d : Nat) (doc : Document) :
    ∀ (adds : List (Nat × Document)) (p : Nat × Document),
      p ∈ addInsert adds d doc → p = (d, doc) ∨ p ∈ adds := by
  intro adds
  induction adds with
  | nil =>
    intro p hp
    simp only [addInsert, List.mem_singleton] at hp
    exact Or.inl hp
  | cons hd rest ih =>
    obtain ⟨d', doc'⟩ := hd
    intro p hp
    simp only [addInsert] at hp
    by_cases he : d' = d
    · rw [if_pos he] at hp
      rcases List.mem_cons.mp hp with hp | hp
      · exact Or.inl hp
      · exact Or.inr (List.mem_cons_of_mem _ hp)
    · rw [if_neg he] at hp
      rcases List.mem_cons.mp hp with hp | hp
      · exact Or.inr (hp ▸ List.mem_cons_self _ _)
      · rcases ih p hp with h | h
        · exact Or.inl h
        · exact Or.inr (List.mem_cons_of_mem _ h)

theorem addInsert_keys (d : Nat) (doc : Document) :
    ∀ adds : List (Nat × Document),
      (addInsert adds d doc).map Prod.fst =
        if d ∈ adds.map Prod.fst then adds.map Prod.fst
        else adds.map Prod.fst ++ [d] := by
  intro adds
  induction adds with
  | nil => simp [addInsert]
  | cons hd rest ih =>
    obtain ⟨d', doc'⟩ := hd
    simp only [addInsert]
    by_cases he : d' = d
    · subst he
      rw [if_pos rfl]
      simp
    · rw [if_neg he]
      simp only [List.map_cons, List.mem_cons]
      rw [ih]
      by_cases hm : d ∈ rest.map Prod.fst
      · rw [if_pos hm, if_pos (Or.inr hm)]
      · rw [if_neg hm, if_neg (by
          intro h
          rcases h with h | h
          · exact he h.symm
          · exact hm h)]
        simp

theorem addInsert_keys_nodup (d : Nat) (doc : Document)
    (adds : List (Nat × Document)) (h : (adds.map Prod.fst).Nodup) :
    ((addInsert adds d doc).map Prod.fst).Nodup := by
  rw [addInsert_keys]
  by_cases hm : d ∈ adds.map Prod.fst
  · rw [if_pos hm]; exact h
  · rw [if_neg hm, List.nodup_append]
    refine ⟨h, List.nodup_singleton d, ?_⟩
    intro x hx hmem
    simp only [List.mem_singleton] at hmem
    subst hmem
    exact hm hx

theorem additionIds_addInsert (d : Nat) (doc : Document)
    (adds : List (Nat × Document)) :
    additionIds (addInsert adds d doc) = insert d (additionIds adds) := by
  unfold additionIds
  rw [addInsert_keys]
  by_cases hm : d ∈ adds.map Prod.fst
  · rw [if_pos hm]
    have hd : d ∈ (adds.map Prod.fst).toFinset := List.mem_toFinset.mpr hm
    rw [Finset.insert_eq_self.mpr hd]
  · rw [if_neg hm]
    ext x
    simp [or_comm]

/-! ### Inversion of the id extractor -/

theorem extractDocumentId_inv (pk : String) (doc : Document) (userIds : FstMap)
    (used : Finset Nat) (i : Nat) (uid : String) (used' : Finset Nat)
    (h : extractDocumentId pk doc userIds used = Except.ok (i, uid, used')) :
    (docGet doc pk).bind valueToUserId = some uid ∧ doc ≠ [] ∧
      ((fmLookup userIds uid = some i ∧ used' = used) ∨
       (fmLookup userIds uid = none ∧ i = nextFreeId used ∧
         used' = insert (nextFreeId used) used)) := by
  unfold extractDocumentId at h
  rcases hg : docGet doc pk with _ | v
  · simp only [hg] at h
    exact absurd h (by simp)
  · simp only [hg] at h
    rcases hv : valueToUserId v with _ | u
    · simp only [hv] at h
      exact absurd h (by simp)
    · simp only [hv] at h
      have hne : doc ≠ [] := by
        intro he
        rw [he, docGet_nil] at hg
        exact Option.noConfusion hg
      rcases hl : fmLookup userIds u with _ | j
      · simp only [hl] at h
        have h2 := Except.ok.inj h
        have h3 : nextFreeId used = i := congrArg Prod.fst h2
        have h4 : u = uid := congrArg (fun p => p.2.1) h2
        have h5 : insert (nextFreeId used) used = used' :=
          congrArg (fun p => p.2.2) h2
        subst h4
        exact ⟨by simp [hv], hne, Or.inr ⟨hl, h3.symm, h5.symm⟩⟩
      · simp only [hl] at h
        have h2 := Except.ok.inj h
        have h3 : j = i := congrArg Prod.fst h2
        have h4 : u = uid := congrArg (fun p => p.2.1) h2
        have h5 : used = used' := congrArg (fun p => p.2.2) h2
        subst h4
        exact ⟨by simp [hv], hne, Or.inl ⟨h3 ▸ hl, h5.symm⟩⟩

/-! ## The resolution loop preserves its invariant -/

theorem optOr_none_left {α : Type} (b : Option α) : optOr none b = b := rfl

theorem optOr_some_left {α : Type} (a : α) (b : Option α) :
    optOr (some a) b = some a := rfl

/-- Every id the combined (new over stored) lookup can produce is already a
consumed id. -/
theorem resInv_cmb_used (s : IndexState) (σ : Schema) (r : ResState)
    (hW : WFS σ s) (hInv : ResInv s r) (u : String) (id : Nat)
    (h : optOr (fmLookup r.newUser u) (fmLookup s.userIds u) = some id) :
    id ∈ r.used := by
  rcases hn : fmLookup r.newUser u with _ | j
  · rw [hn, optOr_none_left] at h
    exact hInv.baseUsed (hW.lookupMem u id h)
  · rw [hn, optOr_some_left] at h
    exact (Option.some.inj h) ▸ hInv.valsUsed u j hn

theorem resolveDocs_inv (s : IndexState) (σ : Schema) (pk : String)
    (isPart : Bool) (hW : WFS σ s) (hpk : σ.primaryKey = some pk) :
    ∀ (docs : List Document) (r r' : ResState), ResInv s r →
      (∀ u, (fmLookup r.newUser u).isSome →
        (fmLookup s.userIds u).isSome ∨ ∀ doc ∈ docs, docUidIn σ doc ≠ some u) →
      docs.Pairwise (fun d₁ d₂ => ∀ u, docUidIn σ d₁ = some u →
        docUidIn σ d₂ = some u → (fmLookup s.userIds u).isSome) →
      resolveDocs s σ pk isPart docs r = Except.ok r' → ResInv s r' := by
  intro docs
  induction docs with
  | nil =>
    intro r r' hInv _ _ hres
    simp only [resolveDocs] at hres
    exact (Except.ok.inj hres) ▸ hInv
  | cons doc docs ih =>
    intro r r' hInv hH hPW hres
    simp only [resolveDocs] at hres
    rcases hstep : resolveStep s σ pk isPart r doc with e | r₁
    · rw [hstep] at hres
      exact absurd hres (by simp)
    · rw [hstep] at hres
      rw [List.pairwise_cons] at hPW
      unfold resolveStep at hstep
      rcases hext : extractDocumentId pk doc s.userIds r.used with e | trip
      · rw [hext] at hstep
        exact absurd hstep (by simp)
      · obtain ⟨d, uid, used'⟩ := trip
        rw [hext] at hstep
        have hr₁ : r₁ = ⟨fmInsert r.newUser uid d, r.newInternal ++ [d], used',
            addInsert r.additions d
              (if isPart then partialMerge doc (oldDocOf s σ d) else doc)⟩ :=
          (Except.ok.inj hstep).symm
        subst hr₁
        obtain ⟨hguid, hne, hcase⟩ :=
          extractDocumentId_inv pk doc s.userIds r.used d uid used' hext
        have huid : docUidIn σ doc = some uid := by
          unfold docUidIn
          rw [hpk]
          simpa using hguid
        have hdocne : (if isPart then partialMerge doc (oldDocOf s σ d)
            else doc) ≠ [] := by
          cases isPart
          · simpa using hne
          · simp only [if_pos, partialMerge]
            intro hcon
            exact hne (List.append_eq_nil.mp hcon).1
        rcases hcase with ⟨hlk, hused⟩ | ⟨hlk, hd, hused⟩
        · -- the UserId is already stored: its DocumentId is reused
          subst hused
          have hold : ∀ j, fmLookup r.newUser uid = some j → j = d := by
            intro j hj
            rcases hInv.vals uid j hj with h | h
            · exact Option.some.inj (h.symm.trans hlk)
            · rw [h.1] at hlk
              exact Option.noConfusion hlk
          have hcmb : ∀ q,
              optOr (fmLookup (fmInsert r.newUser uid d) q) (fmLookup s.userIds q) =
              optOr (fmLookup r.newUser q) (fmLookup s.userIds q) := by
            intro q
            rw [fmInsert_lookup]
            by_cases hq : q = uid
            · subst hq
              rw [if_pos rfl, optOr_some_left]
              rcases hn : fmLookup r.newUser q with _ | j
              · rw [optOr_none_left, hlk]
              · rw [optOr_some_left, hold j hn]
            · rw [if_neg hq]
          refine ih _ r' ?_ ?_ hPW.2 hres
          · refine ⟨fmInsert_sorted uid d r.newUser hInv.sorted, ?_, ?_, ?_, ?_,
              ?_, ?_, ?_, ?_, ?_⟩
            · intro u id h
              simp only [fmInsert_lookup] at h
              by_cases hq : u = uid
              · subst hq
                rw [if_pos rfl] at h
                exact Or.inl ((Option.some.inj h) ▸ hlk)
              · rw [if_neg hq] at h
                exact hInv.vals u id h
            · intro u id h
              simp only [fmInsert_lookup] at h
              by_cases hq : u = uid
              · subst hq
                rw [if_pos rfl] at h
                exact (Option.some.inj h) ▸ hInv.baseUsed (hW.lookupMem u d hlk)
              · rw [if_neg hq] at h
                exact hInv.valsUsed u id h
            · exact hInv.baseUsed
            · intro u v id h1 h2
              exact hInv.cmbInj u v id ((hcmb u) ▸ h1) ((hcmb v) ▸ h2)
            · intro id hid
              rcases List.mem_append.mp hid with h | h
              · obtain ⟨u, hu⟩ := hInv.internalWitness id h
                by_cases hq : u = uid
                · subst hq
                  refine ⟨u, ?_⟩
                  rw [fmInsert_lookup, if_pos rfl]
                  exact congrArg some (hold id hu).symm
                · refine ⟨u, ?_⟩
                  rw [fmInsert_lookup, if_neg hq]
                  exact hu
              · have hid2 : id = d := by simpa using h
                refine ⟨uid, ?_⟩
                rw [fmInsert_lookup, if_pos rfl, hid2]
            · intro u id h
              simp only [fmInsert_lookup] at h
              by_cases hq : u = uid
              · subst hq
                rw [if_pos rfl] at h
                exact List.mem_append_right _
                  (by simp [Option.some.inj h])
              · rw [if_neg hq] at h
                exact List.mem_append_left _ (hInv.valsInternal u id h)
            · show additionIds (addInsert r.additions d _) = _
              rw [additionIds_addInsert, hInv.idsEq]
              ext x
              simp [or_comm]
            · intro p hp
              rcases addInsert_mem d _ r.additions p hp with h | h
              · rw [h]
                exact hdocne
              · exact hInv.docsNonempty p h
            · exact addInsert_keys_nodup d _ r.additions hInv.keysNodup
          · intro u hu
            simp only [fmInsert_lookup] at hu
            by_cases hq : u = uid
            · subst hq
              exact Or.inl (by rw [hlk]; rfl)
            · rw [if_neg hq] at hu
              rcases hH u hu with h | h
              · exact Or.inl h
              · exact Or.inr (fun doc'' hd => h doc'' (List.mem_cons_of_mem _ hd))
        · -- fresh UserId: a new internal id is drawn from the allocator
          subst hd
          subst hused
          have hnoprev : fmLookup r.newUser uid = none := by
            rcases hn : fmLookup r.newUser uid with _ | j
            · rfl
            · rcases hH uid (by rw [hn]; rfl) with h | h
              · rw [hlk] at h
                exact absurd h (by simp)
              · exact absurd huid (h doc (List.mem_cons_self doc docs))
          have hfree : nextFreeId r.used ∉ r.used := nextFreeId_not_mem r.used
          have hnotint : nextFreeId r.used ∉ s.internalIds :=
            fun hmem => hfree (hInv.baseUsed hmem)
          refine ih _ r' ?_ ?_ hPW.2 hres
          · refine ⟨fmInsert_sorted uid _ r.newUser hInv.sorted, ?_, ?_, ?_, ?_,
              ?_, ?_, ?_, ?_, ?_⟩
            · intro u id h
              simp only [fmInsert_lookup] at h
              by_cases hq : u = uid
              · subst hq
                rw [if_pos rfl] at h
                exact Or.inr ⟨hlk, (Option.some.inj h) ▸ hnotint⟩
              · rw [if_neg hq] at h
                exact hInv.vals u id h
            · intro u id h
              simp only [fmInsert_lookup] at h
              by_cases hq : u = uid
              · subst hq
                rw [if_pos rfl] at h
                exact (Option.some.inj h) ▸ Finset.mem_insert_self _ _
              · rw [if_neg hq] at h
                exact Finset.mem_insert_of_mem (hInv.valsUsed u id h)
            · intro x hx
              exact Finset.mem_insert_of_mem (hInv.baseUsed hx)
            · intro u v id h1 h2
              by_cases hqu : u = uid <;> by_cases hqv : v = uid
              · rw [hqu, hqv]
              · subst hqu
                rw [fmInsert_lookup, if_pos rfl, optOr_some_left] at h1
                rw [fmInsert_lookup, if_neg hqv] at h2
                have hval := resInv_cmb_used s σ r hW hInv v id h2
                rw [← Option.some.inj h1] at hval
                exact absurd hval hfree
              · subst hqv
                rw [fmInsert_lookup, if_pos rfl, optOr_some_left] at h2
                rw [fmInsert_lookup, if_neg hqu] at h1
                have hval := resInv_cmb_used s σ r hW hInv u id h1
                rw [← Option.some.inj h2] at hval
                exact absurd hval hfree
              · rw [fmInsert_lookup, if_neg hqu] at h1
                rw [fmInsert_lookup, if_neg hqv] at h2
                exact hInv.cmbInj u v id h1 h2
            · intro id hid
              rcases List.mem_append.mp hid with h | h
              · obtain ⟨u, hu⟩ := hInv.internalWitness id h
                have hq : u ≠ uid := by
                  intro he
                  rw [he, hnoprev] at hu
                  exact Option.noConfusion hu
                refine ⟨u, ?_⟩
                rw [fmInsert_lookup, if_neg hq]
                exact hu
              · have hid2 : id = nextFreeId r.used := by simpa using h
                refine ⟨uid, ?_⟩
                rw [fmInsert_lookup, if_pos rfl, hid2]
            · intro u id h
              simp only [fmInsert_lookup] at h
              by_cases hq : u = uid
              · subst hq
                rw [if_pos rfl] at h
                exact List.mem_append_right _ (by simp [Option.some.inj h])
              · rw [if_neg hq] at h
                exact List.mem_append_left _ (hInv.valsInternal u id h)
            · show additionIds (addInsert r.additions _ _) = _
              rw [additionIds_addInsert, hInv.idsEq]
              ext x
              simp [or_comm]
            · intro p hp
              rcases addInsert_mem _ _ r.additions p hp with h | h
              · rw [h]
                exact hdocne
              · exact hInv.docsNonempty p h
            · exact addInsert_keys_nodup _ _ r.additions hInv.keysNodup
          · intro u hu
            simp only [fmInsert_lookup] at hu
            by_cases hq : u = uid
            · subst hq
              refine Or.inr ?_
              intro doc'' hdmem hcon
              have hsome := hPW.1 doc'' hdmem u huid hcon
              rw [hlk] at hsome
              exact absurd hsome (by simp)
            · rw [if_neg hq] at hu
              rcases hH u hu with h | h
              · exact Or.inl h
              · exact Or.inr (fun doc'' hd => h doc'' (List.mem_cons_of_mem _ hd))

/-- The invariant holds of the whole batch resolution started from the
transaction's seed accumulator. -/
theorem resolveDocs_good (tok : Tokenizer) (s : IndexState) (σ : Schema)
    (pk : String) (isPart : Bool) (docs : List Document) (r : ResState)
    (hW : WFS σ s) (hpk : σ.primaryKey = some pk)
    (hfresh : NoDupFresh s σ docs)
    (hres : resolveDocs s σ pk isPart docs ⟨[], [], s.internalIds, []⟩ =
      Except.ok r) : ResInv s r := by
  refine resolveDocs_inv s σ pk isPart hW hpk docs _ r ?_ ?_ hfresh hres
  · refine ⟨List.Pairwise.nil, ?_, ?_, ?_, ?_, ?_, ?_, ?_, ?_, ?_⟩
    · intro u id h
      rw [fmLookup_nil] at h
      exact Option.noConfusion h
    · intro u id h
      rw [fmLookup_nil] at h
      exact Option.noConfusion h
    · intro x hx
      exact hx
    · intro u v id h1 h2
      rw [fmLookup_nil, optOr_none_left] at h1 h2
      exact hW.lookupInj u v id h1 h2
    · intro id hid
      exact absurd hid (List.not_mem_nil id)
    · intro u id h
      rw [fmLookup_nil] at h
      exact Option.noConfusion h
    · rfl
    · intro p hp
      exact absurd hp (List.not_mem_nil p)
    · exact List.nodup_nil
  · intro u hu
    rw [fmLookup_nil] at hu
    exact absurd hu (by simp)

/-! ## Ranked fields and the indexing fold -/

theorem mem_rankedFields (σ : Schema) (f : Nat) :
    f ∈ σ.rankedFields ↔ ∃ sf, σ.fields.get? f = some sf ∧ sf.ranked = true := by
  unfold Schema.rankedFields
  constructor
  · intro h
    obtain ⟨p, hp, hpf⟩ := List.mem_map.mp h
    obtain ⟨hpe, hpr⟩ := List.mem_filter.mp hp
    obtain ⟨i, sf⟩ := p
    refine ⟨sf, ?_, by simpa using hpr⟩
    have : i = f := hpf
    exact this ▸ List.mk_mem_enum_iff_get?.mp hpe
  · rintro ⟨sf, hget, hranked⟩
    refine List.mem_map.mpr ⟨(f, sf), List.mem_filter.mpr ⟨?_, by simpa using hranked⟩, rfl⟩
    exact List.mk_mem_enum_iff_get?.mpr hget

theorem isRankedFid_iff (σ : Schema) (f : Nat) :
    σ.isRankedFid f = true ↔ f ∈ σ.rankedFields := by
  rw [mem_rankedFields]
  unfold Schema.isRankedFid
  rcases h : σ.fields.get? f with _ | sf
  · simp [h]
  · simp [h]

theorem insertAndIndex_get_stable (σ : Schema) (n : String) (f : Nat)
    (sf : SchemaField) (h : σ.fields.get? f = some sf) :
    ((σ.insertAndIndex n).2).fields.get? f = some sf := by
  rw [Schema.insertAndIndex_fields]
  rcases h2 : σ.fieldIdOf n with _ | g
  · have hf : f < σ.fields.length := (List.get?_eq_some.mp h).1
    rw [List.get?_append hf]
    exact h
  · simpa using h

theorem insertAndIndex_ranked (σ : Schema) (n : String) :
    ((σ.insertAndIndex n).2).rankedFields = σ.rankedFields := by
  unfold Schema.rankedFields
  rw [Schema.insertAndIndex_fields]
  rcases h2 : σ.fieldIdOf n with _ | g
  · rw [List.enum_append]
    rw [List.filter_append, List.map_append]
    have : List.filter (fun p => p.2.ranked)
        (([⟨n, some σ.nextIndexedPos, false⟩] : List SchemaField).enumFrom
          σ.fields.length) = [] := by
      simp [List.enumFrom, List.filter]
    rw [this]
    simp
  · simp

theorem isRankedFid_insertAndIndex (σ : Schema) (n : String) (f : Nat)
    (h : ((σ.insertAndIndex n).2).isRankedFid f = true) :
    f ∈ σ.rankedFields := by
  rw [isRankedFid_iff, insertAndIndex_ranked] at h
  exact h

theorem indexField_counts_other (stop : Finset String) (tok : Tokenizer) (d : Nat)
    (acc : IndexAcc) (kv : String × Value) (d' : Nat) (h : d' ≠ d) :
    (indexField stop tok d acc kv).counts d' = acc.counts d' := by
  unfold indexField
  rcases hp : (acc.σ.insertAndIndex kv.1).2.isIndexedPos (acc.σ.insertAndIndex kv.1).1
    with _ | pos
  · simp [hp]
  · simp only [hp]
    by_cases hts : tokensOf stop tok kv.2 = []
    · simp [hts]
    · simp [hts, putCount, h]

theorem indexField_rm_other (stop : Finset String) (tok : Tokenizer) (d : Nat)
    (acc : IndexAcc) (kv : String × Value) (d' : Nat) (h : d' ≠ d) (f : Nat) :
    (indexField stop tok d acc kv).rm d' f = acc.rm d' f := by
  unfold indexField
  rcases hp : (acc.σ.insertAndIndex kv.1).2.isIndexedPos (acc.σ.insertAndIndex kv.1).1
    with _ | pos
  · simp only [hp]
    by_cases hr : (acc.σ.insertAndIndex kv.1).2.isRankedFid (acc.σ.insertAndIndex kv.1).1
    · simp [hr, h]
    · simp [hr]
  · simp only [hp]
    by_cases hr : (acc.σ.insertAndIndex kv.1).2.isRankedFid (acc.σ.insertAndIndex kv.1).1
    · simp [hr, h]
    · simp [hr]

theorem indexField_events_sub (stop : Finset String) (tok : Tokenizer) (d : Nat)
    (acc : IndexAcc) (kv : String × Value) (e : IndexEvent)
    (h : e ∈ (indexField stop tok d acc kv).events) : e ∈ acc.events ∨ e.1 = d := by
  unfold indexField at h
  rcases hp : (acc.σ.insertAndIndex kv.1).2.isIndexedPos (acc.σ.insertAndIndex kv.1).1
    with _ | pos
  · simp only [hp] at h
    exact Or.inl h
  · simp only [hp, List.mem_append] at h
    rcases h with h | h
    · exact Or.inl h
    · simp only [List.mem_singleton] at h
      exact Or.inr (by rw [h])

theorem indexField_fields_isSome_mono (stop : Finset String) (tok : Tokenizer)
    (d : Nat) (acc : IndexAcc) (kv : String × Value) (q : Nat)
    (h : (acc.fields q).isSome) : ((indexField stop tok d acc kv).fields q).isSome := by
  rw [indexField_fields]
  by_cases hq : q = d
  · subst hq
    rw [putField_self]
    rfl
  · rw [putField_other _ _ _ _ _ hq]
    exact h

theorem indexField_fields_self (stop : Finset String) (tok : Tokenizer)
    (d : Nat) (acc : IndexAcc) (kv : String × Value) :
    ((indexField stop tok d acc kv).fields d).isSome := by
  rw [indexField_fields, putField_self]
  rfl

theorem indexField_rm_ranked (stop : Finset String) (tok : Tokenizer) (d : Nat)
    (acc : IndexAcc) (kv : String × Value)
    (hP : ∀ d' f, (acc.rm d' f).isSome → f ∈ acc.σ.rankedFields) :
    ∀ d' f, ((indexField stop tok d acc kv).rm d' f).isSome →
      f ∈ (indexField stop tok d acc kv).σ.rankedFields := by
  intro d' f h
  rw [indexField_σ, insertAndIndex_ranked]
  have hrm : (indexField stop tok d acc kv).rm =
      (if (acc.σ.insertAndIndex kv.1).2.isRankedFid (acc.σ.insertAndIndex kv.1).1 then
        fun d' f' => if d' = d ∧ f' = (acc.σ.insertAndIndex kv.1).1 then
          some (valueToNumber kv.2) else acc.rm d' f'
      else acc.rm) := by
    unfold indexField
    rcases hp : (acc.σ.insertAndIndex kv.1).2.isIndexedPos (acc.σ.insertAndIndex kv.1).1
      with _ | pos <;> simp [hp]
  rw [hrm] at h
  by_cases hr : (acc.σ.insertAndIndex kv.1).2.isRankedFid (acc.σ.insertAndIndex kv.1).1
  · rw [if_pos hr] at h
    by_cases hc : d' = d ∧ f = (acc.σ.insertAndIndex kv.1).1
    · rw [hc.2]
      exact isRankedFid_insertAndIndex acc.σ kv.1 _ hr
    · rw [if_neg hc] at h
      exact hP d' f h
  · rw [if_neg hr] at h
    exact hP d' f h

theorem indexField_ranked_stable (stop : Finset String) (tok : Tokenizer)
    (d : Nat) (acc : IndexAcc) (kv : String × Value) :
    (indexField stop tok d acc kv).σ.rankedFields = acc.σ.rankedFields := by
  rw [indexField_σ, insertAndIndex_ranked]

/-! ### The per-document fold -/

theorem indexFoldDoc_counts_other (stop : Finset String) (tok : Tokenizer)
    (d : Nat) (doc : Document) :
    ∀ (acc : IndexAcc) (d' : Nat), d' ≠ d →
      (doc.foldl (indexField stop tok d) acc).counts d' = acc.counts d' := by
  induction doc with
  | nil => intro acc d' _; rfl
  | cons kv rest ih =>
    intro acc d' h
    rw [List.foldl_cons, ih _ _ h, indexField_counts_other _ _ _ _ _ _ h]

theorem indexFoldDoc_rm_other (stop : Finset String) (tok : Tokenizer)
    (d : Nat) (doc : Document) :
    ∀ (acc : IndexAcc) (d' : Nat), d' ≠ d → ∀ f,
      (doc.foldl (indexField stop tok d) acc).rm d' f = acc.rm d' f := by
  induction doc with
  | nil => intro acc d' _ f; rfl
  | cons kv rest ih =>
    intro acc d' h f
    rw [List.foldl_cons, ih _ _ h, indexField_rm_other _ _ _ _ _ _ h]

theorem indexFoldDoc_events_sub (stop : Finset String) (tok : Tokenizer)
    (d : Nat) (doc : Document) :
    ∀ (acc : IndexAcc) (e : IndexEvent),
      e ∈ (doc.foldl (indexField stop tok d) acc).events →
      e ∈ acc.events ∨ e.1 = d := by
  induction doc with
  | nil => intro acc e h; exact Or.inl h
  | cons kv rest ih =>
    intro acc e h
    rcases ih _ e h with h1 | h1
    · exact indexField_events_sub stop tok d acc kv e h1
    · exact Or.inr h1

theorem indexFoldDoc_fields_isSome_mono (stop : Finset String) (tok : Tokenizer)
    (d : Nat) (doc : Document) :
    ∀ (acc : IndexAcc) (q : Nat), (acc.fields q).isSome →
      ((doc.foldl (indexField stop tok d) acc).fields q).isSome := by
  induction doc with
  | nil => intro acc q h; exact h
  | cons kv rest ih =>
    intro acc q h
    rw [List.foldl_cons]
    exact ih _ q (indexField_fields_isSome_mono stop tok d acc kv q h)

theorem indexFoldDoc_fields_self (stop : Finset String) (tok : Tokenizer)
    (d : Nat) (doc : Document) (hne : doc ≠ []) (acc : IndexAcc) :
    ((doc.foldl (indexField stop tok d) acc).fields d).isSome := by
  cases doc with
  | nil => exact absurd rfl hne
  | cons kv rest =>
    rw [List.foldl_cons]
    exact indexFoldDoc_fields_isSome_mono stop tok d rest _ d
      (indexField_fields_self stop tok d acc kv)

theorem indexFoldDoc_rm_ranked (stop : Finset String) (tok : Tokenizer)
    (d : Nat) (doc : Document) :
    ∀ acc : IndexAcc, (∀ d' f, (acc.rm d' f).isSome → f ∈ acc.σ.rankedFields) →
      ∀ d' f, ((doc.foldl (indexField stop tok d) acc).rm d' f).isSome →
        f ∈ (doc.foldl (indexField stop tok d) acc).σ.rankedFields := by
  induction doc with
  | nil => intro acc hP d' f h; exact hP d' f h
  | cons kv rest ih =>
    intro acc hP d' f h
    rw [List.foldl_cons] at h ⊢
    exact ih _ (indexField_rm_ranked stop tok d acc kv hP) d' f h

theorem indexFoldDoc_ranked_stable (stop : Finset String) (tok : Tokenizer)
    (d : Nat) (doc : Document) :
    ∀ acc : IndexAcc,
      (doc.foldl (indexField stop tok d) acc).σ.rankedFields =
        acc.σ.rankedFields := by
  induction doc with
  | nil => intro acc; rfl
  | cons kv rest ih =>
    intro acc
    rw [List.foldl_cons, ih _, indexField_ranked_stable]

theorem indexFoldDoc_nodup (stop : Finset String) (tok : Tokenizer)
    (d : Nat) (doc : Document) :
    ∀ acc : IndexAcc, acc.σ.NamesNodup →
      (doc.foldl (indexField stop tok d) acc).σ.NamesNodup := by
  induction doc with
  | nil => intro acc h; exact h
  | cons kv rest ih =>
    intro acc h
    rw [List.foldl_cons]
    refine ih _ ?_
    rw [indexField_σ]
    exact Schema.insertAndIndex_nodup _ h

/-! ### The batch fold -/

theorem indexDocs_fields_other (stop : Finset String) (tok : Tokenizer)
    (d : Nat) :
    ∀ (adds : List (Nat × Document)) (acc : IndexAcc),
      (∀ p ∈ adds, p.1 ≠ d) →
      (indexDocs stop tok acc adds).fields d = acc.fields d := by
  intro adds
  induction adds with
  | nil => intro acc _; rfl
  | cons hd rest ih =>
    obtain ⟨d₀, doc₀⟩ := hd
    intro acc h
    rw [indexDocs, ih _ (fun p hp => h p (List.mem_cons_of_mem _ hp))]
    exact indexFoldDoc_fields_other stop tok d₀ doc₀ acc d
      (fun he => h (d₀, doc₀) (List.mem_cons_self _ _) (by rw [he]))

theorem indexDocs_counts_other (stop : Finset String) (tok : Tokenizer)
    (d : Nat) :
    ∀ (adds : List (Nat × Document)) (acc : IndexAcc),
      (∀ p ∈ adds, p.1 ≠ d) →
      (indexDocs stop tok acc adds).counts d = acc.counts d := by
  intro adds
  induction adds with
  | nil => intro acc _; rfl
  | cons hd rest ih =>
    obtain ⟨d₀, doc₀⟩ := hd
    intro acc h
    rw [indexDocs, ih _ (fun p hp => h p (List.mem_cons_of_mem _ hp))]
    exact indexFoldDoc_counts_other stop tok d₀ doc₀ acc d
      (fun he => h (d₀, doc₀) (List.mem_cons_self _ _) (by rw [he]))

theorem indexDocs_events_sub (stop : Finset String) (tok : Tokenizer) :
    ∀ (adds : List (Nat × Document)) (acc : IndexAcc) (e : IndexEvent),
      e ∈ (indexDocs stop tok acc adds).events →
      e ∈ acc.events ∨ e.1 ∈ adds.map Prod.fst := by
  intro adds
  induction adds with
  | nil => intro acc e h; exact Or.inl h
  | cons hd rest ih =>
    obtain ⟨d₀, doc₀⟩ := hd
    intro acc e h
    rw [indexDocs] at h
    rcases ih _ e h with h1 | h1
    · rcases indexFoldDoc_events_sub stop tok d₀ doc₀ acc e h1 with h2 | h2
      · exact Or.inl h2
      · exact Or.inr (by simp [h2])
    · exact Or.inr (by simp [h1])

theorem indexDocs_fields_isSome_mono (stop : Finset String) (tok : Tokenizer) :
    ∀ (adds : List (Nat × Document)) (acc : IndexAcc) (q : Nat),
      (acc.fields q).isSome → ((indexDocs stop tok acc adds).fields q).isSome := by
  intro adds
  induction adds with
  | nil => intro acc q h; exact h
  | cons hd rest ih =>
    obtain ⟨d₀, doc₀⟩ := hd
    intro acc q h
    rw [indexDocs]
    exact ih _ q (indexFoldDoc_fields_isSome_mono stop tok d₀ doc₀ acc q h)

theorem indexDocs_fields_self (stop : Finset String) (tok : Tokenizer) :
    ∀ (adds : List (Nat × Document)) (acc : IndexAcc) (d : Nat) (doc : Document),
      (d, doc) ∈ adds → doc ≠ [] →
      ((indexDocs stop tok acc adds).fields d).isSome := by
  intro adds
  induction adds with
  | nil => intro acc d doc h _; exact absurd h (List.not_mem_nil _)
  | cons hd rest ih =>
    obtain ⟨d₀, doc₀⟩ := hd
    intro acc d doc h hne
    rw [indexDocs]
    rcases List.mem_cons.mp h with h1 | h1
    · have hd : d₀ = d := (Prod.mk.injEq .. ▸ h1.symm).1
      have hdoc : doc₀ = doc := (Prod.mk.injEq .. ▸ h1.symm).2
      subst hd hdoc
      exact indexDocs_fields_isSome_mono stop tok rest _ d₀
        (indexFoldDoc_fields_self stop tok d₀ doc₀ hne acc)
    · exact ih _ d doc h1 hne

theorem indexDocs_rm_ranked (stop : Finset String) (tok : Tokenizer) :
    ∀ (adds : List (Nat × Document)) (acc : IndexAcc),
      (∀ d' f, (acc.rm d' f).isSome → f ∈ acc.σ.rankedFields) →
      ∀ d' f, ((indexDocs stop tok acc adds).rm d' f).isSome →
        f ∈ (indexDocs stop tok acc adds).σ.rankedFields := by
  intro adds
  induction adds with
  | nil => intro acc hP d' f h; exact hP d' f h
  | cons hd rest ih =>
    obtain ⟨d₀, doc₀⟩ := hd
    intro acc hP d' f h
    rw [indexDocs] at h ⊢
    exact ih _ (indexFoldDoc_rm_ranked stop tok d₀ doc₀ acc hP) d' f h

theorem indexDocs_ranked_stable (stop : Finset String) (tok : Tokenizer) :
    ∀ (adds : List (Nat × Document)) (acc : IndexAcc),
      (indexDocs stop tok acc adds).σ.rankedFields = acc.σ.rankedFields := by
  intro adds
  induction adds with
  | nil => intro acc; rfl
  | cons hd rest ih =>
    obtain ⟨d₀, doc₀⟩ := hd
    intro acc
    rw [indexDocs, ih _, indexFoldDoc_ranked_stable]

theorem indexDocs_nodup (stop : Finset String) (tok : Tokenizer) :
    ∀ (adds : List (Nat × Document)) (acc : IndexAcc),
      acc.σ.NamesNodup → (indexDocs stop tok acc adds).σ.NamesNodup := by
  intro adds
  induction adds with
  | nil => intro acc h; exact h
  | cons hd rest ih =>
    obtain ⟨d₀, doc₀⟩ := hd
    intro acc h
    rw [indexDocs]
    exact ih _ (indexFoldDoc_nodup stop tok d₀ doc₀ acc h)

/-! ### Records and the word/document projections of an event list -/

theorem allRecords_docId (events : List IndexEvent) (p : String × DocIndex)
    (h : p ∈ allRecords events) : ∃ e ∈ events, p.2.docId = e.1 := by
  unfold allRecords at h
  obtain ⟨e, he, hp⟩ := List.mem_flatMap.mp h
  obtain ⟨jt, _, hjt⟩ := List.mem_map.mp hp
  refine ⟨e, he, ?_⟩
  rw [← hjt]

theorem mem_recordsOf_iff (events : List IndexEvent) (w : String) (r : DocIndex) :
    r ∈ recordsOf events w ↔ (w, r) ∈ allRecords events := by
  unfold recordsOf
  rw [List.mem_toFinset]
  constructor
  · intro h
    obtain ⟨p, hp, hpr⟩ := List.mem_map.mp h
    obtain ⟨hpe, hpw⟩ := List.mem_filter.mp hp
    have h1 : p.1 = w := by simpa using hpw
    have h2 : p = (w, r) := Prod.ext h1 hpr
    exact h2 ▸ hpe
  · intro h
    exact List.mem_map.mpr ⟨(w, r), List.mem_filter.mpr ⟨h, by simp⟩, rfl⟩

theorem mem_docsWordsOfEvents_iff (events : List IndexEvent) (d : Nat) (w : String) :
    w ∈ docsWordsOfEvents events d ↔
      ∃ r, (w, r) ∈ allRecords events ∧ r.docId = d := by
  unfold docsWordsOfEvents
  rw [List.mem_toFinset]
  constructor
  · intro h
    obtain ⟨p, hp, hpw⟩ := List.mem_map.mp h
    obtain ⟨hpe, hpd⟩ := List.mem_filter.mp hp
    refine ⟨p.2, ?_, by simpa using hpd⟩
    have : p = (w, p.2) := Prod.ext (by rw [hpw]) rfl
    exact this ▸ hpe
  · rintro ⟨r, hr, hrd⟩
    exact List.mem_map.mpr ⟨(w, r), List.mem_filter.mpr ⟨hr, by simp [hrd]⟩, rfl⟩

theorem recordsOf_words (events : List IndexEvent) (w : String) (r : DocIndex)
    (h : r ∈ recordsOf events w) : w ∈ docsWordsOfEvents events r.docId :=
  (mem_docsWordsOfEvents_iff events r.docId w).mpr
    ⟨r, (mem_recordsOf_iff events w r).mp h, rfl⟩

theorem docsWordsOfEvents_ne_empty (events : List IndexEvent) (d : Nat)
    (h : docsWordsOfEvents events d ≠ ∅) : ∃ e ∈ events, e.1 = d := by
  obtain ⟨w, hw⟩ := Finset.nonempty_iff_ne_empty.mpr h
  obtain ⟨r, hr, hrd⟩ := (mem_docsWordsOfEvents_iff events d w).mp hw
  obtain ⟨e, he, hde⟩ := allRecords_docId events (w, r) hr
  exact ⟨e, he, by rw [← hde, hrd]⟩

/-! ## Deletion preserves the documented invariants -/

theorem deletionCore_rankedMap (σ : Schema) (s : IndexState)
    (keys : List String) (ids : Finset Nat) :
    (deletionCore σ s keys ids).rankedMap =
      some (fun d f => if d ∈ ids ∧ f ∈ σ.rankedFields then none
        else (s.rankedMap.getD (fun _ _ => none)) d f) := rfl

theorem deletionCore_wordsOfDoc (σ : Schema) (s : IndexState)
    (keys : List String) (ids : Finset Nat) (d : Nat) :
    wordsOfDoc (deletionCore σ s keys ids) d =
      if d ∈ delDeletedDocs s ids then ∅ else wordsOfDoc s d := by
  unfold wordsOfDoc
  rw [deletionCore_docsWords]
  by_cases h : d ∈ delDeletedDocs s ids
  · simp [h]
  · simp [h]

/-- The posting store after key-based deletion covers only surviving
documents: every remaining record's word is a word of its document, and its
document is not among the removed ids. -/
theorem delPostings_cover (s : IndexState) (ids : Finset Nat)
    (hcov : ∀ w p r, s.postingsLists w = some p → r ∈ p →
      w ∈ wordsOfDoc s r.docId) :
    ∀ w p r, delPostings s ids w = some p → r ∈ p →
      w ∈ wordsOfDoc s r.docId ∧ r.docId ∉ ids := by
  intro w p r hp hr
  unfold delPostings at hp
  by_cases haff : w ∈ delAffectedWords s ids
  · rw [if_pos haff] at hp
    rcases hpl : s.postingsLists w with _ | p₀
    · rw [hpl] at hp
      exact absurd hp (by simp)
    · rw [hpl] at hp
      simp only at hp
      split at hp
      · exact absurd hp (by simp)
      · have hpe : p = p₀.filter (fun r => r.docId ∉ delIdsOfWord s ids w) :=
          (Option.some.inj hp).symm
        rw [hpe] at hr
        obtain ⟨hrp, hrn⟩ := Finset.mem_filter.mp hr
        have hni : r.docId ∉ delIdsOfWord s ids w := by simpa using hrn
        have hw := hcov w p₀ r hpl hrp
        refine ⟨hw, ?_⟩
        intro hin
        exact hni (Finset.mem_filter.mpr ⟨hin, hw⟩)
  · rw [if_neg haff] at hp
    have hw := hcov w p r hp hr
    refine ⟨hw, ?_⟩
    intro hin
    exact haff (Finset.mem_biUnion.mpr ⟨r.docId, hin, hw⟩)

theorem delTouched_eq (σ : Schema) (s : IndexState) (h : WFS σ s)
    (D : Finset Nat) : delTouched s D = D ∩ s.internalIds := by
  unfold delTouched
  ext d
  rw [Finset.mem_filter, Finset.mem_inter]
  constructor
  · rintro ⟨hd, hw⟩
    refine ⟨hd, ?_⟩
    rcases hdw : s.docsWords d with _ | W
    · refine absurd ?_ hw
      unfold wordsOfDoc
      rw [hdw]
      rfl
    · exact h.wordsDom d (by rw [hdw]; rfl)
  · rintro ⟨hd, hint⟩
    exact ⟨hd, (h.live d hint).2⟩

theorem delDeletedDocs_eq (σ : Schema) (s : IndexState) (h : WFS σ s)
    (D : Finset Nat) : delDeletedDocs s D = D ∩ s.internalIds := by
  unfold delDeletedDocs
  rw [delTouched_eq σ s h]
  apply Finset.filter_true_of_mem
  intro d hd
  exact (h.live d (Finset.mem_inter.mp hd).2).1

theorem wfs_deletionCore_resolved (σ : Schema) (s : IndexState)
    (l : List String) (h : WFS σ s) :
    WFS σ (deletionCore σ s l (resolvedIds s l)) := by
  have hsub : resolvedIds s l ⊆ s.internalIds := by
    intro d hd
    obtain ⟨u, _, hu⟩ := (mem_resolvedIds s l d).mp hd
    exact h.lookupMem u d hu
  have htouch : delTouched s (resolvedIds s l) = resolvedIds s l := by
    rw [delTouched_eq σ s h, Finset.inter_eq_left.mpr hsub]
  have hdel : delDeletedDocs s (resolvedIds s l) = resolvedIds s l := by
    rw [delDeletedDocs_eq σ s h, Finset.inter_eq_left.mpr hsub]
  refine ⟨?_, h.namesNodup, ?_, ?_, ?_, ?_, ?_, ?_, ?_, ?_, ?_, ?_, ?_, ?_⟩
  · rw [deletionCore_schema]
    exact h.schemaEq
  · rw [deletionCore_userIds]
    exact removeUserIdsMap_sorted _ _ h.sorted
  · intro u v id hu hv
    rw [deletionCore_userIds, removeUserIdsMap_lookup] at hu hv
    by_cases h1 : u ∈ l
    · rw [if_pos h1] at hu
      exact absurd hu (by simp)
    · rw [if_neg h1] at hu
      by_cases h2 : v ∈ l
      · rw [if_pos h2] at hv
        exact absurd hv (by simp)
      · rw [if_neg h2] at hv
        exact h.lookupInj u v id hu hv
  · intro u id hu
    rw [deletionCore_userIds, removeUserIdsMap_lookup] at hu
    by_cases h1 : u ∈ l
    · rw [if_pos h1] at hu
      exact absurd hu (by simp)
    · rw [if_neg h1] at hu
      rw [deletionCore_internalIds, Finset.mem_sdiff]
      refine ⟨h.lookupMem u id hu, ?_⟩
      intro hin
      obtain ⟨u', hu'l, hu'⟩ := (mem_resolvedIds s l id).mp hin
      exact h1 (h.lookupInj u u' id hu hu' ▸ hu'l)
  · intro id hid
    rw [deletionCore_internalIds, Finset.mem_sdiff] at hid
    obtain ⟨u, hu⟩ := h.lookupSurj id hid.1
    have hnl : u ∉ l := by
      intro hul
      exact hid.2 ((mem_resolvedIds s l id).mpr ⟨u, hul, hu⟩)
    refine ⟨u, ?_⟩
    rw [deletionCore_userIds, removeUserIdsMap_lookup, if_neg hnl]
    exact hu
  · rw [deletionCore_numberOfDocuments, deletionCore_internalIds, hdel, h.count]
    have hle : (resolvedIds s l).card ≤ s.internalIds.card :=
      Finset.card_le_card hsub
    rw [wrapSub_eq_sub _ _ hle h.capacity]
    exact (Finset.card_sdiff hsub).symm
  · rw [deletionCore_internalIds]
    exact lt_of_le_of_lt (Finset.card_le_card Finset.sdiff_subset) h.capacity
  · intro d hd
    rw [deletionCore_internalIds, Finset.mem_sdiff] at hd
    constructor
    · rw [deletionCore_documentsFields]
      simp only
      rw [htouch, if_neg hd.2]
      exact (h.live d hd.1).1
    · rw [deletionCore_wordsOfDoc, hdel, if_neg hd.2]
      exact (h.live d hd.1).2
  · intro d hd
    rw [deletionCore_documentsFields] at hd
    simp only at hd
    rw [htouch] at hd
    by_cases h1 : d ∈ resolvedIds s l
    · rw [if_pos h1] at hd
      exact absurd hd (by simp)
    · rw [if_neg h1] at hd
      rw [deletionCore_internalIds, Finset.mem_sdiff]
      exact ⟨h.fieldsDom d hd, h1⟩
  · intro d hd
    rw [deletionCore_docsWords] at hd
    simp only at hd
    rw [hdel] at hd
    by_cases h1 : d ∈ resolvedIds s l
    · rw [if_pos h1] at hd
      exact absurd hd (by simp)
    · rw [if_neg h1] at hd
      rw [deletionCore_internalIds, Finset.mem_sdiff]
      exact ⟨h.wordsDom d hd, h1⟩
  · intro d hd
    rw [deletionCore_documentsFieldsCounts] at hd
    simp only at hd
    rw [htouch] at hd
    by_cases h1 : d ∈ resolvedIds s l
    · rw [if_pos h1] at hd
      exact absurd hd (by simp)
    · rw [if_neg h1] at hd
      rw [deletionCore_wordsOfDoc, hdel, if_neg h1]
      exact h.countsWords d hd
  · intro w p r hp hr
    rw [deletionCore_postingsLists] at hp
    obtain ⟨hw, hnin⟩ := delPostings_cover s (resolvedIds s l) h.cover w p r hp hr
    rw [deletionCore_wordsOfDoc, hdel, if_neg hnin]
    exact hw
  · intro rm d f hrm hsome
    rw [deletionCore_rankedMap] at hrm
    rw [← Option.some.inj hrm] at hsome
    simp only at hsome
    by_cases h1 : d ∈ resolvedIds s l ∧ f ∈ σ.rankedFields
    · rw [if_pos h1] at hsome
      exact absurd hsome (by simp)
    · rw [if_neg h1] at hsome
      rcases hsrm : s.rankedMap with _ | rm₀
      · rw [hsrm] at hsome
        simp at hsome
      · rw [hsrm, Option.getD_some] at hsome
        exact h.rmRanked rm₀ d f hsrm hsome

theorem wfs_applyDocumentsDeletion {s s' : IndexState} {σ : Schema}
    {l : List String} (h : WFS σ s)
    (hok : applyDocumentsDeletion s l = Except.ok s') : WFS σ s' := by
  unfold applyDocumentsDeletion at hok
  simp only [h.schemaEq] at hok
  exact (Except.ok.inj hok) ▸ wfs_deletionCore_resolved σ s l h

/-! ## Addition preserves the documented invariants -/

theorem applyAdditionOk_documentsFieldsCounts (tok : Tokenizer) (s : IndexState)
    (σ : Schema) (r : ResState) :
    (applyAdditionOk tok s σ r).documentsFieldsCounts =
      (additionAcc tok s σ r).counts := rfl

theorem applyAdditionOk_docsWords (tok : Tokenizer) (s : IndexState)
    (σ : Schema) (r : ResState) :
    (applyAdditionOk tok s σ r).docsWords = fun d =>
      if docsWordsOfEvents (additionAcc tok s σ r).events d = ∅ then
        (additionDeleted s σ r).docsWords d
      else some (docsWordsOfEvents (additionAcc tok s σ r).events d) := rfl

theorem applyAdditionOk_postingsLists (tok : Tokenizer) (s : IndexState)
    (σ : Schema) (r : ResState) :
    (applyAdditionOk tok s σ r).postingsLists = fun w =>
      if w ∈ deltaWords (additionAcc tok s σ r).events then
        some (((additionDeleted s σ r).postingsLists w).getD ∅ ∪
          recordsOf (additionAcc tok s σ r).events w)
      else (additionDeleted s σ r).postingsLists w := rfl

theorem applyAdditionOk_rankedMap (tok : Tokenizer) (s : IndexState)
    (σ : Schema) (r : ResState) :
    (applyAdditionOk tok s σ r).rankedMap =
      some (additionAcc tok s σ r).rm := rfl

theorem applyAdditionOk_stopWords (tok : Tokenizer) (s : IndexState)
    (σ : Schema) (r : ResState) :
    (applyAdditionOk tok s σ r).stopWords = s.stopWords := rfl

theorem applyAdditionOk_wordsFst (tok : Tokenizer) (s : IndexState)
    (σ : Schema) (r : ResState) :
    (applyAdditionOk tok s σ r).wordsFst =
      some (((additionDeleted s σ r).wordsFst.getD ∅) ∪
        deltaWords (additionAcc tok s σ r).events) := rfl

theorem applyAdditionOk_wordsOfDoc (tok : Tokenizer) (s : IndexState)
    (σ : Schema) (r : ResState) (d : Nat) :
    wordsOfDoc (applyAdditionOk tok s σ r) d =
      if docsWordsOfEvents (additionAcc tok s σ r).events d = ∅ then
        wordsOfDoc (additionDeleted s σ r) d
      else docsWordsOfEvents (additionAcc tok s σ r).events d := by
  unfold wordsOfDoc
  rw [applyAdditionOk_docsWords]
  by_cases h : docsWordsOfEvents (additionAcc tok s σ r).events d = ∅
  · simp [h]
  · simp [h]

theorem additionDeleted_documentsFields (s : IndexState) (σ : Schema)
    (r : ResState) (d : Nat) :
    (additionDeleted s σ r).documentsFields d =
      if d ∈ delTouched s (additionIds r.additions) then none
      else s.documentsFields d := by
  unfold additionDeleted
  rw [deletionCore_documentsFields]

theorem additionDeleted_documentsFieldsCounts (s : IndexState) (σ : Schema)
    (r : ResState) (d : Nat) :
    (additionDeleted s σ r).documentsFieldsCounts d =
      if d ∈ delTouched s (additionIds r.additions) then none
      else s.documentsFieldsCounts d := by
  unfold additionDeleted
  rw [deletionCore_documentsFieldsCounts]

theorem additionDeleted_docsWords (s : IndexState) (σ : Schema)
    (r : ResState) (d : Nat) :
    (additionDeleted s σ r).docsWords d =
      if d ∈ delDeletedDocs s (additionIds r.additions) then none
      else s.docsWords d := by
  unfold additionDeleted
  rw [deletionCore_docsWords]

theorem additionDeleted_wordsOfDoc (s : IndexState) (σ : Schema)
    (r : ResState) (d : Nat) :
    wordsOfDoc (additionDeleted s σ r) d =
      if d ∈ delDeletedDocs s (additionIds r.additions) then ∅
      else wordsOfDoc s d := by
  unfold additionDeleted
  rw [deletionCore_wordsOfDoc]

theorem additionDeleted_postingsLists (s : IndexState) (σ : Schema)
    (r : ResState) :
    (additionDeleted s σ r).postingsLists =
      delPostings s (additionIds r.additions) := by
  unfold additionDeleted
  rw [deletionCore_postingsLists]

theorem additionDeleted_rankedMap (s : IndexState) (σ : Schema) (r : ResState) :
    (additionDeleted s σ r).rankedMap =
      some (fun d f => if d ∈ additionIds r.additions ∧ f ∈ σ.rankedFields
        then none else (s.rankedMap.getD (fun _ _ => none)) d f) := by
  unfold additionDeleted
  rw [deletionCore_rankedMap]

/-- Committing a resolved addition preserves the documented invariants,
against the updated schema, provided no fresh UserId repeats in the batch,
every document of the batch obtains at least one indexed word, and the
document count stays within the `u64` capacity. -/
theorem wfs_applyAdditionOk (tok : Tokenizer) (s : IndexState) (σ : Schema)
    (pk : String) (isPart : Bool) (docs : List Document) (r : ResState)
    (hW : WFS σ s) (hpk : σ.primaryKey = some pk)
    (hres : resolveDocs s σ pk isPart docs ⟨[], [], s.internalIds, []⟩ =
      Except.ok r)
    (hfresh : NoDupFresh s σ docs)
    (hword : ∀ d ∈ additionIds r.additions,
      docsWordsOfEvents (additionAcc tok s σ r).events d ≠ ∅)
    (hcap : (applyAdditionOk tok s σ r).internalIds.card < U64LIMIT) :
    WFS (additionAcc tok s σ r).σ (applyAdditionOk tok s σ r) := by
  have hInv : ResInv s r := resolveDocs_good tok s σ pk isPart docs r hW hpk hfresh hres
  have hidseq : additionIds r.additions = r.newInternal.toFinset := hInv.idsEq
  have hinternal' : (applyAdditionOk tok s σ r).internalIds =
      s.internalIds ∪ r.newInternal.toFinset := by
    rw [applyAdditionOk_internalIds, hidseq, Finset.sdiff_union_self_eq_union]
  have hkeys : ∀ e ∈ (additionAcc tok s σ r).events,
      e.1 ∈ r.additions.map Prod.fst := by
    intro e he
    unfold additionAcc at he
    rcases indexDocs_events_sub _ tok r.additions _ e he with h1 | h1
    · exact absurd h1 (List.not_mem_nil e)
    · exact h1
  have hworded_ids : ∀ d, docsWordsOfEvents (additionAcc tok s σ r).events d ≠ ∅ →
      d ∈ additionIds r.additions := by
    intro d hne
    obtain ⟨e, he, hed⟩ := docsWordsOfEvents_ne_empty _ d hne
    exact List.mem_toFinset.mpr (hed ▸ hkeys e he)
  have husr : ∀ q, fmLookup (applyAdditionOk tok s σ r).userIds q =
      optOr (fmLookup r.newUser q) (fmLookup s.userIds q) := by
    intro q
    rw [applyAdditionOk_userIds, removeUserIdsMap_nil]
    exact mergeUserIdsMap_lookup s.userIds r.newUser hW.sorted hInv.sorted q
  have hdel : delDeletedDocs s (additionIds r.additions) =
      additionIds r.additions ∩ s.internalIds := delDeletedDocs_eq σ s hW _
  have htouch : delTouched s (additionIds r.additions) =
      additionIds r.additions ∩ s.internalIds := delTouched_eq σ s hW _
  have hlen : r.additions.length = (additionIds r.additions).card := by
    unfold additionIds
    rw [List.toFinset_card_of_nodup hInv.keysNodup, List.length_map]
  have haccfields_other : ∀ d, d ∉ additionIds r.additions →
      (additionAcc tok s σ r).fields d =
        (additionDeleted s σ r).documentsFields d := by
    intro d hd
    unfold additionAcc
    refine indexDocs_fields_other _ tok d r.additions _ ?_
    intro p hp he
    exact hd (he ▸ List.mem_toFinset.mpr (List.mem_map_of_mem Prod.fst hp))
  have hacccounts_other : ∀ d, d ∉ additionIds r.additions →
      (additionAcc tok s σ r).counts d =
        (additionDeleted s σ r).documentsFieldsCounts d := by
    intro d hd
    unfold additionAcc
    refine indexDocs_counts_other _ tok d r.additions _ ?_
    intro p hp he
    exact hd (he ▸ List.mem_toFinset.mpr (List.mem_map_of_mem Prod.fst hp))
  have haccfields_self : ∀ d, d ∈ additionIds r.additions →
      ((additionAcc tok s σ r).fields d).isSome := by
    intro d hd
    obtain ⟨p, hp, hfst⟩ := List.mem_map.mp (List.mem_toFinset.mp hd)
    obtain ⟨dd, doc⟩ := p
    have hdd : dd = d := hfst
    subst hdd
    unfold additionAcc
    exact indexDocs_fields_self _ tok r.additions _ dd doc hp
      (hInv.docsNonempty (dd, doc) hp)
  have hcover_core : ∀ w p₀ rr,
      (additionDeleted s σ r).postingsLists w = some p₀ → rr ∈ p₀ →
      w ∈ wordsOfDoc (applyAdditionOk tok s σ r) rr.docId := by
    intro w p₀ rr hpl hr1
    rw [additionDeleted_postingsLists] at hpl
    obtain ⟨hw, hnid⟩ :=
      delPostings_cover s (additionIds r.additions) hW.cover w p₀ rr hpl hr1
    have hnev : docsWordsOfEvents (additionAcc tok s σ r).events rr.docId = ∅ := by
      by_contra hne
      exact hnid (hworded_ids _ hne)
    rw [applyAdditionOk_wordsOfDoc, if_pos hnev, additionDeleted_wordsOfDoc,
      if_neg (by
        intro hdd
        rw [hdel] at hdd
        exact hnid (Finset.mem_inter.mp hdd).1)]
    exact hw
  refine ⟨applyAdditionOk_schema tok s σ r, ?_, ?_, ?_, ?_, ?_, ?_, hcap, ?_,
    ?_, ?_, ?_, ?_, ?_⟩
  · -- interned names stay duplicate-free
    unfold additionAcc
    exact indexDocs_nodup _ tok r.additions _ hW.namesNodup
  · -- the merged user-ids blob is sorted
    rw [applyAdditionOk_userIds, removeUserIdsMap_nil]
    exact mergeUserIdsMap_sorted _ _ hW.sorted hInv.sorted
  · -- injectivity of the merged lookup
    intro u v id h1 h2
    rw [husr u] at h1
    rw [husr v] at h2
    exact hInv.cmbInj u v id h1 h2
  · -- every looked-up id is live
    intro u id h1
    rw [husr u] at h1
    rw [hinternal']
    rcases hn : fmLookup r.newUser u with _ | j
    · rw [hn, optOr_none_left] at h1
      exact Finset.mem_union_left _ (hW.lookupMem u id h1)
    · rw [hn, optOr_some_left] at h1
      refine Finset.mem_union_right _ ?_
      rw [← Option.some.inj h1]
      exact List.mem_toFinset.mpr (hInv.valsInternal u j hn)
  · -- every live id is looked up by some UserId
    intro id hid
    rw [hinternal'] at hid
    by_cases hidN : id ∈ r.newInternal.toFinset
    · obtain ⟨u, hu⟩ := hInv.internalWitness id (List.mem_toFinset.mp hidN)
      refine ⟨u, ?_⟩
      rw [husr u, hu, optOr_some_left]
    · have hidI : id ∈ s.internalIds := (Finset.mem_union.mp hid).resolve_right hidN
      obtain ⟨u, hu⟩ := hW.lookupSurj id hidI
      refine ⟨u, ?_⟩
      rw [husr u]
      rcases hn : fmLookup r.newUser u with _ | j
      · rw [optOr_none_left]
        exact hu
      · rw [optOr_some_left]
        rcases hInv.vals u j hn with hc | hc
        · rw [Option.some.inj (hc.symm.trans hu)]
        · rw [hc.1] at hu
          exact absurd hu (by simp)
  · -- the counter equals the live cardinality
    rw [applyAdditionOk_numberOfDocuments, hdel, hW.count,
      wrapSub_eq_sub _ _ (Finset.card_le_card Finset.inter_subset_right)
        hW.capacity,
      hinternal', hlen, hidseq]
    unfold wrapAdd
    have hcap' : (s.internalIds ∪ r.newInternal.toFinset).card < U64LIMIT := by
      rw [← hinternal']
      exact hcap
    have hcu := Finset.card_union_add_card_inter s.internalIds r.newInternal.toFinset
    have hle : (r.newInternal.toFinset ∩ s.internalIds).card ≤ s.internalIds.card :=
      Finset.card_le_card Finset.inter_subset_right
    rw [Finset.inter_comm] at hcu
    have h1 : s.internalIds.card - (r.newInternal.toFinset ∩ s.internalIds).card +
        r.newInternal.toFinset.card =
        (s.internalIds ∪ r.newInternal.toFinset).card := by omega
    rw [h1, Nat.mod_eq_of_lt hcap']
  · -- every live document has fields and at least one word
    intro d hd
    rw [hinternal'] at hd
    by_cases hdN : d ∈ additionIds r.additions
    · constructor
      · rw [applyAdditionOk_documentsFields]
        exact haccfields_self d hdN
      · rw [applyAdditionOk_wordsOfDoc, if_neg (hword d hdN)]
        exact hword d hdN
    · have hdI : d ∈ s.internalIds := by
        rcases Finset.mem_union.mp hd with h1 | h1
        · exact h1
        · exact absurd (hidseq ▸ h1) hdN
      have hnev : docsWordsOfEvents (additionAcc tok s σ r).events d = ∅ := by
        by_contra hne
        exact hdN (hworded_ids d hne)
      constructor
      · rw [applyAdditionOk_documentsFields, haccfields_other d hdN,
          additionDeleted_documentsFields,
          if_neg (by
            intro hc
            rw [htouch] at hc
            exact hdN (Finset.mem_inter.mp hc).1)]
        exact (hW.live d hdI).1
      · rw [applyAdditionOk_wordsOfDoc, if_pos hnev, additionDeleted_wordsOfDoc,
          if_neg (by
            intro hc
            rw [hdel] at hc
            exact hdN (Finset.mem_inter.mp hc).1)]
        exact (hW.live d hdI).2
  · -- stored fields only under live documents
    intro d hd
    rw [applyAdditionOk_documentsFields] at hd
    rw [hinternal']
    by_cases hdN : d ∈ additionIds r.additions
    · exact Finset.mem_union_right _ (hidseq ▸ hdN)
    · rw [haccfields_other d hdN, additionDeleted_documentsFields] at hd
      by_cases hdt : d ∈ delTouched s (additionIds r.additions)
      · rw [if_pos hdt] at hd
        exact absurd hd (by simp)
      · rw [if_neg hdt] at hd
        exact Finset.mem_union_left _ (hW.fieldsDom d hd)
  · -- stored doc-words only under live documents
    intro d hd
    rw [applyAdditionOk_docsWords] at hd
    simp only at hd
    rw [hinternal']
    by_cases hev : docsWordsOfEvents (additionAcc tok s σ r).events d = ∅
    · rw [if_pos hev, additionDeleted_docsWords] at hd
      by_cases hdd : d ∈ delDeletedDocs s (additionIds r.additions)
      · rw [if_pos hdd] at hd
        exact absurd hd (by simp)
      · rw [if_neg hdd] at hd
        exact Finset.mem_union_left _ (hW.wordsDom d hd)
    · exact Finset.mem_union_right _ (hidseq ▸ hworded_ids d hev)
  · -- stored counts only for worded documents
    intro d hd
    rw [applyAdditionOk_documentsFieldsCounts] at hd
    by_cases hdN : d ∈ additionIds r.additions
    · rw [applyAdditionOk_wordsOfDoc, if_neg (hword d hdN)]
      exact hword d hdN
    · rw [hacccounts_other d hdN, additionDeleted_documentsFieldsCounts] at hd
      by_cases hdt : d ∈ delTouched s (additionIds r.additions)
      · rw [if_pos hdt] at hd
        exact absurd hd (by simp)
      · rw [if_neg hdt] at hd
        have hnev : docsWordsOfEvents (additionAcc tok s σ r).events d = ∅ := by
          by_contra hne
          exact hdN (hworded_ids d hne)
        rw [applyAdditionOk_wordsOfDoc, if_pos hnev, additionDeleted_wordsOfDoc,
          if_neg (by
            intro hc
            rw [hdel] at hc
            exact hdN (Finset.mem_inter.mp hc).1)]
        exact hW.countsWords d hd
  · -- every posting record's word is a word of its document
    intro w p rr hp hr
    rw [applyAdditionOk_postingsLists] at hp
    simp only at hp
    by_cases hΔ : w ∈ deltaWords (additionAcc tok s σ r).events
    · rw [if_pos hΔ] at hp
      rw [← Option.some.inj hp] at hr
      rcases Finset.mem_union.mp hr with hr1 | hr1
      · rcases hpl : (additionDeleted s σ r).postingsLists w with _ | p₀
        · rw [hpl] at hr1
          simp at hr1
        · rw [hpl, Option.getD_some] at hr1
          exact hcover_core w p₀ rr hpl hr1
      · have hw : w ∈ docsWordsOfEvents (additionAcc tok s σ r).events rr.docId :=
          recordsOf_words _ w rr hr1
        have hne : docsWordsOfEvents (additionAcc tok s σ r).events rr.docId ≠ ∅ := by
          intro hemp
          rw [hemp] at hw
          exact absurd hw (Finset.not_mem_empty w)
        rw [applyAdditionOk_wordsOfDoc, if_neg hne]
        exact hw
    · rw [if_neg hΔ] at hp
      exact hcover_core w p rr hp hr
  · -- the ranked map holds only ranked fields
    intro rm d f hrm hsome
    rw [applyAdditionOk_rankedMap] at hrm
    rw [← Option.some.inj hrm] at hsome
    have hbase : ∀ d' f',
        ((⟨σ, (additionDeleted s σ r).documentsFields,
          (additionDeleted s σ r).documentsFieldsCounts,
          ((additionDeleted s σ r).rankedMap).getD (fun _ _ => none), []⟩ :
            IndexAcc).rm d' f').isSome →
        f' ∈ (⟨σ, (additionDeleted s σ r).documentsFields,
          (additionDeleted s σ r).documentsFieldsCounts,
          ((additionDeleted s σ r).rankedMap).getD (fun _ _ => none), []⟩ :
            IndexAcc).σ.rankedFields := by
      intro d' f' hs
      simp only at hs ⊢
      rw [additionDeleted_rankedMap, Option.getD_some] at hs
      by_cases h1 : d' ∈ additionIds r.additions ∧ f' ∈ σ.rankedFields
      · rw [if_pos h1] at hs
        exact absurd hs (by simp)
      · rw [if_neg h1] at hs
        rcases hsrm : s.rankedMap with _ | rm₀
        · rw [hsrm] at hs
          simp at hs
        · rw [hsrm, Option.getD_some] at hs
          exact hW.rmRanked rm₀ d' f' hsrm hs
    unfold additionAcc at hsome ⊢
    exact indexDocs_rm_ranked _ tok r.additions _ hbase d f hsome

theorem wfs_applyAddition {tok : Tokenizer} {s s' : IndexState} {σ : Schema}
    {docs : List Document} {isPart : Bool}
    (hW : WFS σ s) (hfresh : NoDupFresh s σ docs)
    (hwordA : AdditionWorded tok s docs isPart)
    (hcap : s'.internalIds.card < U64LIMIT)
    (hok : applyAddition tok s docs isPart = Except.ok s') :
    ∃ σ', WFS σ' s' := by
  unfold applyAddition at hok
  simp only [hW.schemaEq] at hok
  rcases hpk : σ.primaryKey with _ | pk
  · simp only [hpk] at hok
    exact absurd hok (by simp)
  · simp only [hpk] at hok
    rcases hres : resolveDocs s σ pk isPart docs ⟨[], [], s.internalIds, []⟩
      with e | r
    · simp only [hres] at hok
      exact absurd hok (by simp)
    · simp only [hres] at hok
      have hs' : s' = applyAdditionOk tok s σ r := (Except.ok.inj hok).symm
      have hword : ∀ d ∈ additionIds r.additions,
          docsWordsOfEvents (additionAcc tok s σ r).events d ≠ ∅ := by
        unfold AdditionWorded at hwordA
        simp only [hW.schemaEq, hpk, hres] at hwordA
        exact hwordA
      subst hs'
      exact ⟨(additionAcc tok s σ r).σ,
        wfs_applyAdditionOk tok s σ pk isPart docs r hW hpk hres hfresh hword hcap⟩

/-- Every state reachable through well-behaved batches satisfies the
documented invariants against its stored schema. -/
theorem reachableGood_wfs (tok : Tokenizer) (s : IndexState)
    (h : ReachableGood tok s) : ∃ σ, WFS σ s := by
  induction h with
  | init σ stop attrs hnd => exact ⟨σ, wfs_initial σ stop attrs hnd⟩
  | add s s' docs isPart σ₀ hr hσ hfresh hword hcap hok ih =>
    obtain ⟨σ₁, hW⟩ := ih
    have hσeq : σ₁ = σ₀ := Option.some.inj (hW.schemaEq.symm.trans hσ)
    subst hσeq
    exact wfs_applyAddition hW hfresh hword hcap hok
  | del s s' l hr hok ih =>
    obtain ⟨σ₁, hW⟩ := ih
    exact ⟨σ₁, wfs_applyDocumentsDeletion hW hok⟩

instance instDecAdditionWorded (tok : Tokenizer) (s : IndexState)
    (docs : List Document) (isPart : Bool) :
    Decidable (AdditionWorded tok s docs isPart) :=
  match hs : s.schema with
  | none => isTrue (by unfold AdditionWorded; simp only [hs])
  | some σ =>
    match hpk : σ.primaryKey with
    | none => isTrue (by unfold AdditionWorded; simp only [hs, hpk])
    | some pk =>
      match hres : resolveDocs s σ pk isPart docs ⟨[], [], s.internalIds, []⟩ with
      | Except.error e =>
          isTrue (by unfold AdditionWorded; simp only [hs, hpk, hres])
      | Except.ok r =>
          decidable_of_iff (∀ d ∈ additionIds r.additions,
            docsWordsOfEvents (additionAcc tok s σ r).events d ≠ ∅)
            (by unfold AdditionWorded; simp only [hs, hpk, hres])

/-- C1.  Along every run of committed additions, partial additions and
deletions in which no batch repeats a fresh UserId, every added document
produces at least one indexed word, and the count stays within `u64`, the
stored `user_ids` map is a bijection onto `internal_ids` and
`number_of_documents` equals the cardinality of `internal_ids`. -/
theorem user_internal_bijection_and_count (tok : Tokenizer) (s : IndexState)
    (h : ReachableGood tok s) :
    (∀ u v id, fmLookup s.userIds u = some id →
      fmLookup s.userIds v = some id → u = v) ∧
    (∀ u id, fmLookup s.userIds u = some id → id ∈ s.internalIds) ∧
    (∀ id ∈ s.internalIds, ∃ u, fmLookup s.userIds u = some id) ∧
    s.numberOfDocuments = s.internalIds.card := by
  obtain ⟨σ, hW⟩ := reachableGood_wfs tok s h
  exact ⟨hW.lookupInj, hW.lookupMem, fun id hid => hW.lookupSurj id hid, hW.count⟩

theorem user_internal_bijection_and_count_witness :
    (addOk tokWord exInit [exDocA]).numberOfDocuments =
      (addOk tokWord exInit [exDocA]).internalIds.card ∧
    (∃ u, fmLookup (addOk tokWord exInit [exDocA]).userIds u = some 0) :=
  have hrg : ReachableGood tokWord (addOk tokWord exInit [exDocA]) :=
    ReachableGood.add exInit (addOk tokWord exInit [exDocA]) [exDocA] false
      exSchema
      (ReachableGood.init exSchema none none (by decide))
      rfl
      (by simp [NoDupFresh])
      (by decide)
      (by decide)
      rfl
  have h := user_internal_bijection_and_count tokWord
    (addOk tokWord exInit [exDocA]) hrg
  ⟨h.2.2.2, h.2.2.1 0 (by decide)⟩

/-- C3.  Under the documented invariants (in particular every stored document
owns at least one indexed word), once `apply_documents_deletion` resolves
UserId `u` to DocumentId `d` and returns, no sub-store mentions `d` any more:
its `DocumentsFields` and `DocumentsFieldsCounts` groups and its `docs-words`
entry are deleted, no posting record with `document_id = d` survives, every
ranked-map entry of `d` is gone, `u` is out of `user_ids` and `d` out of
`internal_ids`, and every word whose (non-empty) posting list consisted only
of `d`'s records is removed from `words_fst`. -/
theorem deletion_purity (s : IndexState) (σ : Schema) (l : List String)
    (u : String) (d : Nat) (s' : IndexState)
    (hW : WFS σ s) (hul : u ∈ l) (hu : fmLookup s.userIds u = some d)
    (hok : applyDocumentsDeletion s l = Except.ok s') :
    s'.documentsFields d = none ∧
    s'.documentsFieldsCounts d = none ∧
    s'.docsWords d = none ∧
    (∀ w p rr, s'.postingsLists w = some p → rr ∈ p → rr.docId ≠ d) ∧
    (∀ rm f, s'.rankedMap = some rm → rm d f = none) ∧
    fmLookup s'.userIds u = none ∧
    d ∉ s'.internalIds ∧
    (∀ w p, s.postingsLists w = some p → p ≠ ∅ → (∀ rr ∈ p, rr.docId = d) →
      w ∉ s'.wordsFst.getD ∅) := by
  unfold applyDocumentsDeletion at hok
  simp only [hW.schemaEq] at hok
  have hs' : s' = deletionCore σ s l (resolvedIds s l) := (Except.ok.inj hok).symm
  subst hs'
  have hdid : d ∈ resolvedIds s l := (mem_resolvedIds s l d).mpr ⟨u, hul, hu⟩
  have hsub : resolvedIds s l ⊆ s.internalIds := by
    intro x hx
    obtain ⟨v, _, hv⟩ := (mem_resolvedIds s l x).mp hx
    exact hW.lookupMem v x hv
  have htouch : delTouched s (resolvedIds s l) = resolvedIds s l := by
    rw [delTouched_eq σ s hW, Finset.inter_eq_left.mpr hsub]
  have hdel : delDeletedDocs s (resolvedIds s l) = resolvedIds s l := by
    rw [delDeletedDocs_eq σ s hW, Finset.inter_eq_left.mpr hsub]
  refine ⟨?_, ?_, ?_, ?_, ?_, ?_, ?_, ?_⟩
  · rw [deletionCore_documentsFields]
    simp only
    rw [htouch, if_pos hdid]
  · rw [deletionCore_documentsFieldsCounts]
    simp only
    rw [htouch, if_pos hdid]
  · rw [deletionCore_docsWords]
    simp only
    rw [hdel, if_pos hdid]
  · intro w p rr hp hr
    rw [deletionCore_postingsLists] at hp
    have hc := delPostings_cover s (resolvedIds s l) hW.cover w p rr hp hr
    intro he
    exact hc.2 (by rw [he]; exact hdid)
  · intro rm f hrm
    rw [deletionCore_rankedMap] at hrm
    rw [← Option.some.inj hrm]
    simp only
    by_cases hf : f ∈ σ.rankedFields
    · rw [if_pos ⟨hdid, hf⟩]
    · rw [if_neg (by intro hc; exact hf hc.2)]
      rcases hsrm : s.rankedMap with _ | rm₀
      · rfl
      · rw [Option.getD_some]
        rcases hval : rm₀ d f with _ | v
        · rfl
        · exact absurd (hW.rmRanked rm₀ d f hsrm (by rw [hval]; rfl)) hf
  · rw [deletionCore_userIds, removeUserIdsMap_lookup, if_pos hul]
  · rw [deletionCore_internalIds]
    intro hmem
    exact (Finset.mem_sdiff.mp hmem).2 hdid
  · intro w p hp hne hall
    obtain ⟨rr0, hrr0⟩ := Finset.nonempty_iff_ne_empty.mpr hne
    have hwW : w ∈ wordsOfDoc s d := by
      have h2 := hW.cover w p rr0 hp hrr0
      rw [hall rr0 hrr0] at h2
      exact h2
    have haff : w ∈ delAffectedWords s (resolvedIds s l) :=
      Finset.mem_biUnion.mpr ⟨d, hdid, hwW⟩
    have hwrem : w ∈ delRemovedWords s (resolvedIds s l) := by
      unfold delRemovedWords
      rw [Finset.mem_filter]
      refine ⟨haff, ?_, ?_⟩
      · rw [hp]
        rfl
      · unfold delPostings
        rw [if_pos haff, hp]
        simp only
        rw [if_pos ?_]
        apply Finset.filter_eq_empty_iff.mpr
        intro rr hrr
        simp only [not_not]
        unfold delIdsOfWord
        rw [Finset.mem_filter, hall rr hrr]
        exact ⟨hdid, hwW⟩
    rw [deletionCore_wordsFst]
    rcases hfst : s.wordsFst with _ | W
    · simp
    · simp only [Option.getD_some]
      intro hmem
      exact (Finset.mem_sdiff.mp hmem).2 hwrem

theorem deletion_purity_witness :
    (delOk (addOk tokWord exInit [exDocA]) ["a"]).documentsFields 0 = none ∧
    fmLookup (delOk (addOk tokWord exInit [exDocA]) ["a"]).userIds "a" = none ∧
    0 ∉ (delOk (addOk tokWord exInit [exDocA]) ["a"]).internalIds := by
  have hrg : ReachableGood tokWord (addOk tokWord exInit [exDocA]) :=
    ReachableGood.add exInit (addOk tokWord exInit [exDocA]) [exDocA] false
      exSchema
      (ReachableGood.init exSchema none none (by decide))
      rfl
      (by simp [NoDupFresh])
      (by decide)
      (by decide)
      rfl
  obtain ⟨σ, hW⟩ := reachableGood_wfs tokWord (addOk tokWord exInit [exDocA]) hrg
  have h := deletion_purity (addOk tokWord exInit [exDocA]) σ ["a"] "a" 0
    (delOk (addOk tokWord exInit [exDocA]) ["a"]) hW (by simp) (by decide) rfl
  exact ⟨h.1, h.2.2.2.2.2.1, h.2.2.2.2.2.2.1⟩

/-! ## Re-indexing a document reproduces the same artifacts -/

theorem indexField_counts (stop : Finset String) (tok : Tokenizer) (d : Nat)
    (acc : IndexAcc) (kv : String × Value) :
    (indexField stop tok d acc kv).counts =
      (match (acc.σ.insertAndIndex kv.1).2.isIndexedPos
          (acc.σ.insertAndIndex kv.1).1 with
       | some pos =>
          if tokensOf stop tok kv.2 = [] then acc.counts
          else putCount acc.counts d pos (tokensOf stop tok kv.2).length
       | none => acc.counts) := by
  unfold indexField
  rcases hp : (acc.σ.insertAndIndex kv.1).2.isIndexedPos (acc.σ.insertAndIndex kv.1).1
    with _ | pos <;> simp [hp]

theorem indexField_events (stop : Finset String) (tok : Tokenizer) (d : Nat)
    (acc : IndexAcc) (kv : String × Value) :
    (indexField stop tok d acc kv).events =
      (match (acc.σ.insertAndIndex kv.1).2.isIndexedPos
          (acc.σ.insertAndIndex kv.1).1 with
       | some pos => acc.events ++ [(d, pos, tokensOf stop tok kv.2)]
       | none => acc.events) := by
  unfold indexField
  rcases hp : (acc.σ.insertAndIndex kv.1).2.isIndexedPos (acc.σ.insertAndIndex kv.1).1
    with _ | pos <;> simp [hp]

theorem indexField_rm (stop : Finset String) (tok : Tokenizer) (d : Nat)
    (acc : IndexAcc) (kv : String × Value) :
    (indexField stop tok d acc kv).rm =
      (if (acc.σ.insertAndIndex kv.1).2.isRankedFid (acc.σ.insertAndIndex kv.1).1 then
        fun d' f' => if d' = d ∧ f' = (acc.σ.insertAndIndex kv.1).1 then
          some (valueToNumber kv.2) else acc.rm d' f'
      else acc.rm) := by
  unfold indexField
  rcases hp : (acc.σ.insertAndIndex kv.1).2.isIndexedPos (acc.σ.insertAndIndex kv.1).1
    with _ | pos <;> simp [hp]

theorem indexFoldDoc_σ_eq (stop : Finset String) (tok : Tokenizer) (d : Nat) :
    ∀ (D : Document) (acc : IndexAcc),
      (D.foldl (indexField stop tok d) acc).σ =
        schemaFold acc.σ (D.map Prod.fst) := by
  intro D
  induction D with
  | nil => intro acc; rfl
  | cons kv rest ih =>
    intro acc
    rw [List.foldl_cons, ih, indexField_σ]
    rfl

theorem schemaFold_stable {σ : Schema} {m : String} {f : Nat}
    (h : σ.fieldIdOf m = some f) :
    ∀ ns : List String, (schemaFold σ ns).fieldIdOf m = some f := by
  intro ns
  induction ns generalizing σ h with
  | nil => exact h
  | cons n rest ih =>
    show (schemaFold ((σ.insertAndIndex n).2) rest).fieldIdOf m = some f
    exact ih (Schema.insertAndIndex_stable n h)

theorem schemaFold_get_stable {σ : Schema} {f : Nat} {sf : SchemaField}
    (h : σ.fields.get? f = some sf) :
    ∀ ns : List String, (schemaFold σ ns).fields.get? f = some sf := by
  intro ns
  induction ns generalizing σ h with
  | nil => exact h
  | cons n rest ih =>
    show (schemaFold ((σ.insertAndIndex n).2) rest).fields.get? f = some sf
    exact ih (insertAndIndex_get_stable σ n f sf h)

theorem schemaFold_primaryKey (σ : Schema) :
    ∀ ns : List String, (schemaFold σ ns).primaryKey = σ.primaryKey := by
  intro ns
  induction ns generalizing σ with
  | nil => rfl
  | cons n rest ih =>
    show (schemaFold ((σ.insertAndIndex n).2) rest).primaryKey = _
    rw [ih, Schema.insertAndIndex_primaryKey]

theorem fieldIdOf_get (σ : Schema) (m : String) (f : Nat)
    (h : σ.fieldIdOf m = some f) : ∃ sf, σ.fields.get? f = some sf := by
  obtain ⟨x, hx, _⟩ := listFindIdx_eq_some _ _ _ h
  exact ⟨x, hx⟩

/-- One indexing step from two accumulators that agree on the schema and on
the stores of document `d` keeps the agreement and appends the same event. -/
theorem indexField_agree (stop : Finset String) (tok : Tokenizer) (d : Nat)
    (acc bcc : IndexAcc) (kv : String × Value)
    (hσ : acc.σ = bcc.σ) (hf : acc.fields d = bcc.fields d)
    (hc : acc.counts d = bcc.counts d) (hr : ∀ f, acc.rm d f = bcc.rm d f) :
    (indexField stop tok d acc kv).σ = (indexField stop tok d bcc kv).σ ∧
    (indexField stop tok d acc kv).fields d =
      (indexField stop tok d bcc kv).fields d ∧
    (indexField stop tok d acc kv).counts d =
      (indexField stop tok d bcc kv).counts d ∧
    (∀ f, (indexField stop tok d acc kv).rm d f =
      (indexField stop tok d bcc kv).rm d f) ∧
    ∃ E, (indexField stop tok d acc kv).events = acc.events ++ E ∧
      (indexField stop tok d bcc kv).events = bcc.events ++ E := by
  refine ⟨?_, ?_, ?_, ?_, ?_⟩
  · rw [indexField_σ, indexField_σ, hσ]
  · rw [indexField_fields, indexField_fields, putField_self, putField_self, hσ, hf]
  · rw [indexField_counts, indexField_counts, hσ]
    rcases hp : (bcc.σ.insertAndIndex kv.1).2.isIndexedPos
        (bcc.σ.insertAndIndex kv.1).1 with _ | pos
    · exact hc
    · simp only
      by_cases hts : tokensOf stop tok kv.2 = []
      · rw [if_pos hts, if_pos hts]
        exact hc
      · rw [if_neg hts, if_neg hts]
        simp [putCount, hc]
  · intro f
    rw [indexField_rm, indexField_rm, hσ]
    by_cases hrk : (bcc.σ.insertAndIndex kv.1).2.isRankedFid
        (bcc.σ.insertAndIndex kv.1).1
    · rw [if_pos hrk, if_pos hrk]
      by_cases hcond : d = d ∧ f = (bcc.σ.insertAndIndex kv.1).1
      · rw [if_pos hcond, if_pos hcond]
      · rw [if_neg hcond, if_neg hcond, hr f]
    · rw [if_neg hrk, if_neg hrk, hr f]
  · rw [indexField_events, indexField_events, hσ]
    rcases hp : (bcc.σ.insertAndIndex kv.1).2.isIndexedPos
        (bcc.σ.insertAndIndex kv.1).1 with _ | pos
    · exact ⟨[], by simp, by simp⟩
    · exact ⟨[(d, pos, tokensOf stop tok kv.2)], rfl, rfl⟩

/-- Folding a document over two accumulators that agree on the schema and on
document `d`'s stores yields agreeing results with a common event suffix. -/
theorem indexFoldDoc_agree (stop : Finset String) (tok : Tokenizer) (d : Nat) :
    ∀ (D : Document) (acc bcc : IndexAcc),
      acc.σ = bcc.σ → acc.fields d = bcc.fields d →
      acc.counts d = bcc.counts d → (∀ f, acc.rm d f = bcc.rm d f) →
      (D.foldl (indexField stop tok d) acc).σ =
        (D.foldl (indexField stop tok d) bcc).σ ∧
      (D.foldl (indexField stop tok d) acc).fields d =
        (D.foldl (indexField stop tok d) bcc).fields d ∧
      (D.foldl (indexField stop tok d) acc).counts d =
        (D.foldl (indexField stop tok d) bcc).counts d ∧
      (∀ f, (D.foldl (indexField stop tok d) acc).rm d f =
        (D.foldl (indexField stop tok d) bcc).rm d f) ∧
      ∃ E, (D.foldl (indexField stop tok d) acc).events = acc.events ++ E ∧
        (D.foldl (indexField stop tok d) bcc).events = bcc.events ++ E := by
  intro D
  induction D with
  | nil =>
    intro acc bcc hσ hf hc hr
    exact ⟨hσ, hf, hc, hr, [], by simp, by simp⟩
  | cons kv rest ih =>
    intro acc bcc hσ hf hc hr
    obtain ⟨hσ₁, hf₁, hc₁, hr₁, E₁, hea₁, heb₁⟩ :=
      indexField_agree stop tok d acc bcc kv hσ hf hc hr
    obtain ⟨hσ₂, hf₂, hc₂, hr₂, E₂, hea₂, heb₂⟩ :=
      ih (indexField stop tok d acc kv) (indexField stop tok d bcc kv)
        hσ₁ hf₁ hc₁ hr₁
    refine ⟨hσ₂, hf₂, hc₂, hr₂, E₁ ++ E₂, ?_, ?_⟩
    · rw [List.foldl_cons, hea₂, hea₁, List.append_assoc]
    · rw [List.foldl_cons, heb₂, heb₁, List.append_assoc]

/-- Folding a document from the final (already fully interned) schema
instead of the starting one yields the same per-document stores and the same
events: the interning fold is idempotent on its own output. -/
theorem indexFoldDoc_final (stop : Finset String) (tok : Tokenizer) (d : Nat) :
    ∀ (D : Document) (acc bcc : IndexAcc),
      bcc.σ = schemaFold acc.σ (D.map Prod.fst) →
      acc.fields d = bcc.fields d → acc.counts d = bcc.counts d →
      (∀ f, acc.rm d f = bcc.rm d f) →
      (D.foldl (indexField stop tok d) acc).σ = bcc.σ ∧
      (D.foldl (indexField stop tok d) bcc).σ = bcc.σ ∧
      (D.foldl (indexField stop tok d) acc).fields d =
        (D.foldl (indexField stop tok d) bcc).fields d ∧
      (D.foldl (indexField stop tok d) acc).counts d =
        (D.foldl (indexField stop tok d) bcc).counts d ∧
      (∀ f, (D.foldl (indexField stop tok d) acc).rm d f =
        (D.foldl (indexField stop tok d) bcc).rm d f) ∧
      ∃ E, (D.foldl (indexField stop tok d) acc).events = acc.events ++ E ∧
        (D.foldl (indexField stop tok d) bcc).events = bcc.events ++ E := by
  intro D
  induction D with
  | nil =>
    intro acc bcc hσ hf hc hr
    exact ⟨hσ.symm, rfl, hf, hc, hr, [], by simp, by simp⟩
  | cons kv rest ih =>
    intro acc bcc hσ hf hc hr
    obtain ⟨k, v⟩ := kv
    -- the head name is already interned in the final schema, with the same id
    have hσa : (acc.σ.insertAndIndex k).2.fieldIdOf k =
        some (acc.σ.insertAndIndex k).1 := Schema.insertAndIndex_self acc.σ k
    have hbccσ : bcc.σ = schemaFold ((acc.σ.insertAndIndex k).2)
        (rest.map Prod.fst) := hσ
    have hbk : bcc.σ.fieldIdOf k = some (acc.σ.insertAndIndex k).1 := by
      rw [hbccσ]
      exact schemaFold_stable hσa _
    have hbins : bcc.σ.insertAndIndex k = ((acc.σ.insertAndIndex k).1, bcc.σ) := by
      have h0 : bcc.σ.insertAndIndex k =
          (match bcc.σ.fieldIdOf k with
           | some i => (i, bcc.σ)
           | none => (bcc.σ.fields.length,
              { bcc.σ with fields := bcc.σ.fields ++
                [⟨k, some bcc.σ.nextIndexedPos, false⟩] })) := rfl
      rw [h0, hbk]
    obtain ⟨sf, hsf⟩ := fieldIdOf_get _ k _ hσa
    have hbsf : bcc.σ.fields.get? (acc.σ.insertAndIndex k).1 = some sf := by
      rw [hbccσ]
      exact schemaFold_get_stable hsf _
    have hpos : bcc.σ.isIndexedPos (acc.σ.insertAndIndex k).1 =
        (acc.σ.insertAndIndex k).2.isIndexedPos (acc.σ.insertAndIndex k).1 := by
      unfold Schema.isIndexedPos
      rw [hsf, hbsf]
    have hrk : bcc.σ.isRankedFid (acc.σ.insertAndIndex k).1 =
        (acc.σ.insertAndIndex k).2.isRankedFid (acc.σ.insertAndIndex k).1 := by
      unfold Schema.isRankedFid
      rw [hsf, hbsf]
    -- the two indexField steps agree on document d's stores and on events
    have hstep : (indexField stop tok d acc (k, v)).σ =
          (acc.σ.insertAndIndex k).2 ∧
        (indexField stop tok d bcc (k, v)).σ = bcc.σ ∧
        (indexField stop tok d acc (k, v)).fields d =
          (indexField stop tok d bcc (k, v)).fields d ∧
        (indexField stop tok d acc (k, v)).counts d =
          (indexField stop tok d bcc (k, v)).counts d ∧
        (∀ f, (indexField stop tok d acc (k, v)).rm d f =
          (indexField stop tok d bcc (k, v)).rm d f) ∧
        ∃ E₁, (indexField stop tok d acc (k, v)).events = acc.events ++ E₁ ∧
          (indexField stop tok d bcc (k, v)).events = bcc.events ++ E₁ := by
      refine ⟨indexField_σ stop tok d acc (k, v), ?_, ?_, ?_, ?_, ?_⟩
      · rw [indexField_σ]
        show (bcc.σ.insertAndIndex k).2 = bcc.σ
        rw [hbins]
      · rw [indexField_fields, indexField_fields, putField_self, putField_self]
        show _ = some (fun f => if f = (bcc.σ.insertAndIndex k).1 then some v
          else ((bcc.fields d).getD (fun _ => none)) f)
        rw [hbins, hf]
      · rw [indexField_counts, indexField_counts]
        show (match (acc.σ.insertAndIndex k).2.isIndexedPos
            (acc.σ.insertAndIndex k).1 with
          | some pos => if tokensOf stop tok v = [] then acc.counts
              else putCount acc.counts d pos (tokensOf stop tok v).length
          | none => acc.counts) d =
          (match (bcc.σ.insertAndIndex k).2.isIndexedPos
            (bcc.σ.insertAndIndex k).1 with
          | some pos => if tokensOf stop tok v = [] then bcc.counts
              else putCount bcc.counts d pos (tokensOf stop tok v).length
          | none => bcc.counts) d
        rw [hbins]
        simp only
        rw [hpos]
        rcases hp : (acc.σ.insertAndIndex k).2.isIndexedPos
            (acc.σ.insertAndIndex k).1 with _ | pos
        · exact hc
        · simp only
          by_cases hts : tokensOf stop tok v = []
          · rw [if_pos hts, if_pos hts]
            exact hc
          · rw [if_neg hts, if_neg hts]
            simp [putCount, hc]
      · intro f
        rw [indexField_rm, indexField_rm]
        show (if (acc.σ.insertAndIndex k).2.isRankedFid (acc.σ.insertAndIndex k).1
            then _ else acc.rm) d f =
          (if (bcc.σ.insertAndIndex k).2.isRankedFid (bcc.σ.insertAndIndex k).1
            then _ else bcc.rm) d f
        rw [hbins]
        simp only
        rw [hrk]
        by_cases hb : (acc.σ.insertAndIndex k).2.isRankedFid
            (acc.σ.insertAndIndex k).1
        · rw [if_pos hb, if_pos hb]
          by_cases hcf : f = (acc.σ.insertAndIndex k).1
          · simp [hcf]
          · simp [hcf, hr f]
        · rw [if_neg hb, if_neg hb]
          exact hr f
      · rw [indexField_events, indexField_events]
        show ∃ E₁, (match (acc.σ.insertAndIndex k).2.isIndexedPos
            (acc.σ.insertAndIndex k).1 with
          | some pos => acc.events ++ [(d, pos, tokensOf stop tok v)]
          | none => acc.events) = acc.events ++ E₁ ∧
          (match (bcc.σ.insertAndIndex k).2.isIndexedPos
            (bcc.σ.insertAndIndex k).1 with
          | some pos => bcc.events ++ [(d, pos, tokensOf stop tok v)]
          | none => bcc.events) = bcc.events ++ E₁
        rw [hbins]
        simp only
        rw [hpos]
        rcases hp : (acc.σ.insertAndIndex k).2.isIndexedPos
            (acc.σ.insertAndIndex k).1 with _ | pos
        · exact ⟨[], by simp, by simp⟩
        · exact ⟨[(d, pos, tokensOf stop tok v)], rfl, rfl⟩
    obtain ⟨hsa, hsb, hf₁, hc₁, hr₁, E₁, hea₁, heb₁⟩ := hstep
    have hrec := ih (indexField stop tok d acc (k, v))
      (indexField stop tok d bcc (k, v))
      (by rw [hsb, hsa, hbccσ]) hf₁ hc₁ hr₁
    obtain ⟨hsa₂, hsb₂, hf₂, hc₂, hr₂, E₂, hea₂, heb₂⟩ := hrec
    refine ⟨by rw [List.foldl_cons, hsa₂, hsb], by rw [List.foldl_cons, hsb₂, hsb],
      by rw [List.foldl_cons, List.foldl_cons] at *; exact hf₂,
      by rw [List.foldl_cons, List.foldl_cons] at *; exact hc₂,
      by rw [List.foldl_cons, List.foldl_cons] at *; exact hr₂,
      E₁ ++ E₂, ?_, ?_⟩
    · rw [List.foldl_cons, hea₂, hea₁, List.append_assoc]
    · rw [List.foldl_cons, heb₂, heb₁, List.append_assoc]

theorem indexState_eq (a b : IndexState)
    (h1 : a.schema = b.schema) (h2 : a.userIds = b.userIds)
    (h3 : a.internalIds = b.internalIds)
    (h4 : a.numberOfDocuments = b.numberOfDocuments)
    (h5 : a.wordsFst = b.wordsFst) (h6 : a.postingsLists = b.postingsLists)
    (h7 : a.docsWords = b.docsWords) (h8 : a.documentsFields = b.documentsFields)
    (h9 : a.documentsFieldsCounts = b.documentsFieldsCounts)
    (h10 : a.rankedMap = b.rankedMap) (h11 : a.facets = b.facets)
    (h12 : a.attributesForFaceting = b.attributesForFaceting)
    (h13 : a.stopWords = b.stopWords) (h14 : a.prefixCache = b.prefixCache) :
    a = b := by
  cases a
  cases b
  simp only at h1 h2 h3 h4 h5 h6 h7 h8 h9 h10 h11 h12 h13 h14
  subst h1 h2 h3 h4 h5 h6 h7 h8 h9 h10 h11 h12 h13 h14
  rfl

theorem sdiff_union_restore {α : Type} [DecidableEq α] (F W rem : Finset α)
    (h1 : rem ⊆ W) (h2 : W ⊆ F) : (F \ rem) ∪ W = F := by
  ext x
  simp only [Finset.mem_union, Finset.mem_sdiff]
  constructor
  · rintro (⟨hx, _⟩ | hx)
    · exact hx
    · exact h2 hx
  · intro hx
    by_cases hr : x ∈ rem
    · exact Or.inr (h1 hr)
    · exact Or.inl ⟨hx, hr⟩

theorem deltaWords_single (events : List IndexEvent) (d : Nat)
    (h : ∀ e ∈ events, e.1 = d) :
    deltaWords events = docsWordsOfEvents events d := by
  ext w
  rw [mem_docsWordsOfEvents_iff]
  unfold deltaWords
  rw [List.mem_toFinset]
  constructor
  · intro hm
    obtain ⟨p, hp, hpw⟩ := List.mem_map.mp hm
    refine ⟨p.2, ?_, ?_⟩
    · have he : p = (w, p.2) := Prod.ext (by rw [hpw]) rfl
      exact he ▸ hp
    · obtain ⟨e, he, hde⟩ := allRecords_docId events p hp
      rw [hde, h e he]
  · rintro ⟨r, hr, _⟩
    exact List.mem_map.mpr ⟨(w, r), hr, rfl⟩

theorem recordsOf_docId_single (events : List IndexEvent) (d : Nat)
    (h : ∀ e ∈ events, e.1 = d) (w : String) (r : DocIndex)
    (hr : r ∈ recordsOf events w) : r.docId = d := by
  obtain ⟨e, he, hde⟩ :=
    allRecords_docId events (w, r) ((mem_recordsOf_iff events w r).mp hr)
  rw [hde, h e he]

theorem delPostings_getD (s : IndexState) (ids : Finset Nat) (w : String)
    (h : w ∈ delAffectedWords s ids) :
    (delPostings s ids w).getD ∅ =
      ((s.postingsLists w).getD ∅).filter
        (fun r => r.docId ∉ delIdsOfWord s ids w) := by
  unfold delPostings
  rw [if_pos h]
  rcases hpl : s.postingsLists w with _ | p
  · simp
  · simp only [Option.getD_some]
    by_cases hemp : p.filter (fun r => r.docId ∉ delIdsOfWord s ids w) = ∅
    · rw [if_pos hemp, hemp]
      rfl
    · rw [if_neg hemp]
      rfl

theorem additionDeleted_attrs (s : IndexState) (σ : Schema) (r : ResState) :
    (additionDeleted s σ r).attributesForFaceting =
      s.attributesForFaceting := rfl

theorem applyAdditionOk_attrs (tok : Tokenizer) (s : IndexState) (σ : Schema)
    (r : ResState) :
    (applyAdditionOk tok s σ r).attributesForFaceting =
      s.attributesForFaceting := rfl

theorem applyAdditionOk_facets_of_none (tok : Tokenizer) (s : IndexState)
    (σ : Schema) (r : ResState) (hfac : s.attributesForFaceting = none) :
    (applyAdditionOk tok s σ r).facets = s.facets := by
  show (match (additionDeleted s σ r).attributesForFaceting with
    | some attrs => facetsAdd (additionDeleted s σ r).facets
        (facetMapFromDocs σ attrs r.additions)
    | none => (additionDeleted s σ r).facets) = s.facets
  have h1 : (additionDeleted s σ r).attributesForFaceting = none := hfac
  simp only [h1]
  show (match s.attributesForFaceting with
    | some attrs => facetsRemove s.facets
        (facetMapFromDocids s attrs (additionIds r.additions))
    | none => s.facets) = s.facets
  simp only [hfac]

theorem applyAdditionOk_prefixCache (tok : Tokenizer) (s : IndexState)
    (σ : Schema) (r : ResState) :
    (applyAdditionOk tok s σ r).prefixCache =
      computePrefixCache ((applyAdditionOk tok s σ r).wordsFst.getD ∅)
        (applyAdditionOk tok s σ r).postingsLists := rfl

theorem indexFoldDoc_events_base (stop : Finset String) (tok : Tokenizer)
    (d : Nat) (D : Document) (acc : IndexAcc) (hev : acc.events = [])
    (e : IndexEvent) (h : e ∈ (D.foldl (indexField stop tok d) acc).events) :
    e.1 = d := by
  rcases indexFoldDoc_events_sub stop tok d D acc e h with h1 | h1
  · rw [hev] at h1
    exact absurd h1 (List.not_mem_nil e)
  · exact h1

/-- Committing the same single document again on top of its own committed
addition writes back exactly the same state, store for store. -/
theorem readdition_state_eq (tok : Tokenizer) (s : IndexState) (σ : Schema)
    (r₁ : ResState) (i : Nat) (uid : String) (D : Document)
    (hW : WFS σ s)
    (hadd₁ : r₁.additions = [(i, D)])
    (hnew₁ : r₁.newUser = [(uid, i)])
    (hW₁ : WFS (additionAcc tok s σ r₁).σ (applyAdditionOk tok s σ r₁))
    (hseed₁f : (additionDeleted s σ r₁).documentsFields i = none)
    (hseed₁c : (additionDeleted s σ r₁).documentsFieldsCounts i = none)
    (hwordi : docsWordsOfEvents (additionAcc tok s σ r₁).events i ≠ ∅)
    (hfac : s.attributesForFaceting = none) :
    applyAdditionOk tok (applyAdditionOk tok s σ r₁) ((additionAcc tok s σ r₁).σ)
      ⟨[(uid, i)], [i], (applyAdditionOk tok s σ r₁).internalIds, [(i, D)]⟩ =
    applyAdditionOk tok s σ r₁ := by
  -- abbreviations recur as plain terms throughout
  have hids₁ : additionIds r₁.additions = {i} := by
    rw [hadd₁, additionIds_single]
  have hu₁ : fmLookup (applyAdditionOk tok s σ r₁).userIds uid = some i := by
    rw [applyAdditionOk_userIds, removeUserIdsMap_nil,
      mergeUserIdsMap_lookup _ _ hW.sorted
        (by rw [hnew₁]; exact List.pairwise_singleton _ _), hnew₁,
      fmLookup_cons, if_pos rfl, optOr_some_left]
  have hii : i ∈ (applyAdditionOk tok s σ r₁).internalIds :=
    hW₁.lookupMem uid i hu₁
  -- the first-pass fold, from the canonical empty per-document base
  have hacc₁ : additionAcc tok s σ r₁ =
      D.foldl (indexField (s.stopWords.getD ∅) tok i)
        ⟨σ, (additionDeleted s σ r₁).documentsFields,
          (additionDeleted s σ r₁).documentsFieldsCounts,
          ((additionDeleted s σ r₁).rankedMap).getD (fun _ _ => none), []⟩ :=
    additionAcc_single tok s σ r₁ i D hadd₁
  have hσ₁fold : (additionAcc tok s σ r₁).σ = schemaFold σ (D.map Prod.fst) := by
    rw [hacc₁]
    exact indexFoldDoc_σ_eq _ tok i D _
  have hseed₁rm : ∀ f,
      (((additionDeleted s σ r₁).rankedMap).getD (fun _ _ => none)) i f = none := by
    intro f
    rw [additionDeleted_rankedMap, Option.getD_some]
    by_cases hf : f ∈ σ.rankedFields
    · rw [if_pos ⟨by rw [hids₁]; exact Finset.mem_singleton_self i, hf⟩]
    · rw [if_neg (fun hc => hf hc.2)]
      rcases hsrm : s.rankedMap with _ | rm₀
      · rfl
      · rw [Option.getD_some]
        rcases hval : rm₀ i f with _ | v
        · rfl
        · exact absurd (hW.rmRanked rm₀ i f hsrm (by rw [hval]; rfl)) hf
  -- the second-pass deletion erases exactly document i's groups
  have htouch₂ : delTouched (applyAdditionOk tok s σ r₁)
      (additionIds ((⟨[(uid, i)], [i], (applyAdditionOk tok s σ r₁).internalIds,
        [(i, D)]⟩ : ResState).additions)) = {i} := by
    rw [delTouched_eq _ _ hW₁, additionIds_single,
      Finset.inter_eq_left.mpr (Finset.singleton_subset_iff.mpr hii)]
  have hdel₂ : delDeletedDocs (applyAdditionOk tok s σ r₁)
      (additionIds ((⟨[(uid, i)], [i], (applyAdditionOk tok s σ r₁).internalIds,
        [(i, D)]⟩ : ResState).additions)) = {i} := by
    rw [delDeletedDocs_eq _ _ hW₁, additionIds_single,
      Finset.inter_eq_left.mpr (Finset.singleton_subset_iff.mpr hii)]
  have hseed₂f : (additionDeleted (applyAdditionOk tok s σ r₁)
      ((additionAcc tok s σ r₁).σ)
      ⟨[(uid, i)], [i], (applyAdditionOk tok s σ r₁).internalIds,
        [(i, D)]⟩).documentsFields i = none := by
    rw [additionDeleted_documentsFields, htouch₂,
      if_pos (Finset.mem_singleton_self i)]
  have hseed₂c : (additionDeleted (applyAdditionOk tok s σ r₁)
      ((additionAcc tok s σ r₁).σ)
      ⟨[(uid, i)], [i], (applyAdditionOk tok s σ r₁).internalIds,
        [(i, D)]⟩).documentsFieldsCounts i = none := by
    rw [additionDeleted_documentsFieldsCounts, htouch₂,
      if_pos (Finset.mem_singleton_self i)]
  have hseed₂rm : ∀ f,
      (((additionDeleted (applyAdditionOk tok s σ r₁)
        ((additionAcc tok s σ r₁).σ)
        ⟨[(uid, i)], [i], (applyAdditionOk tok s σ r₁).internalIds,
          [(i, D)]⟩).rankedMap).getD (fun _ _ => none)) i f = none := by
    intro f
    rw [additionDeleted_rankedMap, Option.getD_some]
    by_cases hf : f ∈ ((additionAcc tok s σ r₁).σ).rankedFields
    · rw [if_pos ⟨by rw [additionIds_single]; exact Finset.mem_singleton_self i, hf⟩]
    · rw [if_neg (fun hc => hf hc.2)]
      rw [applyAdditionOk_rankedMap, Option.getD_some]
      rcases hval : (additionAcc tok s σ r₁).rm i f with _ | v
      · rfl
      · exact absurd (hW₁.rmRanked (additionAcc tok s σ r₁).rm i f
          (applyAdditionOk_rankedMap tok s σ r₁) (by rw [hval]; rfl)) hf
  have hacc₂ : additionAcc tok (applyAdditionOk tok s σ r₁)
      ((additionAcc tok s σ r₁).σ)
      ⟨[(uid, i)], [i], (applyAdditionOk tok s σ r₁).internalIds, [(i, D)]⟩ =
      D.foldl (indexField (s.stopWords.getD ∅) tok i)
        ⟨(additionAcc tok s σ r₁).σ,
          (additionDeleted (applyAdditionOk tok s σ r₁)
            ((additionAcc tok s σ r₁).σ)
            ⟨[(uid, i)], [i], (applyAdditionOk tok s σ r₁).internalIds,
              [(i, D)]⟩).documentsFields,
          (additionDeleted (applyAdditionOk tok s σ r₁)
            ((additionAcc tok s σ r₁).σ)
            ⟨[(uid, i)], [i], (applyAdditionOk tok s σ r₁).internalIds,
              [(i, D)]⟩).documentsFieldsCounts,
          ((additionDeleted (applyAdditionOk tok s σ r₁)
            ((additionAcc tok s σ r₁).σ)
            ⟨[(uid, i)], [i], (applyAdditionOk tok s σ r₁).internalIds,
              [(i, D)]⟩).rankedMap).getD (fun _ _ => none), []⟩ :=
    additionAcc_single tok (applyAdditionOk tok s σ r₁) _ _ i D rfl
  -- comparing both folds with the canonical one
  obtain ⟨hAσ, hAf, hAc, hArm, EA, hAe1, hAe2⟩ :=
    indexFoldDoc_agree (s.stopWords.getD ∅) tok i D
      ⟨σ, fun _ => none, fun _ => none, fun _ _ => none, []⟩
      ⟨σ, (additionDeleted s σ r₁).documentsFields,
        (additionDeleted s σ r₁).documentsFieldsCounts,
        ((additionDeleted s σ r₁).rankedMap).getD (fun _ _ => none), []⟩
      rfl hseed₁f.symm hseed₁c.symm (fun f => (hseed₁rm f).symm)
  obtain ⟨hBσa, hBσb, hBf, hBc, hBrm, EB, hBe1, hBe2⟩ :=
    indexFoldDoc_final (s.stopWords.getD ∅) tok i D
      ⟨σ, fun _ => none, fun _ => none, fun _ _ => none, []⟩
      ⟨(additionAcc tok s σ r₁).σ,
        (additionDeleted (applyAdditionOk tok s σ r₁)
          ((additionAcc tok s σ r₁).σ)
          ⟨[(uid, i)], [i], (applyAdditionOk tok s σ r₁).internalIds,
            [(i, D)]⟩).documentsFields,
        (additionDeleted (applyAdditionOk tok s σ r₁)
          ((additionAcc tok s σ r₁).σ)
          ⟨[(uid, i)], [i], (applyAdditionOk tok s σ r₁).internalIds,
            [(i, D)]⟩).documentsFieldsCounts,
        ((additionDeleted (applyAdditionOk tok s σ r₁)
          ((additionAcc tok s σ r₁).σ)
          ⟨[(uid, i)], [i], (applyAdditionOk tok s σ r₁).internalIds,
            [(i, D)]⟩).rankedMap).getD (fun _ _ => none), []⟩
      hσ₁fold hseed₂f.symm hseed₂c.symm (fun f => (hseed₂rm f).symm)
  have hEeq : EA = EB := by
    have h1 := hAe1.symm.trans hBe1
    simpa using h1
  have hf_i : (additionAcc tok (applyAdditionOk tok s σ r₁)
      ((additionAcc tok s σ r₁).σ)
      ⟨[(uid, i)], [i], (applyAdditionOk tok s σ r₁).internalIds,
        [(i, D)]⟩).fields i = (additionAcc tok s σ r₁).fields i := by
    rw [hacc₂]
    conv_rhs => rw [hacc₁]
    exact hBf.symm.trans hAf
  have hc_i : (additionAcc tok (applyAdditionOk tok s σ r₁)
      ((additionAcc tok s σ r₁).σ)
      ⟨[(uid, i)], [i], (applyAdditionOk tok s σ r₁).internalIds,
        [(i, D)]⟩).counts i = (additionAcc tok s σ r₁).counts i := by
    rw [hacc₂]
    conv_rhs => rw [hacc₁]
    exact hBc.symm.trans hAc
  have hrm_i : ∀ f, (additionAcc tok (applyAdditionOk tok s σ r₁)
      ((additionAcc tok s σ r₁).σ)
      ⟨[(uid, i)], [i], (applyAdditionOk tok s σ r₁).internalIds,
        [(i, D)]⟩).rm i f = (additionAcc tok s σ r₁).rm i f := by
    intro f
    rw [hacc₂]
    conv_rhs => rw [hacc₁]
    exact (hBrm f).symm.trans (hArm f)
  have hev : (additionAcc tok (applyAdditionOk tok s σ r₁)
      ((additionAcc tok s σ r₁).σ)
      ⟨[(uid, i)], [i], (applyAdditionOk tok s σ r₁).internalIds,
        [(i, D)]⟩).events = (additionAcc tok s σ r₁).events := by
    rw [hacc₂]
    conv_rhs => rw [hacc₁]
    rw [hBe2, hAe2, hEeq]
  have hσA₂ : (additionAcc tok (applyAdditionOk tok s σ r₁)
      ((additionAcc tok s σ r₁).σ)
      ⟨[(uid, i)], [i], (applyAdditionOk tok s σ r₁).internalIds,
        [(i, D)]⟩).σ = (additionAcc tok s σ r₁).σ := by
    rw [hacc₂]
    exact hBσb
  -- every event of the batch is document i's
  have hEi : ∀ e ∈ (additionAcc tok s σ r₁).events, e.1 = i := by
    rw [hacc₁]
    exact fun e he => indexFoldDoc_events_base _ tok i D _ rfl e he
  have hword_only : ∀ d, docsWordsOfEvents (additionAcc tok s σ r₁).events d ≠ ∅ →
      d = i := by
    intro d hne
    obtain ⟨e, he, hed⟩ := docsWordsOfEvents_ne_empty _ d hne
    rw [← hed]
    exact hEi e he
  have hW1i : wordsOfDoc (applyAdditionOk tok s σ r₁) i =
      deltaWords (additionAcc tok s σ r₁).events := by
    rw [applyAdditionOk_wordsOfDoc, if_neg hwordi,
      deltaWords_single (additionAcc tok s σ r₁).events i hEi]
  have haff₂ : delAffectedWords (applyAdditionOk tok s σ r₁)
      (additionIds ((⟨[(uid, i)], [i], (applyAdditionOk tok s σ r₁).internalIds,
        [(i, D)]⟩ : ResState).additions)) =
      deltaWords (additionAcc tok s σ r₁).events := by
    rw [additionIds_single]
    unfold delAffectedWords
    rw [Finset.singleton_biUnion]
    exact hW1i
  -- component 5: the words FST is restored
  have hco5 : (applyAdditionOk tok (applyAdditionOk tok s σ r₁)
      ((additionAcc tok s σ r₁).σ)
      ⟨[(uid, i)], [i], (applyAdditionOk tok s σ r₁).internalIds,
        [(i, D)]⟩).wordsFst = (applyAdditionOk tok s σ r₁).wordsFst := by
    rw [applyAdditionOk_wordsFst, hev]
    have hdelfst₂ : (additionDeleted (applyAdditionOk tok s σ r₁)
        ((additionAcc tok s σ r₁).σ)
        ⟨[(uid, i)], [i], (applyAdditionOk tok s σ r₁).internalIds,
          [(i, D)]⟩).wordsFst =
        some ((((additionDeleted s σ r₁).wordsFst.getD ∅) ∪
          deltaWords (additionAcc tok s σ r₁).events) \
          delRemovedWords (applyAdditionOk tok s σ r₁)
            (additionIds ((⟨[(uid, i)], [i],
              (applyAdditionOk tok s σ r₁).internalIds,
              [(i, D)]⟩ : ResState).additions))) := by
      show (match (applyAdditionOk tok s σ r₁).wordsFst with
        | some w => some (w \ delRemovedWords (applyAdditionOk tok s σ r₁)
            (additionIds ((⟨[(uid, i)], [i],
              (applyAdditionOk tok s σ r₁).internalIds,
              [(i, D)]⟩ : ResState).additions)))
        | none => some ∅) = _
      rw [applyAdditionOk_wordsFst]
    rw [hdelfst₂, Option.getD_some, applyAdditionOk_wordsFst]
    refine congrArg some (sdiff_union_restore _ _ _ ?_ ?_)
    · refine subset_trans (Finset.filter_subset _ _) ?_
      rw [haff₂]
    · exact Finset.subset_union_right
  -- component 6: the posting lists are restored
  have hco6 : (applyAdditionOk tok (applyAdditionOk tok s σ r₁)
      ((additionAcc tok s σ r₁).σ)
      ⟨[(uid, i)], [i], (applyAdditionOk tok s σ r₁).internalIds,
        [(i, D)]⟩).postingsLists = (applyAdditionOk tok s σ r₁).postingsLists := by
    funext w
    have hXpl := congrFun (applyAdditionOk_postingsLists tok
      (applyAdditionOk tok s σ r₁) ((additionAcc tok s σ r₁).σ)
      ⟨[(uid, i)], [i], (applyAdditionOk tok s σ r₁).internalIds, [(i, D)]⟩) w
    rw [hev] at hXpl
    have hs₁pl := congrFun (applyAdditionOk_postingsLists tok s σ r₁) w
    by_cases hw : w ∈ deltaWords (additionAcc tok s σ r₁).events
    · rw [if_pos hw] at hXpl hs₁pl
      rw [hXpl, hs₁pl, additionDeleted_postingsLists,
        delPostings_getD _ _ _ (by rw [haff₂]; exact hw)]
      have hidw : delIdsOfWord (applyAdditionOk tok s σ r₁)
          (additionIds ((⟨[(uid, i)], [i],
            (applyAdditionOk tok s σ r₁).internalIds,
            [(i, D)]⟩ : ResState).additions)) w = {i} := by
        rw [additionIds_single]
        unfold delIdsOfWord
        rw [Finset.filter_singleton, if_pos (by rw [hW1i]; exact hw)]
      rw [hidw, hs₁pl]
      refine congrArg some ?_
      ext rr
      simp only [Option.getD_some, Finset.mem_union, Finset.mem_filter,
        Finset.mem_singleton]
      constructor
      · rintro (⟨hrr, _⟩ | hrr)
        · exact hrr
        · exact Or.inr hrr
      · intro hrr
        by_cases hdi : rr.docId = i
        · refine Or.inr ?_
          rcases hrr with hrr | hrr
          · rcases hpl₀ : (additionDeleted s σ r₁).postingsLists w with _ | p₀
            · rw [hpl₀] at hrr
              exact absurd hrr (by simp)
            · rw [hpl₀, Option.getD_some] at hrr
              have hnin := (delPostings_cover s (additionIds r₁.additions)
                hW.cover w p₀ rr (by
                  rw [← additionDeleted_postingsLists]
                  exact hpl₀) hrr).2
              rw [hids₁] at hnin
              exact absurd (Finset.mem_singleton.mpr hdi) hnin
          · exact hrr
        · exact Or.inl ⟨hrr, hdi⟩
    · rw [if_neg hw] at hXpl hs₁pl
      rw [hXpl, hs₁pl, additionDeleted_postingsLists,
        delPostings_of_not_affected _ _ _ (by rw [haff₂]; exact hw), hs₁pl]
  -- the remaining components
  refine indexState_eq _ _ ?_ ?_ ?_ ?_ hco5 hco6 ?_ ?_ ?_ ?_ ?_ ?_ ?_ ?_
  · rw [applyAdditionOk_schema, hσA₂, applyAdditionOk_schema]
  · refine fmExt _ _ ?_ ?_ ?_
    · rw [applyAdditionOk_userIds, removeUserIdsMap_nil]
      exact mergeUserIdsMap_sorted _ _ hW₁.sorted (List.pairwise_singleton _ _)
    · exact hW₁.sorted
    · intro q
      rw [applyAdditionOk_userIds, removeUserIdsMap_nil,
        mergeUserIdsMap_lookup _ _ hW₁.sorted (List.pairwise_singleton _ _)]
      by_cases hq : q = uid
      · subst hq
        rw [fmLookup_cons, if_pos rfl, optOr_some_left]
        exact hu₁.symm
      · rw [fmLookup_cons, if_neg (fun hh => hq hh.symm), fmLookup_nil,
          optOr_none_left]
  · rw [applyAdditionOk_internalIds, additionIds_single]
    show ((applyAdditionOk tok s σ r₁).internalIds \ {i}) ∪ {i} = _
    rw [Finset.sdiff_union_self_eq_union]
    exact Finset.union_eq_left.mpr (Finset.singleton_subset_iff.mpr hii)
  · rw [applyAdditionOk_numberOfDocuments, hdel₂]
    have hc1 : ({i} : Finset Nat).card = 1 := Finset.card_singleton i
    rw [hc1]
    have hn1 : 1 ≤ (applyAdditionOk tok s σ r₁).numberOfDocuments := by
      rw [hW₁.count]
      exact Finset.card_pos.mpr ⟨i, hii⟩
    have hnM : (applyAdditionOk tok s σ r₁).numberOfDocuments < U64LIMIT := by
      rw [hW₁.count]
      exact hW₁.capacity
    rw [wrapSub_eq_sub _ _ hn1 hnM]
    show wrapAdd ((applyAdditionOk tok s σ r₁).numberOfDocuments - 1) 1 = _
    unfold wrapAdd
    have h2 : (applyAdditionOk tok s σ r₁).numberOfDocuments - 1 + 1 =
        (applyAdditionOk tok s σ r₁).numberOfDocuments := by omega
    rw [h2, Nat.mod_eq_of_lt hnM]
  · funext q
    have hXdw := congrFun (applyAdditionOk_docsWords tok
      (applyAdditionOk tok s σ r₁) ((additionAcc tok s σ r₁).σ)
      ⟨[(uid, i)], [i], (applyAdditionOk tok s σ r₁).internalIds, [(i, D)]⟩) q
    rw [hev] at hXdw
    have hs₁dw := congrFun (applyAdditionOk_docsWords tok s σ r₁) q
    by_cases hq : docsWordsOfEvents (additionAcc tok s σ r₁).events q = ∅
    · rw [if_pos hq] at hXdw
      have hqi : q ≠ i := fun he => hwordi (he ▸ hq)
      rw [hXdw, additionDeleted_docsWords, hdel₂,
        if_neg (fun hc => hqi (Finset.mem_singleton.mp hc))]
    · rw [if_neg hq] at hXdw
      rw [if_neg hq] at hs₁dw
      rw [hXdw, hs₁dw]
  · funext q
    rw [applyAdditionOk_documentsFields, applyAdditionOk_documentsFields]
    by_cases hqi : q = i
    · subst hqi
      exact hf_i
    · rw [hacc₂, indexFoldDoc_fields_other _ tok i D _ q hqi]
      show (additionDeleted (applyAdditionOk tok s σ r₁)
        ((additionAcc tok s σ r₁).σ)
        ⟨[(uid, i)], [i], (applyAdditionOk tok s σ r₁).internalIds,
          [(i, D)]⟩).documentsFields q = _
      rw [additionDeleted_documentsFields, htouch₂,
        if_neg (fun hc => hqi (Finset.mem_singleton.mp hc)),
        applyAdditionOk_documentsFields]
  · funext q
    rw [applyAdditionOk_documentsFieldsCounts, applyAdditionOk_documentsFieldsCounts]
    by_cases hqi : q = i
    · subst hqi
      exact hc_i
    · rw [hacc₂, indexFoldDoc_counts_other _ tok i D _ q hqi]
      show (additionDeleted (applyAdditionOk tok s σ r₁)
        ((additionAcc tok s σ r₁).σ)
        ⟨[(uid, i)], [i], (applyAdditionOk tok s σ r₁).internalIds,
          [(i, D)]⟩).documentsFieldsCounts q = _
      rw [additionDeleted_documentsFieldsCounts, htouch₂,
        if_neg (fun hc => hqi (Finset.mem_singleton.mp hc)),
        applyAdditionOk_documentsFieldsCounts]
  · rw [applyAdditionOk_rankedMap, applyAdditionOk_rankedMap]
    refine congrArg some ?_
    funext d' f
    by_cases hd' : d' = i
    · subst hd'
      exact hrm_i f
    · rw [hacc₂, indexFoldDoc_rm_other _ tok i D _ d' hd']
      show (((additionDeleted (applyAdditionOk tok s σ r₁)
        ((additionAcc tok s σ r₁).σ)
        ⟨[(uid, i)], [i], (applyAdditionOk tok s σ r₁).internalIds,
          [(i, D)]⟩).rankedMap).getD (fun _ _ => none)) d' f = _
      rw [additionDeleted_rankedMap, Option.getD_some,
        if_neg (fun hc => hd' (by
          have := hc.1
          rw [additionIds_single] at this
          exact Finset.mem_singleton.mp this)),
        applyAdditionOk_rankedMap, Option.getD_some]
  · exact applyAdditionOk_facets_of_none tok _ _ _
      (by rw [applyAdditionOk_attrs]; exact hfac)
  · rw [applyAdditionOk_attrs, applyAdditionOk_attrs]
  · rw [applyAdditionOk_stopWords, applyAdditionOk_stopWords]
  · rw [applyAdditionOk_prefixCache, hco5, hco6,
      ← applyAdditionOk_prefixCache]

/-- C2 (amended).  Under the documented invariants, with faceting not
configured, and for a batch whose document produces at least one indexed word
(the wordless counterexample breaks the claim otherwise): re-applying
`apply_documents_addition` with the same single document immediately after a
committed addition of it maps the committed state to itself — every sub-store
(postings, words FST, document fields, field counts, doc-words, ranked map,
facets, counters, id maps, prefix caches) is written back unchanged, because
the prior version is deleted before re-indexing. -/
theorem readdition_idempotent (tok : Tokenizer) (s s₁ : IndexState)
    (σ : Schema) (D : Document)
    (hW : WFS σ s) (hfac : s.attributesForFaceting = none)
    (hword : AdditionWorded tok s [D] false)
    (hcap : s₁.internalIds.card < U64LIMIT)
    (h1 : applyDocumentsAddition tok s [D] = Except.ok s₁) :
    applyDocumentsAddition tok s₁ [D] = Except.ok s₁ := by
  unfold applyDocumentsAddition at h1 ⊢
  unfold applyAddition at h1
  simp only [hW.schemaEq] at h1
  rcases hpk : σ.primaryKey with _ | pk
  · simp only [hpk] at h1
    exact absurd h1 (by simp)
  simp only [hpk] at h1
  rcases hres : resolveDocs s σ pk false [D] ⟨[], [], s.internalIds, []⟩
    with e | r₁
  · simp only [hres] at h1
    exact absurd h1 (by simp)
  simp only [hres] at h1
  have hs₁ : s₁ = applyAdditionOk tok s σ r₁ := (Except.ok.inj h1).symm
  subst hs₁
  rcases hext : extractDocumentId pk D s.userIds s.internalIds with e | trip
  · exfalso
    have h2 := hres
    simp only [resolveDocs, resolveStep, hext] at h2
    exact absurd h2 (by simp)
  · obtain ⟨i, uid, used'⟩ := trip
    have hres' := resolveDocs_single s σ pk false D i uid used' hext
    have hrcomp := Except.ok.inj (hres.symm.trans hres')
    have hadd₁ : r₁.additions = [(i, D)] := by
      rw [hrcomp]
      rfl
    have hnew₁ : r₁.newUser = [(uid, i)] := by
      rw [hrcomp]
    obtain ⟨hguid, hDne, hextcase⟩ :=
      extractDocumentId_inv pk D s.userIds s.internalIds i uid used' hext
    have hids₁ : additionIds r₁.additions = {i} := by
      rw [hadd₁, additionIds_single]
    have hseed₁f : (additionDeleted s σ r₁).documentsFields i = none := by
      rw [additionDeleted_documentsFields]
      by_cases ht : i ∈ delTouched s (additionIds r₁.additions)
      · rw [if_pos ht]
      · rw [if_neg ht]
        rcases hextcase with ⟨hlk, _⟩ | ⟨hlk, hi, _⟩
        · exfalso
          apply ht
          rw [delTouched_eq σ s hW, hids₁]
          exact Finset.mem_inter.mpr
            ⟨Finset.mem_singleton_self i, hW.lookupMem uid i hlk⟩
        · have hni : i ∉ s.internalIds := by
            rw [hi]
            exact nextFreeId_not_mem s.internalIds
          rcases hf : s.documentsFields i with _ | F
          · rfl
          · exact absurd (hW.fieldsDom i (by rw [hf]; rfl)) hni
    have hseed₁c : (additionDeleted s σ r₁).documentsFieldsCounts i = none := by
      rw [additionDeleted_documentsFieldsCounts]
      by_cases ht : i ∈ delTouched s (additionIds r₁.additions)
      · rw [if_pos ht]
      · rw [if_neg ht]
        rcases hextcase with ⟨hlk, _⟩ | ⟨hlk, hi, _⟩
        · exfalso
          apply ht
          rw [delTouched_eq σ s hW, hids₁]
          exact Finset.mem_inter.mpr
            ⟨Finset.mem_singleton_self i, hW.lookupMem uid i hlk⟩
        · have hni : i ∉ s.internalIds := by
            rw [hi]
            exact nextFreeId_not_mem s.internalIds
          rcases hc : s.documentsFieldsCounts i with _ | C
          · rfl
          · exfalso
            have hwords := hW.countsWords i (by rw [hc]; rfl)
            rcases hdw : s.docsWords i with _ | W2
            · apply hwords
              unfold wordsOfDoc
              rw [hdw]
              rfl
            · exact hni (hW.wordsDom i (by rw [hdw]; rfl))
    have hfresh : NoDupFresh s σ [D] := List.pairwise_singleton _ _
    have hword' : ∀ d ∈ additionIds r₁.additions,
        docsWordsOfEvents (additionAcc tok s σ r₁).events d ≠ ∅ := by
      unfold AdditionWorded at hword
      simp only [hW.schemaEq, hpk, hres] at hword
      exact hword
    have hW₁ := wfs_applyAdditionOk tok s σ pk false [D] r₁ hW hpk hres
      hfresh hword' hcap
    have hwordi : docsWordsOfEvents (additionAcc tok s σ r₁).events i ≠ ∅ :=
      hword' i (by rw [hids₁]; exact Finset.mem_singleton_self i)
    rcases hdg : docGet D pk with _ | v
    · rw [hdg] at hguid
      exact absurd hguid (by simp)
    · rw [hdg] at hguid
      have hvuid : valueToUserId v = some uid := by simpa using hguid
      have hu₁ : fmLookup (applyAdditionOk tok s σ r₁).userIds uid = some i := by
        rw [applyAdditionOk_userIds, removeUserIdsMap_nil,
          mergeUserIdsMap_lookup _ _ hW.sorted
            (by rw [hnew₁]; exact List.pairwise_singleton _ _), hnew₁,
          fmLookup_cons, if_pos rfl, optOr_some_left]
      have hext₂ : extractDocumentId pk D (applyAdditionOk tok s σ r₁).userIds
          (applyAdditionOk tok s σ r₁).internalIds =
          Except.ok (i, uid, (applyAdditionOk tok s σ r₁).internalIds) := by
        unfold extractDocumentId
        simp only [hdg, hvuid, hu₁]
      have hres₂ := resolveDocs_single (applyAdditionOk tok s σ r₁)
        ((additionAcc tok s σ r₁).σ) pk false D i uid
        (applyAdditionOk tok s σ r₁).internalIds hext₂
      have hpk₁ : ((additionAcc tok s σ r₁).σ).primaryKey = some pk := by
        have hσf : (additionAcc tok s σ r₁).σ =
            schemaFold σ (D.map Prod.fst) := by
          rw [additionAcc_single tok s σ r₁ i D hadd₁]
          exact indexFoldDoc_σ_eq _ tok i D _
        rw [hσf, schemaFold_primaryKey]
        exact hpk
      rw [applyAddition_eq_ok tok (applyAdditionOk tok s σ r₁)
        ((additionAcc tok s σ r₁).σ) pk false [D] _
        (applyAdditionOk_schema tok s σ r₁) hpk₁ hres₂]
      exact congrArg Except.ok
        (readdition_state_eq tok s σ r₁ i uid D hW hadd₁ hnew₁ hW₁
          hseed₁f hseed₁c hwordi hfac)

theorem readdition_idempotent_witness :
    applyDocumentsAddition tokWord (addOk tokWord exInit [exDocA]) [exDocA] =
      Except.ok (addOk tokWord exInit [exDocA]) :=
  readdition_idempotent tokWord exInit (addOk tokWord exInit [exDocA])
    exSchema exDocA (wfs_initial exSchema none none (by decide)) rfl
    (by decide) (by decide) rfl

end Meili
